import Mathlib

/-! # Approval chain of the NFA application

A shallow embedding of the approval-chain handlers of `handlers/NfaHandler.go`
(`ApproveOrRejectNFA`, `processRecommenderAction`, `processApproverAction`,
`AddApprover`, `RemoveApprover`, `ApproveNFA`, `GetNFAApprovalList`,
`GetPendingApprovals`) over an explicit model of the two SQL tables they touch, and
theorems about them.

Modelling conventions.

* A table is the list of its rows.  `UPDATE ... WHERE c` maps over the rows that
  satisfy `c`, `DELETE ... WHERE c` filters them out, `SELECT EXISTS` is `List.any`,
  and `QueryRow(...).Scan` takes the first row that satisfies the condition
  (`sql.ErrNoRows` is `none`).  `ORDER BY` is a stable sort of the table order.
* A nullable column is an `Option`; a comparison with a NULL column is not true.
* `CURRENT_TIMESTAMP` is the parameter `now`.
* Arithmetic that the SQL statements do on a column is exact; arithmetic that the Go
  code does on `int` wraps around at 64 bits (`goInt`).
* A handler returns its HTTP status together with the store after the call. A
  transaction that is rolled back leaves the store as it was.  Failures of the
  database driver itself (the `500` branches) are not modelled.
* The session lookup at the head of a handler is resolved: `userID` is the user
  the session belongs to.
-/

namespace NfaApp

/-- Row of table `nfa`, with the columns the approval chain reads or writes
(`models.NFA`; column `comments` is written by `processRecommenderAction`). -/
structure NFA where
  NFAID : Int
  Recommender : Int
  Status : String
  Comments : Option String
  deriving DecidableEq, Repr

/-- Row of table `nfa_approval_list` (`models.NFAApprovalList`): `Order` is column
`order_value`, `StartedDate` is `started_at`, `CompletedDate` is `updated_at`.
The generated key `id` and the joined `ApproverName` play no part in the
transitions and are left out. -/
structure NFAApprovalList where
  NFAID : Int
  ApproverID : Int
  Order : Int
  Status : Option String
  Comments : Option String
  StartedDate : Option Nat
  CompletedDate : Option Nat
  deriving DecidableEq, Repr

/-- The store: tables `nfa` and `nfa_approval_list`. -/
structure DB where
  nfa : List NFA
  nfa_approval_list : List NFAApprovalList
  deriving DecidableEq, Repr

/-- HTTP status of a handler response. -/
inductive Response where
  | OK
  | BadRequest
  | Unauthorized
  | Forbidden
  | NotFound
  | InternalServerError
  deriving DecidableEq, Repr

/-- SQL `NULLIF(a, b)`: NULL when `a = b`, else `a`. -/
def NULLIF (a b : String) : Option String :=
  if a = b then none else some a

/-- Statement `UPDATE nfa SET status = $status WHERE nfa_id = $nfaID`. -/
def updateNFAStatus (db : DB) (nfaID : Int) (status : String) : DB :=
  { db with nfa := db.nfa.map fun n =>
      if n.NFAID = nfaID then { n with Status := status } else n }

/-- Statement `UPDATE nfa_approval_list SET started_at = CURRENT_TIMESTAMP, status = 'Pending'
WHERE nfa_id = $1 AND order_value = $2`. -/
def startApproval (db : DB) (now : Nat) (nfaID order : Int) : DB :=
  { db with nfa_approval_list := db.nfa_approval_list.map fun r =>
      if r.NFAID = nfaID ∧ r.Order = order then
        { r with StartedDate := some now, Status := some "Pending" }
      else r }

/-- Query `SELECT EXISTS(SELECT 1 FROM nfa_approval_list WHERE nfa_id = $1 AND order_value = $2)`. -/
def approverExistsAt (db : DB) (nfaID order : Int) : Bool :=
  db.nfa_approval_list.any fun r => decide (r.NFAID = nfaID ∧ r.Order = order)

/-- Statement `UPDATE nfa_approval_list SET status = $status, comments = NULLIF($1, ''),
updated_at = CURRENT_TIMESTAMP WHERE nfa_id = $2 AND approver_id = $3 AND order_value = $4`. -/
def closeApproval (db : DB) (now : Nat) (status comment : String)
    (nfaID userID currentOrder : Int) : DB :=
  { db with nfa_approval_list := db.nfa_approval_list.map fun r =>
      if r.NFAID = nfaID ∧ r.ApproverID = userID ∧ r.Order = currentOrder then
        { r with Status := some status, Comments := NULLIF comment "",
                 CompletedDate := some now }
      else r }

/-- Function `processRecommenderAction` of `handlers/NfaHandler.go`. -/
def processRecommenderAction (db : DB) (now : Nat) (nfaID : Int)
    (action comment : String) : DB :=
  if action = "approve" then
    let hasApprovers := approverExistsAt db nfaID 1
    if !hasApprovers then
      updateNFAStatus db nfaID "Completed"
    else
      startApproval (updateNFAStatus db nfaID "Initiated") now nfaID 1
  else if action = "reject" then
    { db with nfa := db.nfa.map fun n =>
        if n.NFAID = nfaID then
          { n with Status := "Rejected", Comments := NULLIF comment "" }
        else n }
  else db

/-- Value of Go's 64-bit `int` that an integer result wraps around to (two's
complement): the identity between `-2^63` and `2^63 - 1`. -/
def goInt (x : Int) : Int :=
  (x + 2 ^ 63) % 2 ^ 64 - 2 ^ 63

/-- The integer is a value of Go's 64-bit `int`. -/
def IsGoInt (x : Int) : Prop :=
  -2 ^ 63 ≤ x ∧ x < 2 ^ 63

instance (x : Int) : Decidable (IsGoInt x) := by
  unfold IsGoInt; infer_instance

/-- Function `processApproverAction` of `handlers/NfaHandler.go`.  The position of the
next approver is the Go expression `currentOrder+1` on `int`, which wraps around. -/
def processApproverAction (db : DB) (now : Nat) (nfaID currentOrder : Int)
    (action comment : String) (userID : Int) : DB :=
  if action = "approve" then
    let db1 := closeApproval db now "Approved" comment nfaID userID currentOrder
    let nextApproverExists := approverExistsAt db1 nfaID (goInt (currentOrder + 1))
    if nextApproverExists then
      startApproval db1 now nfaID (goInt (currentOrder + 1))
    else
      updateNFAStatus db1 nfaID "Completed"
  else if action = "reject" then
    let db1 := closeApproval db now "Rejected" comment nfaID userID currentOrder
    updateNFAStatus db1 nfaID "Rejected_By_Approver"
  else db

/-- Query `SELECT EXISTS(SELECT 1 FROM nfa WHERE nfa_id = $1)`. -/
def nfaExists (db : DB) (nfaID : Int) : Bool :=
  db.nfa.any fun n => decide (n.NFAID = nfaID)

/-- Query `SELECT EXISTS(SELECT 1 FROM nfa WHERE nfa_id = $1 AND recommender = $2
AND status = 'Pending')`. -/
def isRecommender (db : DB) (nfaID userID : Int) : Bool :=
  db.nfa.any fun n =>
    decide (n.NFAID = nfaID ∧ n.Recommender = userID ∧ n.Status = "Pending")

/-- The condition of the current-approver query of `ApproveOrRejectNFA`:
`nfa_id = $1 AND approver_id = $2 AND started_at IS NOT NULL AND updated_at IS NULL
AND status = 'Pending'`. -/
def isCurrentApproverRow (nfaID userID : Int) (r : NFAApprovalList) : Bool :=
  decide (r.NFAID = nfaID ∧ r.ApproverID = userID ∧ r.StartedDate ≠ none ∧
    r.CompletedDate = none ∧ r.Status = some "Pending")

/-- Query `SELECT order_value FROM nfa_approval_list WHERE ...` scanned into `currentOrder`;
`none` is `sql.ErrNoRows`. -/
def currentOrderOf (db : DB) (nfaID userID : Int) : Option Int :=
  (db.nfa_approval_list.find? (isCurrentApproverRow nfaID userID)).map fun r => r.Order

/-- Handler `ApproveOrRejectNFA` of `handlers/NfaHandler.go`, from the validation of
the request body on. -/
def ApproveOrRejectNFA (db : DB) (now : Nat) (userID nfaID : Int)
    (action comment : String) : Response × DB :=
  if nfaID ≤ 0 then (Response.BadRequest, db)
  else if action ≠ "approve" ∧ action ≠ "reject" then (Response.BadRequest, db)
  else if !nfaExists db nfaID then (Response.NotFound, db)
  else if isRecommender db nfaID userID then
    (Response.OK, processRecommenderAction db now nfaID action comment)
  else
    match currentOrderOf db nfaID userID with
    | none => (Response.Forbidden, db)
    | some currentOrder =>
      (Response.OK, processApproverAction db now nfaID currentOrder action comment userID)

/-- Query `SELECT order_value FROM nfa_approval_list WHERE nfa_id = $1 AND status = 'Pending'`
scanned into `pendingOrder`, which keeps its zero value on `sql.ErrNoRows`. -/
def pendingOrderOf (db : DB) (nfaID : Int) : Int :=
  match db.nfa_approval_list.find? fun r =>
      decide (r.NFAID = nfaID ∧ r.Status = some "Pending") with
  | some r => r.Order
  | none => 0

/-- Handler `AddApprover` of `handlers/NfaHandler.go`; the arguments are the fields
`NFAID`, `ApproverID`, `Order` and `Comments` of the bound request body.  The
columns the `INSERT` does not list (`started_at`, `updated_at`) are NULL in the new
row. -/
def AddApprover (db : DB) (nfaID approverID order : Int) (comments : String) :
    Response × DB :=
  if nfaID = 0 ∨ approverID = 0 ∨ order = 0 then (Response.BadRequest, db)
  else
    let pendingOrder := pendingOrderOf db nfaID
    let shifted := db.nfa_approval_list.map fun r =>
      if r.NFAID = nfaID ∧ r.Order ≥ order then { r with Order := r.Order + 1 } else r
    let status := if pendingOrder = 0 ∧ order = 1 then "Pending" else "Waiting"
    let newRow : NFAApprovalList :=
      { NFAID := nfaID, ApproverID := approverID, Order := order, Status := some status,
        Comments := some comments, StartedDate := none, CompletedDate := none }
    (Response.OK, { db with nfa_approval_list := shifted ++ [newRow] })

/-- Query `SELECT order_value FROM nfa_approval_list WHERE nfa_id = $1 AND approver_id = $2`
of `RemoveApprover`, scanned into `deletedOrder`; `none` is `sql.ErrNoRows`. -/
def deletedOrderOf (db : DB) (nfaID approverID : Int) : Option Int :=
  (db.nfa_approval_list.find? fun r =>
    decide (r.NFAID = nfaID ∧ r.ApproverID = approverID)).map fun r => r.Order

/-- Query `SELECT EXISTS(SELECT 1 FROM nfa_approval_list WHERE nfa_id = $1 AND
status = 'Pending')`. -/
def pendingExists (db : DB) (nfaID : Int) : Bool :=
  db.nfa_approval_list.any fun r => decide (r.NFAID = nfaID ∧ r.Status = some "Pending")

/-- Subquery `SELECT MIN(order_value) FROM nfa_approval_list WHERE nfa_id = $1 AND
status = 'Waiting'`; `none` is NULL, the minimum of no row. -/
def minWaitingOrder (db : DB) (nfaID : Int) : Option Int :=
  ((db.nfa_approval_list.filter fun r =>
    decide (r.NFAID = nfaID ∧ r.Status = some "Waiting")).map fun r => r.Order).min?

/-- Statement `DELETE FROM nfa_approval_list WHERE nfa_id = $1 AND approver_id = $2`. -/
def deleteApprover (db : DB) (nfaID approverID : Int) : DB :=
  { db with nfa_approval_list := db.nfa_approval_list.filter fun r =>
      !decide (r.NFAID = nfaID ∧ r.ApproverID = approverID) }

/-- Statement `UPDATE nfa_approval_list SET order_value = order_value - 1
WHERE nfa_id = $1 AND order_value > $2`. -/
def shiftDown (db : DB) (nfaID deletedOrder : Int) : DB :=
  { db with nfa_approval_list := db.nfa_approval_list.map fun r =>
      if r.NFAID = nfaID ∧ r.Order > deletedOrder then { r with Order := r.Order - 1 }
      else r }

/-- Statement `UPDATE nfa_approval_list SET status = 'Pending' WHERE nfa_id = $1 AND
order_value = (SELECT MIN(order_value) ... AND status = 'Waiting')`; the comparison
with a NULL minimum is not true. -/
def promoteNext (db : DB) (nfaID : Int) : DB :=
  { db with nfa_approval_list := db.nfa_approval_list.map fun r =>
      if r.NFAID = nfaID ∧ some r.Order = minWaitingOrder db nfaID then
        { r with Status := some "Pending" }
      else r }

/-- Handler `RemoveApprover` of `handlers/NfaHandler.go`; the arguments are the path
parameters `approver_id` and `nfa_id`. -/
def RemoveApprover (db : DB) (approverID nfaID : Int) : Response × DB :=
  match deletedOrderOf db nfaID approverID with
  | none => (Response.NotFound, db)
  | some deletedOrder =>
    let db2 := shiftDown (deleteApprover db nfaID approverID) nfaID deletedOrder
    if !pendingExists db2 nfaID then (Response.OK, promoteNext db2 nfaID)
    else (Response.OK, db2)

/-- Query `SELECT approver_id FROM nfa_approval_list WHERE nfa_id = $1 AND
order_value > $2 AND status = 'Pending' ORDER BY order_value ASC LIMIT 1` of
`ApproveNFA`; `none` is `sql.ErrNoRows`. -/
def nextApproverOf (db : DB) (nfaID currentOrder : Int) : Option Int :=
  (((db.nfa_approval_list.filter fun r =>
      decide (r.NFAID = nfaID ∧ r.Order > currentOrder ∧ r.Status = some "Pending")).insertionSort
    fun a b => a.Order ≤ b.Order).head?).map fun r => r.ApproverID

/-- Statement `UPDATE nfa_approval_list SET status = $status WHERE nfa_id = $1 AND
approver_id = $2` of `ApproveNFA`. -/
def setApproverStatus (db : DB) (nfaID approverID : Int) (status : String) : DB :=
  { db with nfa_approval_list := db.nfa_approval_list.map fun r =>
      if r.NFAID = nfaID ∧ r.ApproverID = approverID then { r with Status := some status }
      else r }

/-- Handler `ApproveNFA` of `handlers/NfaHandler.go`; the arguments are the path
parameters `nfa_id` and `approver_id`.  The result carries the HTTP status, the
message or error text of the response, and the store after the call. -/
def ApproveNFA (db : DB) (nfaID approverID : Int) : Response × String × DB :=
  match (db.nfa_approval_list.find? fun r =>
      decide (r.NFAID = nfaID ∧ r.ApproverID = approverID ∧ r.Status = some "Pending")).map
      fun r => r.Order with
  | none => (Response.BadRequest, "Approver is not next in line or already approved", db)
  | some currentOrder =>
    let db1 := setApproverStatus db nfaID approverID "Complete"
    match nextApproverOf db1 nfaID currentOrder with
    | none => (Response.OK, "Final approval completed. No more approvers remaining.", db1)
    | some nextApproverID =>
      (Response.OK, "Approval completed. Next approver activated.",
        setApproverStatus db1 nfaID nextApproverID "Pending")

/-- Element of the response of `GetNFAApprovalList`: the selected columns of a chain
row, `comments` through `COALESCE(al.comments, '')`.  The generated key `id` and the
joined `approver_name` are left out, as in `NFAApprovalList`. -/
structure ApprovalWithName where
  NFAID : Int
  ApproverID : Int
  Order : Int
  Status : String
  Comments : String
  deriving DecidableEq, Repr

/-- The condition `al.nfa_id = $1 AND al.status != 'Complete'` of `GetNFAApprovalList`;
it is not true of a row whose status is NULL. -/
def isListedRow (nfaID : Int) (r : NFAApprovalList) : Bool :=
  decide (r.NFAID = nfaID) &&
    (match r.Status with
     | some s => decide (s ≠ "Complete")
     | none => false)

/-- The select list of `GetNFAApprovalList` on a row. -/
def toApprovalWithName (r : NFAApprovalList) : ApprovalWithName :=
  { NFAID := r.NFAID, ApproverID := r.ApproverID, Order := r.Order,
    Status := r.Status.getD "", Comments := r.Comments.getD "" }

/-- Handler `GetNFAApprovalList` of `handlers/NfaHandler.go`: the rows that satisfy the
condition, `ORDER BY al.order_value ASC`, each through the select list. -/
def GetNFAApprovalList (db : DB) (nfaID : Int) : Response × List ApprovalWithName :=
  let selected := db.nfa_approval_list.filter (isListedRow nfaID)
  let ordered := selected.insertionSort fun a b => a.Order ≤ b.Order
  (Response.OK, ordered.map toApprovalWithName)

/-- Element of the response of `GetPendingApprovals`: the columns `n.nfa_id`,
`n.status`, `n.recommender`, `al.order_value` and `al.started_at` of the select list.
The descriptive columns of the request, the joined names and the approvals and files
that `fetchApprovalsAndFiles` attaches are left out. -/
structure NFAWithNames where
  NFAID : Int
  Status : String
  Recommender : Int
  OrderValue : Int
  StartedAt : Nat
  deriving DecidableEq, Repr

/-- The rows that `FROM nfa n INNER JOIN nfa_approval_list al ON n.nfa_id = al.nfa_id
WHERE al.approver_id = $1 AND al.status = 'Pending' AND al.started_at IS NOT NULL AND
al.updated_at IS NULL` joins with the request `n`, through the select list. -/
def pendingJoin (db : DB) (userID : Int) (n : NFA) : List NFAWithNames :=
  db.nfa_approval_list.filterMap fun al =>
    match al.StartedDate with
    | some startedAt =>
      if n.NFAID = al.NFAID ∧ al.ApproverID = userID ∧ al.Status = some "Pending" ∧
          al.CompletedDate = none then
        some { NFAID := n.NFAID, Status := n.Status, Recommender := n.Recommender,
               OrderValue := al.Order, StartedAt := startedAt }
      else none
    | none => none

/-- Handler `GetPendingApprovals` of `handlers/NfaHandler.go` for the user of the
session: the joined rows, `ORDER BY al.started_at ASC`.  It answers OK also when the
list is empty. -/
def GetPendingApprovals (db : DB) (userID : Int) : Response × List NFAWithNames :=
  let joined := (db.nfa.map (pendingJoin db userID)).flatten
  (Response.OK, joined.insertionSort fun a b => a.StartedAt ≤ b.StartedAt)

/-! ## Vocabulary of the specification -/

/-- The chain of a request: its rows of `nfa_approval_list`, in table order. -/
def chain (db : DB) (nfaID : Int) : List NFAApprovalList :=
  db.nfa_approval_list.filter fun r => decide (r.NFAID = nfaID)

/-- The positions of the chain of a request are pairwise distinct. -/
def UniquePositions (db : DB) (nfaID : Int) : Prop :=
  ((chain db nfaID).map fun r => r.Order).Nodup

/-- The request is stored. -/
def RequestExists (db : DB) (nfaID : Int) : Prop :=
  ∃ n ∈ db.nfa, n.NFAID = nfaID

/-- The stored request has the given status. -/
def RequestHasStatus (db : DB) (nfaID : Int) (status : String) : Prop :=
  RequestExists db nfaID ∧ ∀ n ∈ db.nfa, n.NFAID = nfaID → n.Status = status

/-- The user is the recommender of the request while its status is `Pending`. -/
def RecommenderOfPending (db : DB) (nfaID userID : Int) : Prop :=
  ∃ n ∈ db.nfa, n.NFAID = nfaID ∧ n.Recommender = userID ∧ n.Status = "Pending"

/-- A chain member that is `Pending`, started and not completed: an active member. -/
def Active (r : NFAApprovalList) : Prop :=
  r.Status = some "Pending" ∧ r.StartedDate ≠ none ∧ r.CompletedDate = none

instance (db : DB) (nfaID : Int) : Decidable (UniquePositions db nfaID) := by
  unfold UniquePositions; infer_instance

instance (db : DB) (nfaID : Int) : Decidable (RequestExists db nfaID) := by
  unfold RequestExists; infer_instance

instance (db : DB) (nfaID : Int) (s : String) : Decidable (RequestHasStatus db nfaID s) := by
  unfold RequestHasStatus; infer_instance

instance (db : DB) (nfaID userID : Int) : Decidable (RecommenderOfPending db nfaID userID) := by
  unfold RecommenderOfPending; infer_instance

instance (r : NFAApprovalList) : Decidable (Active r) := by
  unfold Active; infer_instance

/-- The positions of the chain of a request are exactly `1, ..., N`, each taken once. -/
def PositionsOneTo (db : DB) (nfaID : Int) (N : Nat) : Prop :=
  ((chain db nfaID).map fun r => r.Order).Perm ((List.range' 1 N).map Int.ofNat)

/-- Some member of the chain of the request is Pending. -/
def HasPending (db : DB) (nfaID : Int) : Prop :=
  ∃ r ∈ chain db nfaID, r.Status = some "Pending"

instance (db : DB) (nfaID : Int) (N : Nat) : Decidable (PositionsOneTo db nfaID N) := by
  unfold PositionsOneTo; infer_instance

instance (db : DB) (nfaID : Int) : Decidable (HasPending db nfaID) := by
  unfold HasPending; infer_instance

/-- The number of Pending members of the chain of a request. -/
def pendingCount (db : DB) (nfaID : Int) : Nat :=
  ((chain db nfaID).filter fun r => decide (r.Status = some "Pending")).length

/-- The chain of a request has at most one Pending member. -/
def AtMostOnePending (db : DB) (nfaID : Int) : Prop :=
  pendingCount db nfaID ≤ 1

instance (db : DB) (nfaID : Int) : Decidable (AtMostOnePending db nfaID) := by
  unfold AtMostOnePending; infer_instance

/-- The rows that `RemoveApprover` does not delete: all but the members of the request
owned by the approver. -/
def remainingRows (db : DB) (nfaID approverID : Int) : List NFAApprovalList :=
  db.nfa_approval_list.filter fun r => !decide (r.NFAID = nfaID ∧ r.ApproverID = approverID)

/-- Row `r` is a Waiting member of the request with the lowest position among the
Waiting members of the request in `l`. -/
def LowestWaiting (l : List NFAApprovalList) (nfaID : Int) (r : NFAApprovalList) : Prop :=
  r.NFAID = nfaID ∧ r.Status = some "Waiting" ∧
    ∀ s ∈ l, s.NFAID = nfaID → s.Status = some "Waiting" → r.Order ≤ s.Order

instance (l : List NFAApprovalList) (nfaID : Int) (r : NFAApprovalList) :
    Decidable (LowestWaiting l nfaID r) := by
  unfold LowestWaiting; infer_instance

/-- One call on the chain of a request, as the amended contiguity invariant admits
it: an `AddApprover` at a position between 1 and the number of members plus one, a
`RemoveApprover` of an approver who owns at most one member of the chain, an
`ApproveNFA`, or an `ApproveOrRejectNFA` (any actor, action and comment). -/
inductive ChainStep (nfaID : Int) : DB → DB → Prop where
  | add (db : DB) (approverID p : Int) (comments : String)
      (hp : 1 ≤ p ∧ p ≤ (chain db nfaID).length + 1) :
      ChainStep nfaID db (AddApprover db nfaID approverID p comments).2
  | remove (db : DB) (approverID : Int)
      (hone : ∀ r ∈ chain db nfaID, ∀ s ∈ chain db nfaID,
        r.ApproverID = approverID → s.ApproverID = approverID → r = s) :
      ChainStep nfaID db (RemoveApprover db approverID nfaID).2
  | approveNFA (db : DB) (approverID : Int) :
      ChainStep nfaID db (ApproveNFA db nfaID approverID).2.2
  | act (db : DB) (now : Nat) (userID : Int) (action comment : String) :
      ChainStep nfaID db (ApproveOrRejectNFA db now userID nfaID action comment).2

/-- No member of the chain of the request is started and not completed. -/
def Settled (db : DB) (nfaID : Int) : Prop :=
  ∀ r ∈ chain db nfaID, r.StartedDate ≠ none → r.CompletedDate ≠ none

instance (db : DB) (nfaID : Int) : Decidable (Settled db nfaID) := by
  unfold Settled; infer_instance

/-- A call of one of the four handlers that write the chain, with its arguments; the
request it addresses is among them. -/
inductive Call where
  | addApprover (nfaID approverID order : Int) (comments : String)
  | removeApprover (approverID nfaID : Int)
  | approveNFA (nfaID approverID : Int)
  | approveOrReject (now : Nat) (userID nfaID : Int) (action comment : String)
  deriving DecidableEq, Repr

/-- The store after a call. -/
def applyCall (db : DB) : Call → DB
  | Call.addApprover nfaID approverID order comments =>
    (AddApprover db nfaID approverID order comments).2
  | Call.removeApprover approverID nfaID => (RemoveApprover db approverID nfaID).2
  | Call.approveNFA nfaID approverID => (ApproveNFA db nfaID approverID).2.2
  | Call.approveOrReject now userID nfaID action comment =>
    (ApproveOrRejectNFA db now userID nfaID action comment).2

/-- The store after a sequence of calls, the first of the list first. -/
def applyCalls (db : DB) (calls : List Call) : DB :=
  calls.foldl applyCall db

/-- A member in a terminal state: Approved, Rejected or Complete. -/
def Terminal (r : NFAApprovalList) : Prop :=
  r.Status = some "Approved" ∨ r.Status = some "Rejected" ∨ r.Status = some "Complete"

instance (r : NFAApprovalList) : Decidable (Terminal r) := by
  unfold Terminal; infer_instance

/-- Every member at a position lower than that of a Pending member is terminal. -/
def ActiveIsLowest (db : DB) (nfaID : Int) : Prop :=
  ∀ n ∈ chain db nfaID, n.Status = some "Pending" →
    ∀ m ∈ chain db nfaID, m.Order < n.Order → Terminal m

instance (db : DB) (nfaID : Int) : Decidable (ActiveIsLowest db nfaID) := by
  unfold ActiveIsLowest; infer_instance

/-- The chain of the request is ordered by progress: every member has a position of at
least 1 and is terminal, Pending or Waiting; of two members at different positions the
lower is terminal or the higher is Waiting; and while a row of the request in table
`nfa` has status `Pending`, no member is terminal or started. -/
def Ordered (db : DB) (nfaID : Int) : Prop :=
  (∀ r ∈ chain db nfaID, 1 ≤ r.Order ∧
    (Terminal r ∨ r.Status = some "Pending" ∨ r.Status = some "Waiting")) ∧
  (∀ a ∈ chain db nfaID, ∀ b ∈ chain db nfaID, a.Order < b.Order →
    Terminal a ∨ b.Status = some "Waiting") ∧
  (∀ n ∈ db.nfa, n.NFAID = nfaID → n.Status = "Pending" →
    ∀ r ∈ chain db nfaID, ¬ Terminal r ∧ r.StartedDate = none)

/-- No Waiting member of the chain is started, and the position of every started member
is below `2^63`. -/
def StartedFit (db : DB) (nfaID : Int) : Prop :=
  ∀ r ∈ chain db nfaID, r.StartedDate ≠ none →
    r.Status ≠ some "Waiting" ∧ r.Order < 2 ^ 63

/-- One call on the chain of a request, as the amended ordering invariant admits it:
an `AddApprover` at a position of at least 1 that is above the position of every member
that is not Waiting, a `RemoveApprover`, or an `ApproveOrRejectNFA` (any actor, action
and comment). -/
inductive OrderedStep (nfaID : Int) : DB → DB → Prop where
  | add (db : DB) (approverID p : Int) (comments : String)
      (hp : 1 ≤ p ∧ ∀ r ∈ chain db nfaID, r.Status ≠ some "Waiting" → r.Order < p) :
      OrderedStep nfaID db (AddApprover db nfaID approverID p comments).2
  | remove (db : DB) (approverID : Int) :
      OrderedStep nfaID db (RemoveApprover db approverID nfaID).2
  | act (db : DB) (now : Nat) (userID : Int) (action comment : String) :
      OrderedStep nfaID db (ApproveOrRejectNFA db now userID nfaID action comment).2

/-- A chain row with the given request, approver, position, status and timestamps, and
no comment. -/
def row (nfaID approverID order : Int) (status : String) (started completed : Option Nat) :
    NFAApprovalList :=
  { NFAID := nfaID, ApproverID := approverID, Order := order, Status := some status,
    Comments := none, StartedDate := started, CompletedDate := completed }

/-- Request 1 with recommender 9 and the given status. -/
def request1 (status : String) : NFA :=
  { NFAID := 1, Recommender := 9, Status := status, Comments := none }

/-- The scenario `[A@1 = Pending, B@2 = Waiting]` of an `Initiated` request: user 10 is
A, user 11 is B. -/
def storeAB : DB :=
  { nfa := [request1 "Initiated"]
    nfa_approval_list := [row 1 10 1 "Pending" (some 5) none, row 1 11 2 "Waiting" none none] }

/-- An `Initiated` request in which user 10 owns two active members, at positions 1
and 2, followed by user 11 at position 3. -/
def storeAAB : DB :=
  { nfa := [request1 "Initiated"]
    nfa_approval_list := [row 1 10 1 "Pending" (some 5) none,
      row 1 10 2 "Pending" (some 6) none, row 1 11 3 "Waiting" none none] }

/-- An `Initiated` request whose only member is Pending with no started timestamp, as
`AddApprover` and `RemoveApprover` leave a member they make Pending. -/
def storeUnstarted : DB :=
  { nfa := [request1 "Initiated"]
    nfa_approval_list := [row 1 10 1 "Pending" none none] }

/-- The scenario `[A@1 = Pending]` of an `Initiated` request, A being the last member. -/
def storeLast : DB :=
  { nfa := [request1 "Initiated"]
    nfa_approval_list := [row 1 10 1 "Pending" (some 5) none] }

/-- A `Pending` request with no approver configured. -/
def storeNoChain : DB :=
  { nfa := [request1 "Pending"]
    nfa_approval_list := [] }

/-- A `Pending` request with the chain `[A@1 = Waiting, B@2 = Waiting]`, and a second
request with a chain of its own. -/
def storeWaiting : DB :=
  { nfa := [request1 "Pending",
      { NFAID := 2, Recommender := 9, Status := "Pending", Comments := none }]
    nfa_approval_list := [row 1 10 1 "Waiting" none none, row 1 11 2 "Waiting" none none,
      row 2 10 1 "Waiting" none none] }

/-- An `Initiated` request in which user 10 owns two consecutive members: the active
one at position 1 and the Waiting one at position 2. -/
def storeTwice : DB :=
  { nfa := [request1 "Initiated"]
    nfa_approval_list := [row 1 10 1 "Pending" (some 5) none, row 1 10 2 "Waiting" none none] }

/-- The scenario `[A@1 = Complete, B@2 = Pending, C@3 = Waiting]` of an `Initiated`
request: user 10 is A, user 11 is B, user 12 is C. -/
def storeABC : DB :=
  { nfa := [request1 "Initiated"]
    nfa_approval_list := [row 1 10 1 "Complete" none none, row 1 11 2 "Pending" none none,
      row 1 12 3 "Waiting" none none] }

/-- An `Initiated` request whose active member, of user 10, is at the largest position
of Go's `int`, `2^63 - 1`, while user 11 is Waiting at the smallest, `-2^63`. -/
def storeWrap : DB :=
  { nfa := [request1 "Initiated"]
    nfa_approval_list := [row 1 10 (2 ^ 63 - 1) "Pending" (some 5) none,
      row 1 11 (-2 ^ 63) "Waiting" none none] }

/-- The store `storeWrap` with user 10 as the owner of both members. -/
def storeWrapTwice : DB :=
  { nfa := [request1 "Initiated"]
    nfa_approval_list := [row 1 10 (2 ^ 63 - 1) "Pending" (some 5) none,
      row 1 10 (-2 ^ 63) "Waiting" none none] }

/-- A `Pending` request with the chain that `CreateNFA` stores for the approval list
`[user 10 at 1, user 11 at 2]`: its `INSERT` lists `nfa_id`, `approver_id` and
`order_value`, so `status`, `comments` and the timestamps are NULL. -/
def storeCreated : DB :=
  { nfa := [request1 "Pending"]
    nfa_approval_list :=
      [{ NFAID := 1, ApproverID := 10, Order := 1, Status := none, Comments := none,
         StartedDate := none, CompletedDate := none },
       { NFAID := 1, ApproverID := 11, Order := 2, Status := none, Comments := none,
         StartedDate := none, CompletedDate := none }] }

/-- A `Pending` request whose recommender, user 9, also owns the member at position 1,
which is Pending and started, with user 11 Waiting at position 2. -/
def storeRecommenderActive : DB :=
  { nfa := [request1 "Pending"]
    nfa_approval_list := [row 1 9 1 "Pending" (some 5) none, row 1 11 2 "Waiting" none none] }

/-- A `Pending` request whose two members, of users 10 and 11, both have position 1,
as `CreateNFA` stores an approval list that gives both the order value 1. -/
def storeDuplicate : DB :=
  { nfa := [request1 "Pending"]
    nfa_approval_list := [row 1 10 1 "Waiting" none none, row 1 11 1 "Waiting" none none] }

/-! ## Auxiliary lemmas -/

theorem goInt_eq_self {x : Int} (h : IsGoInt x) : goInt x = x := by
  unfold IsGoInt at h
  unfold goInt
  omega

theorem isGoInt_goInt (x : Int) : IsGoInt (goInt x) := by
  unfold IsGoInt goInt
  omega

theorem goInt_succ_of_pos {k : Int} (h1 : 1 ≤ k) (h2 : k < 2 ^ 63) :
    goInt (k + 1) = k + 1 ∨ (k = 2 ^ 63 - 1 ∧ goInt (k + 1) < 1) := by
  unfold goInt
  omega

theorem nfaExists_iff (db : DB) (nfaID : Int) :
    nfaExists db nfaID = true ↔ RequestExists db nfaID := by
  simp [nfaExists, RequestExists, List.any_eq_true]

theorem isRecommender_iff (db : DB) (nfaID userID : Int) :
    isRecommender db nfaID userID = true ↔ RecommenderOfPending db nfaID userID := by
  simp [isRecommender, RecommenderOfPending, List.any_eq_true]

theorem isCurrentApproverRow_iff (nfaID userID : Int) (r : NFAApprovalList) :
    isCurrentApproverRow nfaID userID r = true ↔
      r.NFAID = nfaID ∧ r.ApproverID = userID ∧ Active r := by
  simp only [isCurrentApproverRow, Active, decide_eq_true_eq]
  tauto

theorem currentOrderOf_eq_some {db : DB} {nfaID userID p : Int}
    (hex : ∃ m ∈ db.nfa_approval_list, isCurrentApproverRow nfaID userID m = true)
    (hall : ∀ r ∈ db.nfa_approval_list, isCurrentApproverRow nfaID userID r = true → r.Order = p) :
    currentOrderOf db nfaID userID = some p := by
  unfold currentOrderOf
  cases hf : db.nfa_approval_list.find? (isCurrentApproverRow nfaID userID) with
  | none =>
    obtain ⟨m, hm, hmc⟩ := hex
    have hno := List.find?_eq_none.mp hf m hm
    exact absurd hmc hno
  | some r =>
    simp [hall r (List.mem_of_find?_eq_some hf) (List.find?_some hf)]

theorem currentOrderOf_eq_none {db : DB} {nfaID userID : Int}
    (hall : ∀ r ∈ db.nfa_approval_list, isCurrentApproverRow nfaID userID r = false) :
    currentOrderOf db nfaID userID = none := by
  unfold currentOrderOf
  have hf : db.nfa_approval_list.find? (isCurrentApproverRow nfaID userID) = none := by
    rw [List.find?_eq_none]
    intro r hr
    simp [hall r hr]
  simp [hf]

theorem ApproveOrRejectNFA_approver {db : DB} {now : Nat} {userID nfaID p : Int}
    {action comment : String} (hpos : 0 < nfaID)
    (hact : action = "approve" ∨ action = "reject") (hex : RequestExists db nfaID)
    (hrec : ¬ RecommenderOfPending db nfaID userID)
    (hcur : currentOrderOf db nfaID userID = some p) :
    ApproveOrRejectNFA db now userID nfaID action comment =
      (Response.OK, processApproverAction db now nfaID p action comment userID) := by
  have h1 : ¬ nfaID ≤ 0 := by omega
  have h2 : ¬ (action ≠ "approve" ∧ action ≠ "reject") := by tauto
  have h3 : nfaExists db nfaID = true := (nfaExists_iff _ _).mpr hex
  have h4 : isRecommender db nfaID userID = false := by
    rw [Bool.eq_false_iff]
    intro h
    exact hrec ((isRecommender_iff _ _ _).mp h)
  unfold ApproveOrRejectNFA
  rw [if_neg h1, if_neg h2]
  simp [h3, h4, hcur]

theorem ApproveOrRejectNFA_forbidden {db : DB} {now : Nat} {userID nfaID : Int}
    {action comment : String} (hpos : 0 < nfaID)
    (hact : action = "approve" ∨ action = "reject") (hex : RequestExists db nfaID)
    (hrec : ¬ RecommenderOfPending db nfaID userID)
    (hcur : currentOrderOf db nfaID userID = none) :
    ApproveOrRejectNFA db now userID nfaID action comment = (Response.Forbidden, db) := by
  have h1 : ¬ nfaID ≤ 0 := by omega
  have h2 : ¬ (action ≠ "approve" ∧ action ≠ "reject") := by tauto
  have h3 : nfaExists db nfaID = true := (nfaExists_iff _ _).mpr hex
  have h4 : isRecommender db nfaID userID = false := by
    rw [Bool.eq_false_iff]
    intro h
    exact hrec ((isRecommender_iff _ _ _).mp h)
  unfold ApproveOrRejectNFA
  rw [if_neg h1, if_neg h2]
  simp [h3, h4, hcur]

theorem chain_order_inj {db : DB} {nfaID : Int} (hu : UniquePositions db nfaID)
    {r s : NFAApprovalList} (hr : r ∈ db.nfa_approval_list) (hs : s ∈ db.nfa_approval_list)
    (hrn : r.NFAID = nfaID) (hsn : s.NFAID = nfaID) (ho : r.Order = s.Order) : r = s := by
  have hr' : r ∈ chain db nfaID := by simp [chain, hr, hrn]
  have hs' : s ∈ chain db nfaID := by simp [chain, hs, hsn]
  exact List.inj_on_of_nodup_map hu hr' hs' ho

theorem forall₂_map_of {α β : Type} (R : α → β → Prop) (f : α → β) (l : List α)
    (h : ∀ a ∈ l, R a (f a)) : List.Forall₂ R l (l.map f) := by
  induction l with
  | nil => exact List.Forall₂.nil
  | cons a t ih =>
    exact List.Forall₂.cons (h a (List.mem_cons_self a t))
      (ih fun b hb => h b (List.mem_cons_of_mem a hb))

theorem approverExistsAt_closeApproval (db : DB) (now : Nat) (status comment : String)
    (nfaID userID currentOrder n o : Int) :
    approverExistsAt (closeApproval db now status comment nfaID userID currentOrder) n o =
      approverExistsAt db n o := by
  unfold approverExistsAt closeApproval
  simp only [List.any_map]
  congr 1
  funext r
  simp only [Function.comp]
  split <;> rfl

theorem approverExistsAt_iff (db : DB) (n o : Int) :
    approverExistsAt db n o = true ↔ ∃ r ∈ db.nfa_approval_list, r.NFAID = n ∧ r.Order = o := by
  simp [approverExistsAt, List.any_eq_true]

theorem currentOrderOf_of_only_active {db : DB} {nfaID userID p : Int} {m : NFAApprovalList}
    (hm : m ∈ db.nfa_approval_list) (hmn : m.NFAID = nfaID) (hma : m.ApproverID = userID)
    (hmo : m.Order = p) (hmact : Active m)
    (honly : ∀ r ∈ db.nfa_approval_list,
      r.NFAID = nfaID → r.ApproverID = userID → Active r → r = m) :
    currentOrderOf db nfaID userID = some p := by
  apply currentOrderOf_eq_some
  · exact ⟨m, hm, (isCurrentApproverRow_iff _ _ _).mpr ⟨hmn, hma, hmact⟩⟩
  · intro r hr hc
    obtain ⟨h1, h2, h3⟩ := (isCurrentApproverRow_iff _ _ _).mp hc
    rw [honly r hr h1 h2 h3]
    exact hmo

theorem closeApproval_rows {db : DB} {nfaID userID p : Int} {m : NFAApprovalList}
    (now : Nat) (status comment : String) (hu : UniquePositions db nfaID)
    (hm : m ∈ db.nfa_approval_list) (hmn : m.NFAID = nfaID) (hma : m.ApproverID = userID)
    (hmo : m.Order = p) :
    List.Forall₂ (fun r r' =>
        (r = m → r' = { m with Status := some status, Comments := NULLIF comment "",
                               CompletedDate := some now }) ∧
        (r ≠ m → r' = r))
      db.nfa_approval_list
      (closeApproval db now status comment nfaID userID p).nfa_approval_list := by
  simp only [closeApproval]
  apply forall₂_map_of
  intro r hr
  by_cases hc : r.NFAID = nfaID ∧ r.ApproverID = userID ∧ r.Order = p
  · have hrm : r = m := chain_order_inj hu hr hm hc.1 hmn (hc.2.2.trans hmo.symm)
    subst hrm
    simp [hc]
  · have hrm : r ≠ m := by
      rintro rfl
      exact hc ⟨hmn, hma, hmo⟩
    simp [hc, hrm]

theorem updateNFAStatus_nfa (db : DB) (nfaID : Int) (status : String) :
    List.Forall₂ (fun n n' =>
        (n.NFAID = nfaID → n' = { n with Status := status }) ∧ (n.NFAID ≠ nfaID → n' = n))
      db.nfa (updateNFAStatus db nfaID status).nfa := by
  simp only [updateNFAStatus]
  apply forall₂_map_of
  intro n _
  by_cases hc : n.NFAID = nfaID <;> simp [hc]

theorem updateNFAStatus_hasStatus {db : DB} {nfaID : Int} (status : String)
    (hex : RequestExists db nfaID) :
    RequestHasStatus (updateNFAStatus db nfaID status) nfaID status := by
  obtain ⟨n, hn, hid⟩ := hex
  constructor
  · refine ⟨{ n with Status := status }, ?_, hid⟩
    simp only [updateNFAStatus, List.mem_map]
    exact ⟨n, hn, by simp [hid]⟩
  · intro n' hn' hid'
    simp only [updateNFAStatus, List.mem_map] at hn'
    obtain ⟨k, -, hk⟩ := hn'
    by_cases hc : k.NFAID = nfaID
    · rw [if_pos hc] at hk
      rw [← hk]
    · rw [if_neg hc] at hk
      rw [← hk] at hid'
      exact absurd hid' hc

/-! ## Approve and reject by the active approver -/

/-- C1 (amended): in a stored request with a positive id, status `Initiated` and
unique chain positions, let the actor own the member `m` at position `p`, let `m` be
Pending, started and not completed and the only such member the actor owns, and let
a member exist at position `p + 1`, a value of Go's `int` as the positions the
handler reads are.  Then `approve` through `ApproveOrRejectNFA`
answers OK; `m` becomes Approved with its completion timestamp set to now; the member
at position `p + 1` becomes Pending with its started timestamp set to now; every other
row is unchanged; and the request is still `Initiated`. -/
theorem approve_with_successor (db : DB) (now : Nat) (userID nfaID p : Int)
    (comment : String) (m : NFAApprovalList)
    (hpos : 0 < nfaID)
    (hst : RequestHasStatus db nfaID "Initiated")
    (hu : UniquePositions db nfaID)
    (hm : m ∈ db.nfa_approval_list) (hmn : m.NFAID = nfaID) (hma : m.ApproverID = userID)
    (hmo : m.Order = p) (hmact : Active m)
    (hnext : ∃ s ∈ db.nfa_approval_list, s.NFAID = nfaID ∧ s.Order = p + 1)
    (hfit : IsGoInt (p + 1))
    (honly : ∀ r ∈ db.nfa_approval_list,
      r.NFAID = nfaID → r.ApproverID = userID → Active r → r = m) :
    ∃ db', ApproveOrRejectNFA db now userID nfaID "approve" comment = (Response.OK, db') ∧
      RequestHasStatus db' nfaID "Initiated" ∧ db'.nfa = db.nfa ∧
      List.Forall₂ (fun r r' =>
        (r = m → r' = { m with Status := some "Approved", Comments := NULLIF comment "",
                               CompletedDate := some now }) ∧
        (r.NFAID = nfaID ∧ r.Order = p + 1 →
          r' = { r with Status := some "Pending", StartedDate := some now }) ∧
        (r ≠ m → ¬ (r.NFAID = nfaID ∧ r.Order = p + 1) → r' = r))
        db.nfa_approval_list db'.nfa_approval_list := by
  have hrec : ¬ RecommenderOfPending db nfaID userID := by
    rintro ⟨n, hn, hid, -, hs⟩
    have h := hst.2 n hn hid
    rw [h] at hs
    exact absurd hs (by decide)
  have hcur : currentOrderOf db nfaID userID = some p := by
    apply currentOrderOf_eq_some
    · exact ⟨m, hm, (isCurrentApproverRow_iff _ _ _).mpr ⟨hmn, hma, hmact⟩⟩
    · intro r hr hc
      obtain ⟨h1, h2, h3⟩ := (isCurrentApproverRow_iff _ _ _).mp hc
      rw [honly r hr h1 h2 h3]
      exact hmo
  have hnx : approverExistsAt (closeApproval db now "Approved" comment nfaID userID p)
      nfaID (p + 1) = true := by
    rw [approverExistsAt_closeApproval]
    exact (approverExistsAt_iff _ _ _).mpr hnext
  have hres : processApproverAction db now nfaID p "approve" comment userID =
      startApproval (closeApproval db now "Approved" comment nfaID userID p) now nfaID
        (p + 1) := by
    simp [processApproverAction, goInt_eq_self hfit, hnx]
  refine ⟨_, ApproveOrRejectNFA_approver hpos (Or.inl rfl) hst.1 hrec hcur, ?_⟩
  rw [hres]
  refine ⟨hst, rfl, ?_⟩
  simp only [startApproval, closeApproval, List.map_map]
  apply forall₂_map_of
  intro r hr
  simp only [Function.comp]
  by_cases hc : r.NFAID = nfaID ∧ r.ApproverID = userID ∧ r.Order = p
  · have hrm : r = m := chain_order_inj hu hr hm hc.1 hmn (hc.2.2.trans hmo.symm)
    subst hrm
    have hne : ¬ (r.NFAID = nfaID ∧ r.Order = p + 1) := by
      rintro ⟨-, h⟩
      omega
    simp [hc, hne]
  · have hrm : r ≠ m := by
      rintro rfl
      exact hc ⟨hmn, hma, hmo⟩
    by_cases hn : r.NFAID = nfaID ∧ r.Order = p + 1
    · simp [hc, hn, hrm]
    · simp [hc, hn, hrm]

/-- C1, witness: the scenario `[A@1 = Pending, B@2 = Waiting]`, approve by A. -/
theorem approve_with_successor_witness :
    ∃ db', ApproveOrRejectNFA storeAB 7 10 1 "approve" "" = (Response.OK, db') ∧
      RequestHasStatus db' 1 "Initiated" ∧ db'.nfa = storeAB.nfa ∧
      List.Forall₂ (fun r r' =>
        (r = row 1 10 1 "Pending" (some 5) none →
          r' = { row 1 10 1 "Pending" (some 5) none with
                 Status := some "Approved", Comments := NULLIF "" "",
                 CompletedDate := some 7 }) ∧
        (r.NFAID = 1 ∧ r.Order = 1 + 1 →
          r' = { r with Status := some "Pending", StartedDate := some 7 }) ∧
        (r ≠ row 1 10 1 "Pending" (some 5) none → ¬ (r.NFAID = 1 ∧ r.Order = 1 + 1) → r' = r))
        storeAB.nfa_approval_list db'.nfa_approval_list :=
  approve_with_successor storeAB 7 10 1 1 "" (row 1 10 1 "Pending" (some 5) none)
    (by decide) (by decide) (by decide) (by decide) rfl rfl rfl (by decide) (by decide)
    (by decide) (by decide)

/-- C1, counterexample: the chain of `storeAAB` has unique positions, the request is
`Initiated`, user 10 owns the member at position 2, which is Pending, started and not
completed, and a member exists at position 3; yet after `approve` by user 10 the
member at position 2 is still Pending, not Approved, and the member at position 3 is
still Waiting: the call approved the member the actor owns at position 1. -/
theorem approve_with_successor_counterexample :
    UniquePositions storeAAB 1 ∧ RequestHasStatus storeAAB 1 "Initiated" ∧
    (∃ m ∈ storeAAB.nfa_approval_list,
      m.NFAID = 1 ∧ m.ApproverID = 10 ∧ m.Order = 2 ∧ Active m) ∧
    (∃ s ∈ storeAAB.nfa_approval_list, s.NFAID = 1 ∧ s.Order = 2 + 1) ∧
    ApproveOrRejectNFA storeAAB 7 10 1 "approve" "" =
      (Response.OK,
        { nfa := [request1 "Initiated"]
          nfa_approval_list := [row 1 10 1 "Approved" (some 5) (some 7),
            row 1 10 2 "Pending" (some 7) none, row 1 11 3 "Waiting" none none] }) := by
  decide

/-- C2 (amended): in a stored request with a positive id and unique chain positions, let
the actor act in the approver role (the actor is not the recommender of the request
while its status is `Pending`) and own the member `m` at position `p`, let `m` be
Pending, started and not completed and the only such member the actor owns, and let no
member exist at position `p + 1`, where `p + 1` is a value of Go's `int` (`p` is not
the largest one).  Then `approve` through `ApproveOrRejectNFA` answers
OK, `m` becomes Approved with its completion timestamp set to now, the request status
becomes `Completed`, and no other chain row and no other request is changed. -/
theorem approve_exhausting_chain (db : DB) (now : Nat) (userID nfaID p : Int)
    (comment : String) (m : NFAApprovalList)
    (hpos : 0 < nfaID) (hex : RequestExists db nfaID)
    (hrole : ¬ RecommenderOfPending db nfaID userID)
    (hu : UniquePositions db nfaID)
    (hm : m ∈ db.nfa_approval_list) (hmn : m.NFAID = nfaID) (hma : m.ApproverID = userID)
    (hmo : m.Order = p) (hmact : Active m)
    (hlast : ¬ ∃ s ∈ db.nfa_approval_list, s.NFAID = nfaID ∧ s.Order = p + 1)
    (hfit : IsGoInt (p + 1))
    (honly : ∀ r ∈ db.nfa_approval_list,
      r.NFAID = nfaID → r.ApproverID = userID → Active r → r = m) :
    ∃ db', ApproveOrRejectNFA db now userID nfaID "approve" comment = (Response.OK, db') ∧
      RequestHasStatus db' nfaID "Completed" ∧
      List.Forall₂ (fun n n' =>
        (n.NFAID = nfaID → n' = { n with Status := "Completed" }) ∧
        (n.NFAID ≠ nfaID → n' = n)) db.nfa db'.nfa ∧
      List.Forall₂ (fun r r' =>
        (r = m → r' = { m with Status := some "Approved", Comments := NULLIF comment "",
                               CompletedDate := some now }) ∧
        (r ≠ m → r' = r))
        db.nfa_approval_list db'.nfa_approval_list := by
  have hcur := currentOrderOf_of_only_active hm hmn hma hmo hmact honly
  have hnx : approverExistsAt (closeApproval db now "Approved" comment nfaID userID p)
      nfaID (p + 1) = false := by
    rw [approverExistsAt_closeApproval, Bool.eq_false_iff]
    intro h
    exact hlast ((approverExistsAt_iff _ _ _).mp h)
  have hres : processApproverAction db now nfaID p "approve" comment userID =
      updateNFAStatus (closeApproval db now "Approved" comment nfaID userID p) nfaID
        "Completed" := by
    simp [processApproverAction, goInt_eq_self hfit, hnx]
  refine ⟨_, ApproveOrRejectNFA_approver hpos (Or.inl rfl) hex hrole hcur, ?_⟩
  rw [hres]
  exact ⟨updateNFAStatus_hasStatus "Completed" hex, updateNFAStatus_nfa _ _ _,
    closeApproval_rows now "Approved" comment hu hm hmn hma hmo⟩

/-- C2, witness: the scenario `[A@1 = Pending]`, approve by A. -/
theorem approve_exhausting_chain_witness :
    ∃ db', ApproveOrRejectNFA storeLast 7 10 1 "approve" "" = (Response.OK, db') ∧
      RequestHasStatus db' 1 "Completed" ∧
      List.Forall₂ (fun n n' =>
        (n.NFAID = 1 → n' = { n with Status := "Completed" }) ∧
        (n.NFAID ≠ 1 → n' = n)) storeLast.nfa db'.nfa ∧
      List.Forall₂ (fun r r' =>
        (r = row 1 10 1 "Pending" (some 5) none →
          r' = { row 1 10 1 "Pending" (some 5) none with
                 Status := some "Approved", Comments := NULLIF "" "",
                 CompletedDate := some 7 }) ∧
        (r ≠ row 1 10 1 "Pending" (some 5) none → r' = r))
        storeLast.nfa_approval_list db'.nfa_approval_list :=
  approve_exhausting_chain storeLast 7 10 1 1 "" (row 1 10 1 "Pending" (some 5) none)
    (by decide) (by decide) (by decide) (by decide) (by decide) rfl rfl rfl (by decide)
    (by decide) (by decide) (by decide)

/-- C2, counterexample: in `storeUnstarted` user 10 owns the Pending member at position
1, the only member of the chain, and no member exists at position 2; `approve` by user
10 is answered Forbidden and the member stays Pending, the request `Initiated`.  And
in `storeWrap` (unique positions) user 10 owns the one active member, at position
`2^63 - 1`, and no member exists at position `2^63`; `approve` by user 10 is answered
OK, but `currentOrder+1` wraps around to `-2^63`: user 11 there becomes Pending and
started, and the request stays `Initiated`. -/
theorem approve_exhausting_chain_counterexample :
    ((∃ m ∈ storeUnstarted.nfa_approval_list,
      m.NFAID = 1 ∧ m.ApproverID = 10 ∧ m.Order = 1 ∧ m.Status = some "Pending") ∧
    (¬ ∃ s ∈ storeUnstarted.nfa_approval_list, s.NFAID = 1 ∧ s.Order = 1 + 1) ∧
    ¬ RecommenderOfPending storeUnstarted 1 10 ∧
    ApproveOrRejectNFA storeUnstarted 7 10 1 "approve" "" =
      (Response.Forbidden, storeUnstarted) ∧
    (∃ r ∈ (ApproveOrRejectNFA storeUnstarted 7 10 1 "approve" "").2.nfa_approval_list,
      r.ApproverID = 10 ∧ r.Status ≠ some "Approved") ∧
    ¬ RequestHasStatus (ApproveOrRejectNFA storeUnstarted 7 10 1 "approve" "").2 1
      "Completed") ∧
    (UniquePositions storeWrap 1 ∧ ¬ RecommenderOfPending storeWrap 1 10 ∧
    (∃ m ∈ storeWrap.nfa_approval_list,
      m.NFAID = 1 ∧ m.ApproverID = 10 ∧ m.Order = 2 ^ 63 - 1 ∧ Active m ∧
      ∀ r ∈ storeWrap.nfa_approval_list,
        r.NFAID = 1 → r.ApproverID = 10 → Active r → r = m) ∧
    (¬ ∃ s ∈ storeWrap.nfa_approval_list, s.NFAID = 1 ∧ s.Order = 2 ^ 63 - 1 + 1) ∧
    ApproveOrRejectNFA storeWrap 7 10 1 "approve" "" =
      (Response.OK,
        { nfa := [request1 "Initiated"]
          nfa_approval_list := [row 1 10 (2 ^ 63 - 1) "Approved" (some 5) (some 7),
            row 1 11 (-2 ^ 63) "Pending" (some 7) none] }) ∧
    ¬ RequestHasStatus (ApproveOrRejectNFA storeWrap 7 10 1 "approve" "").2 1
      "Completed") := by
  decide

/-- C3 (amended): in a stored request with a positive id and unique chain positions, let
the actor act in the approver role (the actor is not the recommender of the request
while its status is `Pending`) and own the member `m`, and let `m` be Pending, started
and not completed and the only such member the actor owns.  Then `reject` with comment
`c` through `ApproveOrRejectNFA` answers OK; `m` becomes Rejected with its completion
timestamp set to now and its comment set to `NULLIF(c, '')`, that is to `c` when `c` is
not empty; the request status becomes `Rejected_By_Approver`; and no other chain row
and no other request is changed. -/
theorem reject_by_active_approver (db : DB) (now : Nat) (userID nfaID : Int)
    (c : String) (m : NFAApprovalList)
    (hpos : 0 < nfaID) (hex : RequestExists db nfaID)
    (hrole : ¬ RecommenderOfPending db nfaID userID)
    (hu : UniquePositions db nfaID)
    (hm : m ∈ db.nfa_approval_list) (hmn : m.NFAID = nfaID) (hma : m.ApproverID = userID)
    (hmact : Active m)
    (honly : ∀ r ∈ db.nfa_approval_list,
      r.NFAID = nfaID → r.ApproverID = userID → Active r → r = m) :
    ∃ db', ApproveOrRejectNFA db now userID nfaID "reject" c = (Response.OK, db') ∧
      RequestHasStatus db' nfaID "Rejected_By_Approver" ∧
      List.Forall₂ (fun n n' =>
        (n.NFAID = nfaID → n' = { n with Status := "Rejected_By_Approver" }) ∧
        (n.NFAID ≠ nfaID → n' = n)) db.nfa db'.nfa ∧
      List.Forall₂ (fun r r' =>
        (r = m → r' = { m with Status := some "Rejected", Comments := NULLIF c "",
                               CompletedDate := some now }) ∧
        (r ≠ m → r' = r))
        db.nfa_approval_list db'.nfa_approval_list ∧
      (c ≠ "" → NULLIF c "" = some c) := by
  have hcur := currentOrderOf_of_only_active hm hmn hma rfl hmact honly
  have hres : processApproverAction db now nfaID m.Order "reject" c userID =
      updateNFAStatus (closeApproval db now "Rejected" c nfaID userID m.Order) nfaID
        "Rejected_By_Approver" := by
    simp [processApproverAction]
  refine ⟨_, ApproveOrRejectNFA_approver hpos (Or.inr rfl) hex hrole hcur, ?_⟩
  rw [hres]
  refine ⟨updateNFAStatus_hasStatus "Rejected_By_Approver" hex, updateNFAStatus_nfa _ _ _,
    closeApproval_rows now "Rejected" c hu hm hmn hma rfl, ?_⟩
  intro hc
  simp [NULLIF, hc]

/-- C3, witness: the scenario `[A@1 = Pending, B@2 = Waiting]`, reject by A with the
comment `too late`. -/
theorem reject_by_active_approver_witness :
    ∃ db', ApproveOrRejectNFA storeAB 7 10 1 "reject" "too late" = (Response.OK, db') ∧
      RequestHasStatus db' 1 "Rejected_By_Approver" ∧
      List.Forall₂ (fun n n' =>
        (n.NFAID = 1 → n' = { n with Status := "Rejected_By_Approver" }) ∧
        (n.NFAID ≠ 1 → n' = n)) storeAB.nfa db'.nfa ∧
      List.Forall₂ (fun r r' =>
        (r = row 1 10 1 "Pending" (some 5) none →
          r' = { row 1 10 1 "Pending" (some 5) none with
                 Status := some "Rejected", Comments := NULLIF "too late" "",
                 CompletedDate := some 7 }) ∧
        (r ≠ row 1 10 1 "Pending" (some 5) none → r' = r))
        storeAB.nfa_approval_list db'.nfa_approval_list ∧
      ("too late" ≠ "" → NULLIF "too late" "" = some "too late") :=
  reject_by_active_approver storeAB 7 10 1 "too late" (row 1 10 1 "Pending" (some 5) none)
    (by decide) (by decide) (by decide) (by decide) (by decide) rfl rfl (by decide)
    (by decide)

/-- C3, counterexample: in `storeUnstarted` user 10 owns the Pending member, the only
member of the chain; `reject` by user 10 is answered Forbidden, the member stays
Pending and the request `Initiated`. -/
theorem reject_by_active_approver_counterexample :
    (∃ m ∈ storeUnstarted.nfa_approval_list,
      m.NFAID = 1 ∧ m.ApproverID = 10 ∧ m.Status = some "Pending") ∧
    ¬ RecommenderOfPending storeUnstarted 1 10 ∧
    ApproveOrRejectNFA storeUnstarted 7 10 1 "reject" "no" =
      (Response.Forbidden, storeUnstarted) ∧
    (∃ r ∈ (ApproveOrRejectNFA storeUnstarted 7 10 1 "reject" "no").2.nfa_approval_list,
      r.ApproverID = 10 ∧ r.Status ≠ some "Rejected") ∧
    ¬ RequestHasStatus (ApproveOrRejectNFA storeUnstarted 7 10 1 "reject" "no").2 1
      "Rejected_By_Approver" := by
  decide

/-! ## The recommender step -/

/-- C4: `processRecommenderAction` with action `approve` on a stored request.  If the
chain has no member at position 1, the request status becomes `Completed` and table
`nfa_approval_list` is unchanged.  Otherwise the request status becomes `Initiated`,
every member of the request at position 1 becomes Pending with its started timestamp
set to now, and every other row is unchanged.  No other request is changed. -/
theorem recommender_approve (db : DB) (now : Nat) (nfaID : Int) (comment : String)
    (hex : RequestExists db nfaID) :
    ((¬ ∃ r ∈ db.nfa_approval_list, r.NFAID = nfaID ∧ r.Order = 1) →
      RequestHasStatus (processRecommenderAction db now nfaID "approve" comment) nfaID
        "Completed" ∧
      List.Forall₂ (fun n n' =>
        (n.NFAID = nfaID → n' = { n with Status := "Completed" }) ∧
        (n.NFAID ≠ nfaID → n' = n))
        db.nfa (processRecommenderAction db now nfaID "approve" comment).nfa ∧
      (processRecommenderAction db now nfaID "approve" comment).nfa_approval_list =
        db.nfa_approval_list) ∧
    ((∃ r ∈ db.nfa_approval_list, r.NFAID = nfaID ∧ r.Order = 1) →
      RequestHasStatus (processRecommenderAction db now nfaID "approve" comment) nfaID
        "Initiated" ∧
      List.Forall₂ (fun n n' =>
        (n.NFAID = nfaID → n' = { n with Status := "Initiated" }) ∧
        (n.NFAID ≠ nfaID → n' = n))
        db.nfa (processRecommenderAction db now nfaID "approve" comment).nfa ∧
      List.Forall₂ (fun r r' =>
        (r.NFAID = nfaID ∧ r.Order = 1 →
          r' = { r with Status := some "Pending", StartedDate := some now }) ∧
        (¬ (r.NFAID = nfaID ∧ r.Order = 1) → r' = r))
        db.nfa_approval_list
        (processRecommenderAction db now nfaID "approve" comment).nfa_approval_list) := by
  constructor
  · intro hno
    have h : approverExistsAt db nfaID 1 = false := by
      rw [Bool.eq_false_iff]
      intro h
      exact hno ((approverExistsAt_iff _ _ _).mp h)
    have hres : processRecommenderAction db now nfaID "approve" comment =
        updateNFAStatus db nfaID "Completed" := by
      simp [processRecommenderAction, h]
    rw [hres]
    exact ⟨updateNFAStatus_hasStatus "Completed" hex, updateNFAStatus_nfa _ _ _, rfl⟩
  · intro hyes
    have h : approverExistsAt db nfaID 1 = true := (approverExistsAt_iff _ _ _).mpr hyes
    have hres : processRecommenderAction db now nfaID "approve" comment =
        startApproval (updateNFAStatus db nfaID "Initiated") now nfaID 1 := by
      simp [processRecommenderAction, h]
    rw [hres]
    refine ⟨updateNFAStatus_hasStatus "Initiated" hex, updateNFAStatus_nfa _ _ _, ?_⟩
    simp only [startApproval, updateNFAStatus]
    apply forall₂_map_of
    intro r _
    by_cases hc : r.NFAID = nfaID ∧ r.Order = 1 <;> simp [hc]

/-- C4, witness: the recommender approves a request with no approver, and a request
with the chain `[A@1 = Waiting, B@2 = Waiting]`. -/
theorem recommender_approve_witness :
    (RequestHasStatus (processRecommenderAction storeNoChain 7 1 "approve" "") 1
        "Completed" ∧
      List.Forall₂ (fun n n' =>
        (n.NFAID = 1 → n' = { n with Status := "Completed" }) ∧
        (n.NFAID ≠ 1 → n' = n))
        storeNoChain.nfa (processRecommenderAction storeNoChain 7 1 "approve" "").nfa ∧
      (processRecommenderAction storeNoChain 7 1 "approve" "").nfa_approval_list =
        storeNoChain.nfa_approval_list) ∧
    (RequestHasStatus (processRecommenderAction storeWaiting 7 1 "approve" "") 1
        "Initiated" ∧
      List.Forall₂ (fun n n' =>
        (n.NFAID = 1 → n' = { n with Status := "Initiated" }) ∧
        (n.NFAID ≠ 1 → n' = n))
        storeWaiting.nfa (processRecommenderAction storeWaiting 7 1 "approve" "").nfa ∧
      List.Forall₂ (fun r r' =>
        (r.NFAID = 1 ∧ r.Order = 1 →
          r' = { r with Status := some "Pending", StartedDate := some 7 }) ∧
        (¬ (r.NFAID = 1 ∧ r.Order = 1) → r' = r))
        storeWaiting.nfa_approval_list
        (processRecommenderAction storeWaiting 7 1 "approve" "").nfa_approval_list) :=
  ⟨(recommender_approve storeNoChain 7 1 "" (by decide)).1 (by decide),
    (recommender_approve storeWaiting 7 1 "" (by decide)).2 (by decide)⟩

/-- C5: `processRecommenderAction` with action `reject` and a non-empty comment `c` on
a stored request: the request status becomes `Rejected`, its comment becomes `c`, no
other request is changed, and table `nfa_approval_list` is unchanged. -/
theorem recommender_reject (db : DB) (now : Nat) (nfaID : Int) (c : String)
    (hex : RequestExists db nfaID) (hc : c ≠ "") :
    RequestHasStatus (processRecommenderAction db now nfaID "reject" c) nfaID "Rejected" ∧
    List.Forall₂ (fun n n' =>
      (n.NFAID = nfaID → n' = { n with Status := "Rejected", Comments := some c }) ∧
      (n.NFAID ≠ nfaID → n' = n))
      db.nfa (processRecommenderAction db now nfaID "reject" c).nfa ∧
    (processRecommenderAction db now nfaID "reject" c).nfa_approval_list =
      db.nfa_approval_list := by
  have hres : processRecommenderAction db now nfaID "reject" c =
      { db with nfa := db.nfa.map fun n =>
          if n.NFAID = nfaID then { n with Status := "Rejected", Comments := some c }
          else n } := by
    simp [processRecommenderAction, NULLIF, hc]
  rw [hres]
  refine ⟨⟨?_, ?_⟩, ?_, rfl⟩
  · obtain ⟨n, hn, hid⟩ := hex
    refine ⟨{ n with Status := "Rejected", Comments := some c }, ?_, hid⟩
    simp only [List.mem_map]
    exact ⟨n, hn, by simp [hid]⟩
  · intro n' hn' hid'
    simp only [List.mem_map] at hn'
    obtain ⟨k, -, hk⟩ := hn'
    by_cases hk' : k.NFAID = nfaID
    · rw [if_pos hk'] at hk
      rw [← hk]
    · rw [if_neg hk'] at hk
      rw [← hk] at hid'
      exact absurd hid' hk'
  · apply forall₂_map_of
    intro n _
    by_cases hk : n.NFAID = nfaID <;> simp [hk]

/-- C5, witness: the recommender rejects with the comment `budget too high`. -/
theorem recommender_reject_witness :
    RequestHasStatus (processRecommenderAction storeWaiting 7 1 "reject" "budget too high")
      1 "Rejected" ∧
    List.Forall₂ (fun n n' =>
      (n.NFAID = 1 → n' = { n with Status := "Rejected", Comments := some "budget too high" }) ∧
      (n.NFAID ≠ 1 → n' = n))
      storeWaiting.nfa
      (processRecommenderAction storeWaiting 7 1 "reject" "budget too high").nfa ∧
    (processRecommenderAction storeWaiting 7 1 "reject" "budget too high").nfa_approval_list =
      storeWaiting.nfa_approval_list :=
  recommender_reject storeWaiting 7 1 "budget too high" (by decide) (by decide)

/-! ## The authorization gate -/

/-- C6: for a stored request (its id, a generated key, is positive) and an actor who is
neither the recommender of the request while its status is `Pending` nor the owner of
a Pending member of its chain, `ApproveOrRejectNFA` answers Forbidden to `approve` and
to `reject` alike and leaves the store unchanged. -/
theorem outsider_forbidden (db : DB) (now : Nat) (userID nfaID : Int)
    (action comment : String)
    (hpos : 0 < nfaID) (hex : RequestExists db nfaID)
    (hact : action = "approve" ∨ action = "reject")
    (hrec : ¬ RecommenderOfPending db nfaID userID)
    (hown : ¬ ∃ r ∈ db.nfa_approval_list,
      r.NFAID = nfaID ∧ r.ApproverID = userID ∧ r.Status = some "Pending") :
    ApproveOrRejectNFA db now userID nfaID action comment = (Response.Forbidden, db) := by
  apply ApproveOrRejectNFA_forbidden hpos hact hex hrec
  apply currentOrderOf_eq_none
  intro r hr
  rw [Bool.eq_false_iff]
  intro h
  obtain ⟨h1, h2, h3, -⟩ := (isCurrentApproverRow_iff _ _ _).mp h
  exact hown ⟨r, hr, h1, h2, h3⟩

/-- C6, witness: in the scenario `[A@1 = Pending, B@2 = Waiting]` user 11, who owns
the Waiting member, is turned away on `reject`. -/
theorem outsider_forbidden_witness :
    ApproveOrRejectNFA storeAB 7 11 1 "reject" "no" = (Response.Forbidden, storeAB) :=
  outsider_forbidden storeAB 7 11 1 "reject" "no" (by decide) (by decide) (by decide)
    (by decide) (by decide)

/-- The gate on an active member: for a stored request (with a positive id) and an
actor who owns a member of its chain that is Pending, started and not completed,
`ApproveOrRejectNFA` with a valid action answers OK, hence not Forbidden. -/
theorem active_approver_authorized (db : DB) (now : Nat) (userID nfaID : Int)
    (action comment : String)
    (hpos : 0 < nfaID) (hex : RequestExists db nfaID)
    (hact : action = "approve" ∨ action = "reject")
    (hown : ∃ r ∈ db.nfa_approval_list,
      r.NFAID = nfaID ∧ r.ApproverID = userID ∧ Active r) :
    (ApproveOrRejectNFA db now userID nfaID action comment).1 = Response.OK ∧
    (ApproveOrRejectNFA db now userID nfaID action comment).1 ≠ Response.Forbidden := by
  have hok : (ApproveOrRejectNFA db now userID nfaID action comment).1 = Response.OK := by
    have h1 : ¬ nfaID ≤ 0 := by omega
    have h2 : ¬ (action ≠ "approve" ∧ action ≠ "reject") := by tauto
    have h3 : nfaExists db nfaID = true := (nfaExists_iff _ _).mpr hex
    obtain ⟨r, hr, hrn, hra, hract⟩ := hown
    have hsome : (db.nfa_approval_list.find? (isCurrentApproverRow nfaID userID)).isSome := by
      rw [List.find?_isSome]
      exact ⟨r, hr, (isCurrentApproverRow_iff _ _ _).mpr ⟨hrn, hra, hract⟩⟩
    obtain ⟨r0, hr0⟩ := Option.isSome_iff_exists.mp hsome
    unfold ApproveOrRejectNFA
    rw [if_neg h1, if_neg h2]
    cases h4 : isRecommender db nfaID userID
    · simp [h3, currentOrderOf, hr0]
    · simp [h3]
  rw [hok]
  exact ⟨rfl, by decide⟩

/-- The gate on an active member, at `storeAB`: user 10, the active approver, is
accepted. -/
theorem active_approver_authorized_witness :
    (ApproveOrRejectNFA storeAB 7 10 1 "reject" "no").1 = Response.OK ∧
    (ApproveOrRejectNFA storeAB 7 10 1 "reject" "no").1 ≠ Response.Forbidden :=
  active_approver_authorized storeAB 7 10 1 "reject" "no" (by decide) (by decide)
    (by decide) (by decide)

/-- C7, the code at the failing input: `AddApprover` at position 1 of the empty chain
of the stored request 1 answers OK and makes user 10 the owner of a Pending member,
with no started timestamp; `approve` and `reject` by user 10 are then answered
Forbidden. -/
theorem inserted_pending_member_forbidden :
    AddApprover storeNoChain 1 10 1 "" =
      (Response.OK,
        { nfa := [request1 "Pending"]
          nfa_approval_list :=
            [{ NFAID := 1, ApproverID := 10, Order := 1, Status := some "Pending",
               Comments := some "", StartedDate := none, CompletedDate := none }] }) ∧
    RequestExists (AddApprover storeNoChain 1 10 1 "").2 1 ∧
    (∃ r ∈ (AddApprover storeNoChain 1 10 1 "").2.nfa_approval_list,
      r.NFAID = 1 ∧ r.ApproverID = 10 ∧ r.Status = some "Pending") ∧
    (ApproveOrRejectNFA (AddApprover storeNoChain 1 10 1 "").2 7 10 1 "approve" "").1 =
      Response.Forbidden ∧
    (ApproveOrRejectNFA (AddApprover storeNoChain 1 10 1 "").2 7 10 1 "reject" "no").1 =
      Response.Forbidden := by
  decide

/-- C8 (amended): for every positive request id that is not stored, every actor and
every valid action, `ApproveOrRejectNFA` answers NotFound, whatever the actor owns or
recommends, and leaves the store unchanged; and for every request id that is zero or
negative, stored or not, every actor and every action, it answers BadRequest and
leaves the store unchanged. -/
theorem missing_request_not_found (db : DB) (now : Nat) (userID nfaID : Int)
    (action comment : String) :
    (0 < nfaID → ¬ RequestExists db nfaID → (action = "approve" ∨ action = "reject") →
      ApproveOrRejectNFA db now userID nfaID action comment = (Response.NotFound, db)) ∧
    (nfaID ≤ 0 →
      ApproveOrRejectNFA db now userID nfaID action comment = (Response.BadRequest, db)) := by
  constructor
  · intro hpos hno hact
    have h1 : ¬ nfaID ≤ 0 := by omega
    have h2 : ¬ (action ≠ "approve" ∧ action ≠ "reject") := by tauto
    have h3 : nfaExists db nfaID = false := by
      rw [Bool.eq_false_iff]
      intro h
      exact hno ((nfaExists_iff _ _).mp h)
    unfold ApproveOrRejectNFA
    rw [if_neg h1, if_neg h2]
    simp [h3]
  · intro hneg
    unfold ApproveOrRejectNFA
    rw [if_pos hneg]

/-- C8, witness: request 5 is not stored and is answered NotFound; the ids 0 and -3 are
answered BadRequest. -/
theorem missing_request_not_found_witness :
    ApproveOrRejectNFA storeAB 7 10 5 "approve" "" = (Response.NotFound, storeAB) ∧
    ApproveOrRejectNFA storeAB 7 10 0 "approve" "" = (Response.BadRequest, storeAB) ∧
    ApproveOrRejectNFA storeAB 7 10 (-3) "reject" "" = (Response.BadRequest, storeAB) :=
  ⟨(missing_request_not_found storeAB 7 10 5 "approve" "").1 (by decide) (by decide)
      (by decide),
    (missing_request_not_found storeAB 7 10 0 "approve" "").2 (by decide),
    (missing_request_not_found storeAB 7 10 (-3) "reject" "").2 (by decide)⟩

/-- C8, counterexample: request id 0 is not stored, and `approve` on it is answered
BadRequest (`Invalid NFA ID`), not NotFound. -/
theorem missing_request_not_found_counterexample :
    ¬ RequestExists storeAB 0 ∧
    ApproveOrRejectNFA storeAB 7 10 0 "approve" "" = (Response.BadRequest, storeAB) ∧
    (ApproveOrRejectNFA storeAB 7 10 0 "approve" "").1 ≠ Response.NotFound := by
  decide

theorem closeApproval_not_current {db : DB} {nfaID userID p : Int} (now : Nat)
    (status comment : String) {r0 : NFAApprovalList}
    (hr0 : r0 ∈ db.nfa_approval_list) (hr0n : r0.NFAID = nfaID)
    (hr0a : r0.ApproverID = userID) (hr0o : r0.Order = p) (hr0act : Active r0)
    (hone : ∀ r ∈ db.nfa_approval_list, ∀ s ∈ db.nfa_approval_list,
      r.NFAID = nfaID → r.ApproverID = userID → Active r →
      s.NFAID = nfaID → s.ApproverID = userID → Active s → s.Order = r.Order) :
    ∀ r' ∈ (closeApproval db now status comment nfaID userID p).nfa_approval_list,
      isCurrentApproverRow nfaID userID r' = false := by
  intro r' hr'
  simp only [closeApproval, List.mem_map] at hr'
  obtain ⟨r, hr, rfl⟩ := hr'
  rw [Bool.eq_false_iff]
  intro h
  by_cases hc : r.NFAID = nfaID ∧ r.ApproverID = userID ∧ r.Order = p
  · rw [if_pos hc] at h
    have h' := (isCurrentApproverRow_iff _ _ _).mp h
    simp [Active] at h'
  · rw [if_neg hc] at h
    obtain ⟨h1, h2, h3⟩ := (isCurrentApproverRow_iff _ _ _).mp h
    have ho := hone r0 hr0 r hr hr0n hr0a hr0act h1 h2 h3
    exact hc ⟨h1, h2, ho.trans hr0o⟩

theorem startApproval_closeApproval_not_current {db : DB} {nfaID userID p : Int} (now : Nat)
    (status comment : String) {r0 : NFAApprovalList}
    (hr0 : r0 ∈ db.nfa_approval_list) (hr0n : r0.NFAID = nfaID)
    (hr0a : r0.ApproverID = userID) (hr0o : r0.Order = p) (hr0act : Active r0)
    (hone : ∀ r ∈ db.nfa_approval_list, ∀ s ∈ db.nfa_approval_list,
      r.NFAID = nfaID → r.ApproverID = userID → Active r →
      s.NFAID = nfaID → s.ApproverID = userID → Active s → s.Order = r.Order)
    (hnext : ∀ r ∈ db.nfa_approval_list, ∀ s ∈ db.nfa_approval_list,
      r.NFAID = nfaID → r.ApproverID = userID → Active r →
      s.NFAID = nfaID → s.ApproverID = userID → s.Order ≠ r.Order + 1) :
    ∀ r' ∈ (startApproval (closeApproval db now status comment nfaID userID p) now nfaID
        (p + 1)).nfa_approval_list,
      isCurrentApproverRow nfaID userID r' = false := by
  intro r' hr'
  simp only [startApproval, closeApproval, List.mem_map] at hr'
  obtain ⟨r1, ⟨r, hr, rfl⟩, rfl⟩ := hr'
  rw [Bool.eq_false_iff]
  intro h
  by_cases hc : r.NFAID = nfaID ∧ r.ApproverID = userID ∧ r.Order = p
  · rw [if_pos hc] at h
    have hne : ¬ (r.NFAID = nfaID ∧ r.Order = p + 1) := by
      rintro ⟨-, h'⟩
      omega
    simp only [hne, if_false] at h
    have h' := (isCurrentApproverRow_iff _ _ _).mp h
    simp [Active] at h'
  · rw [if_neg hc] at h
    by_cases hn : r.NFAID = nfaID ∧ r.Order = p + 1
    · rw [if_pos hn] at h
      obtain ⟨-, h2, -⟩ := (isCurrentApproverRow_iff _ _ _).mp h
      have h2' : r.ApproverID = userID := h2
      exact hnext r0 hr0 r hr hr0n hr0a hr0act hn.1 h2' (by rw [hr0o]; exact hn.2)
    · rw [if_neg hn] at h
      obtain ⟨h1, h2, h3⟩ := (isCurrentApproverRow_iff _ _ _).mp h
      have ho := hone r0 hr0 r hr hr0n hr0a hr0act h1 h2 h3
      exact hc ⟨h1, h2, ho.trans hr0o⟩

/-- C9 (amended): let an `approve` through `ApproveOrRejectNFA` succeed for the actor in
the approver role (the actor is not the recommender of the request while its status is
`Pending`), in a chain where every Pending, started and uncompleted member the actor
owns sits at one position `p`, where `p + 1` is a value of Go's `int`, and the actor
owns no member at position `p + 1`.  Then a
second `approve` by the same actor on the same request, at any time and with any
comment, is answered Forbidden and leaves the store of the first call unchanged. -/
theorem repeated_approve_forbidden (db db1 : DB) (now now' : Nat) (userID nfaID : Int)
    (comment comment' : String)
    (hrole : ¬ RecommenderOfPending db nfaID userID)
    (hfirst : ApproveOrRejectNFA db now userID nfaID "approve" comment = (Response.OK, db1))
    (hone : ∀ r ∈ db.nfa_approval_list, ∀ s ∈ db.nfa_approval_list,
      r.NFAID = nfaID → r.ApproverID = userID → Active r →
      s.NFAID = nfaID → s.ApproverID = userID → Active s → s.Order = r.Order)
    (hfit : ∀ r ∈ db.nfa_approval_list,
      r.NFAID = nfaID → r.ApproverID = userID → Active r → IsGoInt (r.Order + 1))
    (hnext : ∀ r ∈ db.nfa_approval_list, ∀ s ∈ db.nfa_approval_list,
      r.NFAID = nfaID → r.ApproverID = userID → Active r →
      s.NFAID = nfaID → s.ApproverID = userID → s.Order ≠ r.Order + 1) :
    ApproveOrRejectNFA db1 now' userID nfaID "approve" comment' =
      (Response.Forbidden, db1) := by
  have hnr : isRecommender db nfaID userID = false := by
    rw [Bool.eq_false_iff]
    intro h
    exact hrole ((isRecommender_iff _ _ _).mp h)
  unfold ApproveOrRejectNFA at hfirst
  by_cases h1 : nfaID ≤ 0
  · rw [if_pos h1] at hfirst
    simp at hfirst
  rw [if_neg h1, if_neg (by decide)] at hfirst
  cases h3 : nfaExists db nfaID
  · simp [h3] at hfirst
  have hex : RequestExists db nfaID := (nfaExists_iff _ _).mp h3
  cases hcur : currentOrderOf db nfaID userID with
  | none => simp [h3, hnr, hcur] at hfirst
  | some p =>
    simp only [h3, hnr, hcur, Bool.not_true, Bool.false_eq_true, if_false, Prod.mk.injEq,
      true_and] at hfirst
    unfold currentOrderOf at hcur
    cases hf : db.nfa_approval_list.find? (isCurrentApproverRow nfaID userID) with
    | none => simp [hf] at hcur
    | some r0 =>
      have hr0o : r0.Order = p := by simpa [hf] using hcur
      have hr0 : r0 ∈ db.nfa_approval_list := List.mem_of_find?_eq_some hf
      obtain ⟨hr0n, hr0a, hr0act⟩ := (isCurrentApproverRow_iff _ _ _).mp (List.find?_some hf)
      have hpos : 0 < nfaID := by omega
      have hfitp : IsGoInt (p + 1) := hr0o ▸ hfit r0 hr0 hr0n hr0a hr0act
      subst hfirst
      cases hnx : approverExistsAt (closeApproval db now "Approved" comment nfaID userID p)
          nfaID (p + 1)
      · have hres : processApproverAction db now nfaID p "approve" comment userID =
            updateNFAStatus (closeApproval db now "Approved" comment nfaID userID p) nfaID
              "Completed" := by
          simp [processApproverAction, goInt_eq_self hfitp, hnx]
        rw [hres]
        have hex1 : RequestExists (closeApproval db now "Approved" comment nfaID userID p)
            nfaID := hex
        have hst := updateNFAStatus_hasStatus "Completed" hex1
        apply ApproveOrRejectNFA_forbidden hpos (Or.inl rfl) hst.1
        · rintro ⟨n, hn, hid, -, hs⟩
          have hs' := hst.2 n hn hid
          rw [hs'] at hs
          exact absurd hs (by decide)
        · exact currentOrderOf_eq_none
            (closeApproval_not_current now "Approved" comment hr0 hr0n hr0a hr0o hr0act hone)
      · have hres : processApproverAction db now nfaID p "approve" comment userID =
            startApproval (closeApproval db now "Approved" comment nfaID userID p) now nfaID
              (p + 1) := by
          simp [processApproverAction, goInt_eq_self hfitp, hnx]
        rw [hres]
        have hex2 : RequestExists (startApproval (closeApproval db now "Approved" comment
            nfaID userID p) now nfaID (p + 1)) nfaID := hex
        have hrole2 : ¬ RecommenderOfPending (startApproval (closeApproval db now "Approved"
            comment nfaID userID p) now nfaID (p + 1)) nfaID userID := hrole
        apply ApproveOrRejectNFA_forbidden hpos (Or.inl rfl) hex2 hrole2
        exact currentOrderOf_eq_none
          (startApproval_closeApproval_not_current now "Approved" comment hr0 hr0n hr0a hr0o
            hr0act hone hnext)

/-- C9, witness: in the scenario `[A@1 = Pending, B@2 = Waiting]` a second `approve` by
A is turned away. -/
theorem repeated_approve_forbidden_witness :
    ApproveOrRejectNFA (ApproveOrRejectNFA storeAB 7 10 1 "approve" "").2 8 10 1 "approve" ""
      = (Response.Forbidden, (ApproveOrRejectNFA storeAB 7 10 1 "approve" "").2) :=
  repeated_approve_forbidden storeAB (ApproveOrRejectNFA storeAB 7 10 1 "approve" "").2
    7 8 10 1 "" "" (by decide) (by decide) (by decide) (by decide) (by decide)

/-- C9, counterexample: in `storeTwice` user 10 owns the members at positions 1 and 2.
The first `approve` succeeds in the approver role and activates position 2; the second
`approve` by user 10 succeeds too, approves position 2 and completes the request.  And
in `storeWrapTwice` the one active member of user 10 is at position `2^63 - 1` and user
10 owns no member at position `2^63`; the first `approve` wraps `currentOrder+1` around
to `-2^63` and activates the member user 10 owns there, and the second `approve` by
user 10 succeeds too. -/
theorem repeated_approve_forbidden_counterexample :
    (¬ RecommenderOfPending storeTwice 1 10 ∧
    ApproveOrRejectNFA storeTwice 7 10 1 "approve" "" =
      (Response.OK,
        { nfa := [request1 "Initiated"]
          nfa_approval_list := [row 1 10 1 "Approved" (some 5) (some 7),
            row 1 10 2 "Pending" (some 7) none] }) ∧
    ApproveOrRejectNFA (ApproveOrRejectNFA storeTwice 7 10 1 "approve" "").2 8 10 1
        "approve" "" =
      (Response.OK,
        { nfa := [request1 "Completed"]
          nfa_approval_list := [row 1 10 1 "Approved" (some 5) (some 7),
            row 1 10 2 "Approved" (some 7) (some 8)] })) ∧
    (¬ RecommenderOfPending storeWrapTwice 1 10 ∧
    (∀ r ∈ storeWrapTwice.nfa_approval_list, ∀ s ∈ storeWrapTwice.nfa_approval_list,
      r.NFAID = 1 → r.ApproverID = 10 → Active r →
      s.NFAID = 1 → s.ApproverID = 10 → Active s → s.Order = r.Order) ∧
    (∀ r ∈ storeWrapTwice.nfa_approval_list, ∀ s ∈ storeWrapTwice.nfa_approval_list,
      r.NFAID = 1 → r.ApproverID = 10 → Active r →
      s.NFAID = 1 → s.ApproverID = 10 → s.Order ≠ r.Order + 1) ∧
    ApproveOrRejectNFA storeWrapTwice 7 10 1 "approve" "" =
      (Response.OK,
        { nfa := [request1 "Initiated"]
          nfa_approval_list := [row 1 10 (2 ^ 63 - 1) "Approved" (some 5) (some 7),
            row 1 10 (-2 ^ 63) "Pending" (some 7) none] }) ∧
    ApproveOrRejectNFA (ApproveOrRejectNFA storeWrapTwice 7 10 1 "approve" "").2 8 10 1
        "approve" "" =
      (Response.OK,
        { nfa := [request1 "Completed"]
          nfa_approval_list := [row 1 10 (2 ^ 63 - 1) "Approved" (some 5) (some 7),
            row 1 10 (-2 ^ 63) "Approved" (some 7) (some 8)] })) :=
  ⟨by decide, by decide, by decide, by decide, by decide, by decide⟩

/-! ## Insertion of an approver -/

theorem order_pos_of_positionsOneTo {db : DB} {nfaID : Int} {N : Nat}
    (h : PositionsOneTo db nfaID N) {r : NFAApprovalList} (hr : r ∈ db.nfa_approval_list)
    (hn : r.NFAID = nfaID) : 1 ≤ r.Order ∧ r.Order ≤ N := by
  have hc : r ∈ chain db nfaID := by simp [chain, hr, hn]
  have hm : r.Order ∈ (chain db nfaID).map fun r => r.Order := List.mem_map_of_mem _ hc
  have hm' := (List.Perm.mem_iff h).mp hm
  simp only [List.mem_map, List.mem_range'_1] at hm'
  obtain ⟨k, ⟨hk1, hk2⟩, hk⟩ := hm'
  rw [← hk]
  constructor <;> simp <;> omega

theorem pendingOrderOf_eq_zero_iff {db : DB} {nfaID : Int} {N : Nat}
    (h : PositionsOneTo db nfaID N) :
    pendingOrderOf db nfaID = 0 ↔ ¬ HasPending db nfaID := by
  unfold pendingOrderOf
  cases hf : db.nfa_approval_list.find? fun r =>
      decide (r.NFAID = nfaID ∧ r.Status = some "Pending") with
  | none =>
    simp only [true_iff]
    rintro ⟨r, hr, hs⟩
    simp only [chain, List.mem_filter, decide_eq_true_eq] at hr
    have := List.find?_eq_none.mp hf r hr.1
    simp [hr.2, hs] at this
  | some r =>
    have hr := List.mem_of_find?_eq_some hf
    have hp := List.find?_some hf
    simp only [decide_eq_true_eq] at hp
    have hpos := (order_pos_of_positionsOneTo h hr hp.1).1
    constructor
    · intro h0
      simp only at h0
      omega
    · intro hno
      exact absurd ⟨r, by simp [chain, hr, hp.1], hp.2⟩ hno

/-- C10: let the chain of the request have the positions `1, ..., N`, and let
`AddApprover` accept an insertion at position `p` (the request id, the approver id and
`p` are not zero).  The call answers OK and appends one row, the new member, at
position `p`; its status is Pending if and only if no member of the request was
Pending before the call and `p = 1`, and it is Waiting in every other case. -/
theorem inserted_member_status (db : DB) (nfaID approverID p : Int) (comments : String)
    (N : Nat) (hpositions : PositionsOneTo db nfaID N)
    (hacc : nfaID ≠ 0 ∧ approverID ≠ 0 ∧ p ≠ 0) :
    ∃ old new, AddApprover db nfaID approverID p comments =
        (Response.OK, { db with nfa_approval_list := old ++ [new] }) ∧
      old.length = db.nfa_approval_list.length ∧
      new.NFAID = nfaID ∧ new.ApproverID = approverID ∧ new.Order = p ∧
      (new.Status = some "Pending" ↔ (¬ HasPending db nfaID ∧ p = 1)) ∧
      (¬ (¬ HasPending db nfaID ∧ p = 1) → new.Status = some "Waiting") := by
  have hv : ¬ (nfaID = 0 ∨ approverID = 0 ∨ p = 0) := by tauto
  have hz := pendingOrderOf_eq_zero_iff hpositions
  unfold AddApprover
  rw [if_neg hv]
  refine ⟨_, _, rfl, by simp, rfl, rfl, rfl, ?_, ?_⟩
  · by_cases hc : pendingOrderOf db nfaID = 0 ∧ p = 1
    · simp only [if_pos hc, true_iff]
      exact ⟨hz.mp hc.1, hc.2⟩
    · simp only [if_neg hc]
      constructor
      · intro h
        exact absurd (Option.some.inj h) (by decide)
      · intro h
        exact absurd ⟨hz.mpr h.1, h.2⟩ hc
  · intro hn
    have hc : ¬ (pendingOrderOf db nfaID = 0 ∧ p = 1) := by
      rintro ⟨h0, h1⟩
      exact hn ⟨hz.mp h0, h1⟩
    simp only [if_neg hc]

/-- C10, witness: an insertion at position 1 of the chain `[A@1 = Waiting, B@2 = Waiting]`,
which has no Pending member. -/
theorem inserted_member_status_witness :
    ∃ old new, AddApprover storeWaiting 1 12 1 "" =
        (Response.OK, { storeWaiting with nfa_approval_list := old ++ [new] }) ∧
      old.length = storeWaiting.nfa_approval_list.length ∧
      new.NFAID = 1 ∧ new.ApproverID = 12 ∧ new.Order = 1 ∧
      (new.Status = some "Pending" ↔ (¬ HasPending storeWaiting 1 ∧ (1 : Int) = 1)) ∧
      (¬ (¬ HasPending storeWaiting 1 ∧ (1 : Int) = 1) → new.Status = some "Waiting") :=
  inserted_member_status storeWaiting 1 12 1 "" 2 (by decide) (by decide)

theorem mem_positions_range (N : Nat) (x : Int) :
    x ∈ (List.range' 1 N).map Int.ofNat ↔ 1 ≤ x ∧ x ≤ N := by
  simp only [List.mem_map, List.mem_range'_1]
  constructor
  · rintro ⟨k, ⟨h1, h2⟩, rfl⟩
    simp only [Int.ofNat_eq_coe]
    omega
  · rintro ⟨h1, h2⟩
    refine ⟨x.toNat, ⟨by omega, by omega⟩, ?_⟩
    simp only [Int.ofNat_eq_coe]
    omega

theorem nodup_positions_range (N : Nat) : ((List.range' 1 N).map Int.ofNat).Nodup := by
  apply List.Nodup.map
  · intro a b h
    exact Int.ofNat.inj h
  · exact List.nodup_range' 1 N

theorem positionsOneTo_iff (db : DB) (nfaID : Int) (N : Nat) :
    PositionsOneTo db nfaID N ↔
      UniquePositions db nfaID ∧
        ∀ x : Int, x ∈ ((chain db nfaID).map fun r => r.Order) ↔ 1 ≤ x ∧ x ≤ N := by
  unfold PositionsOneTo UniquePositions
  constructor
  · intro h
    refine ⟨h.nodup_iff.mpr (nodup_positions_range N), fun x => ?_⟩
    rw [h.mem_iff]
    exact mem_positions_range N x
  · rintro ⟨hn, hm⟩
    rw [List.perm_ext_iff_of_nodup hn (nodup_positions_range N)]
    intro x
    rw [hm x]
    exact (mem_positions_range N x).symm

/-- C11, the code at the failing input: `AddApprover` at position 1 of request 1, whose
chain is empty and so has no Pending member, answers OK and inserts a member whose
status is Pending and whose started timestamp is not set. -/
theorem inserted_pending_member_not_started :
    ¬ HasPending storeNoChain 1 ∧
    AddApprover storeNoChain 1 10 1 "" =
      (Response.OK,
        { nfa := [request1 "Pending"]
          nfa_approval_list :=
            [{ NFAID := 1, ApproverID := 10, Order := 1, Status := some "Pending",
               Comments := some "", StartedDate := none, CompletedDate := none }] }) ∧
    (∀ r ∈ (AddApprover storeNoChain 1 10 1 "").2.nfa_approval_list,
      r.ApproverID = 10 → r.Status = some "Pending" ∧ r.StartedDate = none) := by
  decide

theorem positions_AddApprover (db : DB) (nfaID approverID p : Int) (comments : String)
    (hv : ¬ (nfaID = 0 ∨ approverID = 0 ∨ p = 0)) :
    ((chain (AddApprover db nfaID approverID p comments).2 nfaID).map fun r => r.Order) =
      (((chain db nfaID).map fun r => r.Order).map fun o => if o ≥ p then o + 1 else o)
        ++ [p] := by
  unfold AddApprover
  rw [if_neg hv]
  simp only [chain, List.filter_append, List.map_append, List.filter_map, List.map_map]
  congr 1
  · have hf : ((fun r : NFAApprovalList => decide (r.NFAID = nfaID)) ∘ fun r =>
        if r.NFAID = nfaID ∧ r.Order ≥ p then { r with Order := r.Order + 1 } else r) =
        fun r => decide (r.NFAID = nfaID) := by
      funext r
      simp only [Function.comp]
      split <;> rfl
    rw [hf]
    apply List.map_congr_left
    intro r hr
    simp only [List.mem_filter, decide_eq_true_eq] at hr
    simp only [Function.comp, hr.2, true_and]
    split <;> rfl
  · simp

theorem perm_insert_position (N : Nat) (p : Int) (hp : 1 ≤ p ∧ p ≤ N + 1) :
    ((((List.range' 1 N).map Int.ofNat).map fun o => if o ≥ p then o + 1 else o)
        ++ [p]).Perm ((List.range' 1 (N + 1)).map Int.ofNat) := by
  have hnd : ((((List.range' 1 N).map Int.ofNat).map fun o => if o ≥ p then o + 1 else o)
      ++ [p]).Nodup := by
    rw [List.nodup_append]
    refine ⟨?_, List.nodup_singleton p, ?_⟩
    · apply List.Nodup.map _ (nodup_positions_range N)
      intro a b h
      simp only at h
      split_ifs at h <;> omega
    · intro x hx hxp
      simp only [List.mem_singleton] at hxp
      subst hxp
      simp only [List.mem_map] at hx
      obtain ⟨o, -, ho⟩ := hx
      split_ifs at ho <;> omega
  rw [List.perm_ext_iff_of_nodup hnd (nodup_positions_range (N + 1))]
  intro x
  rw [mem_positions_range, List.mem_append, List.mem_singleton, List.mem_map]
  constructor
  · rintro (⟨o, ho, hx⟩ | rfl)
    · rw [mem_positions_range] at ho
      split_ifs at hx <;> push_cast <;> omega
    · push_cast
      omega
  · rintro ⟨h1, h2⟩
    push_cast at h2
    by_cases hlt : x < p
    · left
      refine ⟨x, (mem_positions_range N x).mpr ⟨h1, by omega⟩, ?_⟩
      rw [if_neg (by omega)]
    · by_cases heq : x = p
      · right
        exact heq
      · left
        refine ⟨x - 1, (mem_positions_range N (x - 1)).mpr ⟨by omega, by omega⟩, ?_⟩
        rw [if_pos (by omega)]
        omega

/-- C12: let the chain of the request have the positions `1, ..., N`, let
`1 <= p <= N + 1`, and let `AddApprover` accept the insertion at `p` (the request id
and the approver id are not zero).  The call answers OK.  Every row that was stored
comes back in its place: a member of the request with position `>= p` with its
position increased by one and nothing else changed, every other row unchanged (so a
member with position `< p` keeps its position, and every status is kept).  One row
is appended, the new member, at position `p`.  The positions of the resulting chain
are `1, ..., N + 1`. -/
theorem insertion_shifts_contiguous (db : DB) (nfaID approverID p : Int)
    (comments : String) (N : Nat) (hpositions : PositionsOneTo db nfaID N)
    (hacc : nfaID ≠ 0 ∧ approverID ≠ 0) (hp : 1 ≤ p ∧ p ≤ N + 1) :
    ∃ old new, AddApprover db nfaID approverID p comments =
        (Response.OK, { db with nfa_approval_list := old ++ [new] }) ∧
      List.Forall₂ (fun r r' =>
        (r.NFAID = nfaID ∧ r.Order ≥ p → r' = { r with Order := r.Order + 1 }) ∧
        (¬ (r.NFAID = nfaID ∧ r.Order ≥ p) → r' = r))
        db.nfa_approval_list old ∧
      new.NFAID = nfaID ∧ new.ApproverID = approverID ∧ new.Order = p ∧
      PositionsOneTo { db with nfa_approval_list := old ++ [new] } nfaID (N + 1) := by
  have hv : ¬ (nfaID = 0 ∨ approverID = 0 ∨ p = 0) := by
    rintro (h | h | h)
    · exact hacc.1 h
    · exact hacc.2 h
    · omega
  have hpos' := positions_AddApprover db nfaID approverID p comments hv
  have hres : AddApprover db nfaID approverID p comments =
      (Response.OK, { db with nfa_approval_list :=
        (db.nfa_approval_list.map fun r =>
          if r.NFAID = nfaID ∧ r.Order ≥ p then { r with Order := r.Order + 1 } else r) ++
        [{ NFAID := nfaID, ApproverID := approverID, Order := p,
           Status := some (if pendingOrderOf db nfaID = 0 ∧ p = 1 then "Pending"
             else "Waiting"),
           Comments := some comments, StartedDate := none, CompletedDate := none }] }) := by
    unfold AddApprover
    rw [if_neg hv]
  rw [hres] at hpos'
  refine ⟨_, _, hres, ?_, rfl, rfl, rfl, ?_⟩
  · apply forall₂_map_of
    intro r _
    by_cases hc : r.NFAID = nfaID ∧ r.Order ≥ p <;> simp [hc]
  · unfold PositionsOneTo
    rw [hpos']
    exact ((List.Perm.map _ hpositions).append_right [p]).trans (perm_insert_position N p hp)

/-- C12, witness: an insertion at position 2 of the chain `[A@1 = Waiting, B@2 = Waiting]`. -/
theorem insertion_shifts_contiguous_witness :
    ∃ old new, AddApprover storeWaiting 1 12 2 "" =
        (Response.OK, { storeWaiting with nfa_approval_list := old ++ [new] }) ∧
      List.Forall₂ (fun r r' =>
        (r.NFAID = 1 ∧ r.Order ≥ 2 → r' = { r with Order := r.Order + 1 }) ∧
        (¬ (r.NFAID = 1 ∧ r.Order ≥ 2) → r' = r))
        storeWaiting.nfa_approval_list old ∧
      new.NFAID = 1 ∧ new.ApproverID = 12 ∧ new.Order = 2 ∧
      PositionsOneTo { storeWaiting with nfa_approval_list := old ++ [new] } 1 (2 + 1) :=
  insertion_shifts_contiguous storeWaiting 1 12 2 "" 2 (by decide) (by decide) (by decide)

/-! ## Removal of an approver -/

theorem filter_map_rows (f : NFAApprovalList → NFAApprovalList) (nfaID : Int)
    (hf : ∀ r, (f r).NFAID = r.NFAID) (l : List NFAApprovalList) :
    (l.map f).filter (fun r => decide (r.NFAID = nfaID)) =
      (l.filter fun r => decide (r.NFAID = nfaID)).map f := by
  rw [List.filter_map]
  congr 1
  apply List.filter_congr
  intro r _
  simp [Function.comp, hf r]

theorem positions_map_rows (db : DB) (f : NFAApprovalList → NFAApprovalList) (nfaID : Int)
    (hf : ∀ r, (f r).NFAID = r.NFAID ∧ (f r).Order = r.Order) :
    ((chain { db with nfa_approval_list := db.nfa_approval_list.map f } nfaID).map
      fun r => r.Order) = (chain db nfaID).map fun r => r.Order := by
  simp only [chain]
  rw [filter_map_rows f nfaID (fun r => (hf r).1), List.map_map]
  apply List.map_congr_left
  intro r _
  exact (hf r).2

theorem deletedOrderOf_eq_none {db : DB} {nfaID approverID : Int}
    (h : ∀ r ∈ db.nfa_approval_list, ¬ (r.NFAID = nfaID ∧ r.ApproverID = approverID)) :
    deletedOrderOf db nfaID approverID = none := by
  unfold deletedOrderOf
  have hf : (db.nfa_approval_list.find? fun r =>
      decide (r.NFAID = nfaID ∧ r.ApproverID = approverID)) = none := by
    rw [List.find?_eq_none]
    intro r hr
    simpa using h r hr
  rw [hf]
  rfl

theorem deletedOrderOf_spec {db : DB} {nfaID approverID : Int}
    (h : ∃ r ∈ db.nfa_approval_list, r.NFAID = nfaID ∧ r.ApproverID = approverID) :
    ∃ r0 ∈ db.nfa_approval_list, r0.NFAID = nfaID ∧ r0.ApproverID = approverID ∧
      deletedOrderOf db nfaID approverID = some r0.Order := by
  unfold deletedOrderOf
  cases hf : db.nfa_approval_list.find? fun r =>
      decide (r.NFAID = nfaID ∧ r.ApproverID = approverID) with
  | none =>
    obtain ⟨r, hr, hc⟩ := h
    have hno := List.find?_eq_none.mp hf r hr
    simp [hc] at hno
  | some r0 =>
    have hp := List.find?_some hf
    simp only [decide_eq_true_eq] at hp
    exact ⟨r0, List.mem_of_find?_eq_some hf, hp.1, hp.2, rfl⟩

theorem RemoveApprover_of_deletedOrder {db : DB} {nfaID approverID d : Int}
    (hd : deletedOrderOf db nfaID approverID = some d) :
    RemoveApprover db approverID nfaID =
      (Response.OK,
        if pendingExists (shiftDown (deleteApprover db nfaID approverID) nfaID d) nfaID
        then shiftDown (deleteApprover db nfaID approverID) nfaID d
        else promoteNext (shiftDown (deleteApprover db nfaID approverID) nfaID d) nfaID) := by
  unfold RemoveApprover
  rw [hd]
  simp only
  cases pendingExists (shiftDown (deleteApprover db nfaID approverID) nfaID d) nfaID <;> rfl

/-- C15: when the chain of the request has no member owned by the approver,
`RemoveApprover` answers NotFound and leaves the store, with every chain member and
the request status, as it was. -/
theorem removal_of_absent_member (db : DB) (approverID nfaID : Int)
    (habsent : ¬ ∃ r ∈ chain db nfaID, r.ApproverID = approverID) :
    RemoveApprover db approverID nfaID = (Response.NotFound, db) := by
  have hd : deletedOrderOf db nfaID approverID = none := by
    apply deletedOrderOf_eq_none
    rintro r hr ⟨hn, ha⟩
    exact habsent ⟨r, by simp [chain, hr, hn], ha⟩
  unfold RemoveApprover
  rw [hd]

/-- C15, witness: user 12 owns no member of the chain `[A@1 = Pending, B@2 = Waiting]`. -/
theorem removal_of_absent_member_witness :
    RemoveApprover storeAB 12 1 = (Response.NotFound, storeAB) :=
  removal_of_absent_member storeAB 12 1 (by decide)

theorem chain_removed (db : DB) (nfaID approverID d : Int) :
    chain (shiftDown (deleteApprover db nfaID approverID) nfaID d) nfaID =
      ((chain db nfaID).filter fun r =>
        !decide (r.NFAID = nfaID ∧ r.ApproverID = approverID)).map fun r =>
          if r.NFAID = nfaID ∧ r.Order > d then { r with Order := r.Order - 1 } else r := by
  simp only [chain, shiftDown, deleteApprover]
  rw [filter_map_rows _ nfaID (fun r => by split <;> rfl)]
  congr 1
  rw [List.filter_filter, List.filter_filter]
  apply List.filter_congr
  intro r _
  exact Bool.and_comm _ _

theorem order_ne_deleted {db : DB} {nfaID approverID : Int} (hu : UniquePositions db nfaID)
    {r0 : NFAApprovalList} (hr0 : r0 ∈ chain db nfaID) (hr0a : r0.ApproverID = approverID)
    {r : NFAApprovalList}
    (hr : r ∈ (chain db nfaID).filter fun r =>
      !decide (r.NFAID = nfaID ∧ r.ApproverID = approverID)) :
    r.Order ≠ r0.Order := by
  intro ho
  have hrc : r ∈ chain db nfaID := (List.mem_filter.mp hr).1
  have hrr : r = r0 := List.inj_on_of_nodup_map hu hrc hr0 ho
  have hk := (List.mem_filter.mp hr).2
  have hn : r0.NFAID = nfaID := by
    have := (List.mem_filter.mp hr0).2
    simpa using this
  rw [hrr] at hk
  simp [hn, hr0a] at hk

theorem mem_chain_iff (db : DB) (nfaID : Int) (r : NFAApprovalList) :
    r ∈ chain db nfaID ↔ r ∈ db.nfa_approval_list ∧ r.NFAID = nfaID := by
  simp [chain]

theorem uniquePositions_removed {db : DB} {nfaID approverID : Int}
    (hu : UniquePositions db nfaID)
    {r0 : NFAApprovalList} (hr0 : r0 ∈ chain db nfaID) (hr0a : r0.ApproverID = approverID) :
    UniquePositions (shiftDown (deleteApprover db nfaID approverID) nfaID r0.Order) nfaID := by
  unfold UniquePositions
  rw [chain_removed, List.map_map]
  apply List.Nodup.map_on
  · intro r hr s hs hxy
    have hro := order_ne_deleted hu hr0 hr0a hr
    have hso := order_ne_deleted hu hr0 hr0a hs
    have hrc := (List.mem_filter.mp hr).1
    have hsc := (List.mem_filter.mp hs).1
    have hrn := ((mem_chain_iff _ _ _).mp hrc).2
    have hsn := ((mem_chain_iff _ _ _).mp hsc).2
    have hrs : r.Order = s.Order := by
      simp only [Function.comp, hrn, hsn, true_and] at hxy
      split_ifs at hxy <;> (try dsimp only at hxy) <;> omega
    exact List.inj_on_of_nodup_map hu hrc hsc hrs
  · have hnd : (chain db nfaID).Nodup := List.Nodup.of_map _ hu
    exact hnd.sublist (List.filter_sublist _)

theorem uniquePositions_of_positions_eq {db db' : DB} {nfaID : Int}
    (h : ((chain db' nfaID).map fun r => r.Order) = (chain db nfaID).map fun r => r.Order)
    (hu : UniquePositions db nfaID) : UniquePositions db' nfaID := by
  unfold UniquePositions
  rw [h]
  exact hu

theorem positions_promoteNext (db : DB) (nfaID : Int) :
    ((chain (promoteNext db nfaID) nfaID).map fun r => r.Order) =
      (chain db nfaID).map fun r => r.Order := by
  unfold promoteNext
  apply positions_map_rows
  intro r
  split <;> exact ⟨rfl, rfl⟩

theorem positionsOneTo_removed {db : DB} {nfaID approverID : Int} {N : Nat}
    (hpositions : PositionsOneTo db nfaID N)
    {m : NFAApprovalList} (hm : m ∈ chain db nfaID) (hma : m.ApproverID = approverID)
    (honly : ∀ r ∈ chain db nfaID, r.ApproverID = approverID → r = m) :
    PositionsOneTo (shiftDown (deleteApprover db nfaID approverID) nfaID m.Order) nfaID
      (N - 1) := by
  obtain ⟨hu, hmem⟩ := (positionsOneTo_iff db nfaID N).mp hpositions
  rw [positionsOneTo_iff]
  refine ⟨uniquePositions_removed hu hm hma, fun x => ?_⟩
  have hmo : 1 ≤ m.Order ∧ m.Order ≤ N := (hmem m.Order).mp (List.mem_map_of_mem _ hm)
  rw [chain_removed, List.map_map]
  simp only [List.mem_map, Function.comp]
  constructor
  · rintro ⟨r, hr, rfl⟩
    have hne := order_ne_deleted hu hm hma hr
    have hrc := (List.mem_filter.mp hr).1
    have hro : 1 ≤ r.Order ∧ r.Order ≤ N := (hmem r.Order).mp (List.mem_map_of_mem _ hrc)
    have hrn := ((mem_chain_iff _ _ _).mp hrc).2
    simp only [hrn, true_and]
    split_ifs <;> (try dsimp only) <;> omega
  · rintro ⟨h1, h2⟩
    have key : ∀ y : Int, 1 ≤ y → y ≤ N → y ≠ m.Order →
        ∃ r ∈ (chain db nfaID).filter fun r =>
          !decide (r.NFAID = nfaID ∧ r.ApproverID = approverID), r.Order = y := by
      intro y hy1 hy2 hyd
      obtain ⟨r, hrc, hry⟩ := List.mem_map.mp ((hmem y).mpr ⟨hy1, hy2⟩)
      refine ⟨r, List.mem_filter.mpr ⟨hrc, ?_⟩, hry⟩
      have hra : r.ApproverID ≠ approverID := by
        intro ha
        rw [honly r hrc ha] at hry
        exact hyd hry.symm
      simp [hra]
    by_cases hlt : x < m.Order
    · obtain ⟨r, hr, hry⟩ := key x h1 (by omega) (by omega)
      refine ⟨r, hr, ?_⟩
      rw [if_neg (by omega)]
      exact hry
    · obtain ⟨r, hr, hry⟩ := key (x + 1) (by omega) (by omega) (by omega)
      have hrn := ((mem_chain_iff _ _ _).mp (List.mem_filter.mp hr).1).2
      refine ⟨r, hr, ?_⟩
      rw [if_pos ⟨hrn, by omega⟩]
      dsimp only
      omega

/-- C13: let the chain of the request have the positions `1, ..., N` and let the
approver own exactly one member `m` of it, at position `d`.  `RemoveApprover` answers
OK; no row of the request is owned by the approver afterwards; every other stored row
comes back in its place, a member of the request with position `> d` with its position
decreased by one, every other row with its position kept, and nothing but the position
and the status of a row differs; the positions of the resulting chain are
`1, ..., N - 1`. -/
theorem removal_closes_gap (db : DB) (approverID nfaID d : Int) (N : Nat)
    (m : NFAApprovalList) (hpositions : PositionsOneTo db nfaID N)
    (hm : m ∈ db.nfa_approval_list) (hmn : m.NFAID = nfaID)
    (hma : m.ApproverID = approverID) (hmo : m.Order = d)
    (honly : ∀ r ∈ db.nfa_approval_list,
      r.NFAID = nfaID → r.ApproverID = approverID → r = m) :
    ∃ db', RemoveApprover db approverID nfaID = (Response.OK, db') ∧
      (∀ r' ∈ db'.nfa_approval_list, ¬ (r'.NFAID = nfaID ∧ r'.ApproverID = approverID)) ∧
      List.Forall₂ (fun r r' =>
        r' = { r with Order := r'.Order, Status := r'.Status } ∧
        (r.NFAID = nfaID ∧ r.Order > d → r'.Order = r.Order - 1) ∧
        (¬ (r.NFAID = nfaID ∧ r.Order > d) → r'.Order = r.Order))
        (db.nfa_approval_list.filter fun r => decide (r ≠ m)) db'.nfa_approval_list ∧
      PositionsOneTo db' nfaID (N - 1) := by
  have hmc : m ∈ chain db nfaID := (mem_chain_iff _ _ _).mpr ⟨hm, hmn⟩
  have honly' : ∀ r ∈ chain db nfaID, r.ApproverID = approverID → r = m := fun r hr ha =>
    honly r ((mem_chain_iff _ _ _).mp hr).1 ((mem_chain_iff _ _ _).mp hr).2 ha
  have hd : deletedOrderOf db nfaID approverID = some d := by
    obtain ⟨r0, hr0, hr0n, hr0a, hr0d⟩ := deletedOrderOf_spec ⟨m, hm, hmn, hma⟩
    rw [hr0d, honly r0 hr0 hr0n hr0a, hmo]
  have hkeep : (db.nfa_approval_list.filter fun r =>
      !decide (r.NFAID = nfaID ∧ r.ApproverID = approverID)) =
      db.nfa_approval_list.filter fun r => decide (r ≠ m) := by
    apply List.filter_congr
    intro r hr
    by_cases hrm : r = m
    · subst hrm
      simp [hmn, hma]
    · have : ¬ (r.NFAID = nfaID ∧ r.ApproverID = approverID) := fun h =>
        hrm (honly r hr h.1 h.2)
      simp [hrm, this]
  have hp2 := positionsOneTo_removed hpositions hmc hma honly'
  rw [hmo] at hp2
  refine ⟨_, RemoveApprover_of_deletedOrder hd, ?_, ?_, ?_⟩
  · intro r' hr'
    split at hr'
    · simp only [shiftDown, deleteApprover, List.mem_map, List.mem_filter] at hr'
      obtain ⟨r, ⟨-, hk⟩, rfl⟩ := hr'
      have hk' : ¬ (r.NFAID = nfaID ∧ r.ApproverID = approverID) := by
        intro h
        simp [h.1, h.2] at hk
      split <;> exact hk'
    · simp only [promoteNext, shiftDown, deleteApprover, List.mem_map, List.mem_filter] at hr'
      obtain ⟨r1, ⟨r, ⟨-, hk⟩, rfl⟩, rfl⟩ := hr'
      have hk' : ¬ (r.NFAID = nfaID ∧ r.ApproverID = approverID) := by
        intro h
        simp [h.1, h.2] at hk
      split <;> split <;> exact hk'
  · rw [← hkeep]
    split
    · simp only [shiftDown, deleteApprover]
      apply forall₂_map_of
      intro r _
      by_cases hc : r.NFAID = nfaID ∧ r.Order > d <;> simp [hc]
    · simp only [promoteNext, shiftDown, deleteApprover, List.map_map]
      apply forall₂_map_of
      intro r _
      simp only [Function.comp]
      by_cases hc : r.NFAID = nfaID ∧ r.Order > d
      · simp only [if_pos hc]
        split <;> simp [hc]
      · simp only [if_neg hc]
        split <;> simp [hc]
  · split
    · exact hp2
    · unfold PositionsOneTo
      rw [positions_promoteNext]
      exact hp2

/-- C13, witness: removing B from `[A@1 = Complete, B@2 = Pending, C@3 = Waiting]`. -/
theorem removal_closes_gap_witness :
    ∃ db', RemoveApprover storeABC 11 1 = (Response.OK, db') ∧
      (∀ r' ∈ db'.nfa_approval_list, ¬ (r'.NFAID = 1 ∧ r'.ApproverID = 11)) ∧
      List.Forall₂ (fun r r' =>
        r' = { r with Order := r'.Order, Status := r'.Status } ∧
        (r.NFAID = 1 ∧ r.Order > 2 → r'.Order = r.Order - 1) ∧
        (¬ (r.NFAID = 1 ∧ r.Order > 2) → r'.Order = r.Order))
        (storeABC.nfa_approval_list.filter fun r =>
          decide (r ≠ row 1 11 2 "Pending" none none)) db'.nfa_approval_list ∧
      PositionsOneTo db' 1 (3 - 1) :=
  removal_closes_gap storeABC 11 1 2 3 (row 1 11 2 "Pending" none none) (by decide)
    (by decide) rfl rfl rfl (by decide)

theorem min?_int_spec (l : List Int) (h : l ≠ []) :
    ∃ k, l.min? = some k ∧ k ∈ l ∧ ∀ b ∈ l, k ≤ b := by
  cases hm : l.min? with
  | none => exact absurd (List.min?_eq_none_iff.mp hm) h
  | some k =>
    haveI : Std.Antisymm (fun x1 x2 : Int => x1 ≤ x2) := ⟨fun h1 h2 => le_antisymm h1 h2⟩
    have hs := (List.min?_eq_some_iff (fun a => le_refl a) (fun a b => min_choice a b)
      (fun a b c => le_min_iff)).mp hm
    exact ⟨k, rfl, hs.1, hs.2⟩

theorem length_le_one_of_forall_eq {α : Type} (l : List α) (hnd : l.Nodup)
    (h : ∀ x ∈ l, ∀ y ∈ l, x = y) : l.length ≤ 1 := by
  match l, hnd, h with
  | [], _, _ => simp
  | [_], _, _ => simp
  | a :: b :: t, hnd, h =>
    have hab : a = b := h a (by simp) b (by simp)
    subst hab
    simp at hnd

theorem pendingCount_le_one_of_order {db : DB} {nfaID : Int} (k : Int)
    (hu : UniquePositions db nfaID)
    (h : ∀ r ∈ chain db nfaID, r.Status = some "Pending" → r.Order = k) :
    AtMostOnePending db nfaID := by
  unfold AtMostOnePending pendingCount
  apply length_le_one_of_forall_eq
  · exact (List.Nodup.of_map _ hu).filter _
  · intro x hx y hy
    simp only [List.mem_filter, decide_eq_true_eq] at hx hy
    exact List.inj_on_of_nodup_map hu hx.1 hy.1 ((h x hx.1 hx.2).trans (h y hy.1 hy.2).symm)

theorem eq_of_atMostOnePending {db : DB} {nfaID : Int} (h : AtMostOnePending db nfaID)
    {r s : NFAApprovalList} (hr : r ∈ chain db nfaID) (hs : s ∈ chain db nfaID)
    (hrp : r.Status = some "Pending") (hsp : s.Status = some "Pending") : r = s := by
  unfold AtMostOnePending pendingCount at h
  have hr' : r ∈ (chain db nfaID).filter fun r => decide (r.Status = some "Pending") := by
    simp [hr, hrp]
  have hs' : s ∈ (chain db nfaID).filter fun r => decide (r.Status = some "Pending") := by
    simp [hs, hsp]
  generalize ((chain db nfaID).filter fun r => decide (r.Status = some "Pending")) = l at *
  match l, h, hr', hs' with
  | [a], _, hr', hs' =>
    simp only [List.mem_singleton] at hr' hs'
    rw [hr', hs']
  | a :: b :: t, h, _, _ => simp at h

theorem mem_remainingRows_chain {db : DB} {nfaID approverID : Int} {r : NFAApprovalList}
    (hr : r ∈ remainingRows db nfaID approverID) (hn : r.NFAID = nfaID) :
    r ∈ (chain db nfaID).filter fun r =>
      !decide (r.NFAID = nfaID ∧ r.ApproverID = approverID) := by
  simp only [remainingRows, List.mem_filter] at hr
  simp only [chain, List.mem_filter, decide_eq_true_eq]
  exact ⟨⟨hr.1, hn⟩, hr.2⟩

theorem removed_rows_eq (db : DB) (nfaID approverID d : Int) :
    (shiftDown (deleteApprover db nfaID approverID) nfaID d).nfa_approval_list =
      (remainingRows db nfaID approverID).map fun r =>
        if r.NFAID = nfaID ∧ r.Order > d then { r with Order := r.Order - 1 } else r := rfl

theorem pendingExists_eq_false_iff (db : DB) (nfaID : Int) :
    pendingExists db nfaID = false ↔
      ∀ r ∈ db.nfa_approval_list, r.NFAID = nfaID → r.Status ≠ some "Pending" := by
  rw [Bool.eq_false_iff]
  simp only [pendingExists, ne_eq, List.any_eq_true, decide_eq_true_eq, not_exists, not_and]

theorem minWaitingOrder_spec {db : DB} {nfaID : Int}
    (h : ∃ w ∈ db.nfa_approval_list, w.NFAID = nfaID ∧ w.Status = some "Waiting") :
    ∃ k, minWaitingOrder db nfaID = some k ∧
      (∃ s ∈ db.nfa_approval_list, s.NFAID = nfaID ∧ s.Status = some "Waiting" ∧ s.Order = k) ∧
      ∀ t ∈ db.nfa_approval_list, t.NFAID = nfaID → t.Status = some "Waiting" → k ≤ t.Order := by
  obtain ⟨w, hw, hwn, hws⟩ := h
  have hne : ((db.nfa_approval_list.filter fun r =>
      decide (r.NFAID = nfaID ∧ r.Status = some "Waiting")).map fun r => r.Order) ≠ [] := by
    intro h0
    have hmem : w.Order ∈ ((db.nfa_approval_list.filter fun r =>
        decide (r.NFAID = nfaID ∧ r.Status = some "Waiting")).map fun r => r.Order) := by
      apply List.mem_map_of_mem
      simp [hw, hwn, hws]
    rw [h0] at hmem
    simp at hmem
  obtain ⟨k, hk, hkm, hkl⟩ := min?_int_spec _ hne
  refine ⟨k, hk, ?_, ?_⟩
  · simp only [List.mem_map, List.mem_filter, decide_eq_true_eq] at hkm
    obtain ⟨s, ⟨hs, hsn, hss⟩, hso⟩ := hkm
    exact ⟨s, hs, hsn, hss, hso⟩
  · intro t ht htn hts
    apply hkl
    apply List.mem_map_of_mem
    simp [ht, htn, hts]

/-- C14: let the chain of the request have unique positions, let the approver own the
member `m`, let `m` be the only Pending member of the chain, and let a Waiting member
of the request remain when the rows of the approver are taken away.  `RemoveApprover`
answers OK.  Every remaining row comes back in its place with nothing but its
position and status touched: the Waiting member of the request with the lowest
position has status Pending, every other remaining row has the status it had, and the
resulting chain has exactly one Pending member. -/
theorem removal_promotes_next_waiting (db : DB) (approverID nfaID : Int)
    (m : NFAApprovalList) (hu : UniquePositions db nfaID)
    (hm : m ∈ db.nfa_approval_list) (hmn : m.NFAID = nfaID)
    (hma : m.ApproverID = approverID) (_hmp : m.Status = some "Pending")
    (honly : ∀ r ∈ db.nfa_approval_list,
      r.NFAID = nfaID → r.Status = some "Pending" → r = m)
    (hwait : ∃ w ∈ remainingRows db nfaID approverID,
      w.NFAID = nfaID ∧ w.Status = some "Waiting") :
    ∃ db', RemoveApprover db approverID nfaID = (Response.OK, db') ∧
      List.Forall₂ (fun r r' =>
        r' = { r with Order := r'.Order, Status := r'.Status } ∧
        (LowestWaiting (remainingRows db nfaID approverID) nfaID r →
          r'.Status = some "Pending") ∧
        (¬ LowestWaiting (remainingRows db nfaID approverID) nfaID r →
          r'.Status = r.Status))
        (remainingRows db nfaID approverID) db'.nfa_approval_list ∧
      pendingCount db' nfaID = 1 := by
  obtain ⟨r0, hr0, hr0n, hr0a, hd⟩ := deletedOrderOf_spec ⟨m, hm, hmn, hma⟩
  have hr0c : r0 ∈ chain db nfaID := (mem_chain_iff _ _ _).mpr ⟨hr0, hr0n⟩
  -- the remaining members of the request are not Pending and not at the deleted position
  have hnotp : ∀ r ∈ remainingRows db nfaID approverID, r.NFAID = nfaID →
      r.Status ≠ some "Pending" := by
    intro r hr hn hs
    have hrr := (List.mem_filter.mp hr)
    have hrm := honly r hrr.1 hn hs
    rw [hrm] at hrr
    simp [hmn, hma] at hrr
  have hned : ∀ r ∈ remainingRows db nfaID approverID, r.NFAID = nfaID →
      r.Order ≠ r0.Order := fun r hr hn =>
    order_ne_deleted hu hr0c hr0a (mem_remainingRows_chain hr hn)
  have hinj : ∀ r ∈ remainingRows db nfaID approverID,
      ∀ s ∈ remainingRows db nfaID approverID,
      r.NFAID = nfaID → s.NFAID = nfaID → r.Order = s.Order → r = s := by
    intro r hr s hs hrn hsn ho
    exact chain_order_inj hu (List.mem_filter.mp hr).1 (List.mem_filter.mp hs).1 hrn hsn ho
  have hrows := removed_rows_eq db nfaID approverID r0.Order
  have hpe : pendingExists (shiftDown (deleteApprover db nfaID approverID) nfaID r0.Order)
      nfaID = false := by
    rw [pendingExists_eq_false_iff, hrows]
    intro r2 hr2 hn2
    obtain ⟨r, hr, rfl⟩ := List.mem_map.mp hr2
    have hn : r.NFAID = nfaID := by
      split at hn2 <;> exact hn2
    have := hnotp r hr hn
    split <;> exact this
  have hw2 : ∃ w ∈ (shiftDown (deleteApprover db nfaID approverID) nfaID
      r0.Order).nfa_approval_list, w.NFAID = nfaID ∧ w.Status = some "Waiting" := by
    obtain ⟨w, hw, hwn, hws⟩ := hwait
    rw [hrows]
    refine ⟨_, List.mem_map_of_mem _ hw, ?_, ?_⟩
    · split <;> exact hwn
    · split <;> exact hws
  obtain ⟨k, hk, ⟨s2, hs2, hs2n, hs2w, hs2o⟩, hkle⟩ := minWaitingOrder_spec hw2
  rw [hrows] at hs2 hkle
  obtain ⟨s, hs, rfl⟩ := List.mem_map.mp hs2
  have hsn : s.NFAID = nfaID := by
    split at hs2n <;> exact hs2n
  have hsw : s.Status = some "Waiting" := by
    split at hs2w <;> exact hs2w
  have hso : (if s.Order > r0.Order then s.Order - 1 else s.Order) = k := by
    rw [← hs2o]
    simp only [hsn, true_and]
    split <;> rfl
  have hsd := hned s hs hsn
  have hkle' : ∀ t ∈ remainingRows db nfaID approverID, t.NFAID = nfaID →
      t.Status = some "Waiting" → k ≤ (if t.Order > r0.Order then t.Order - 1 else t.Order) := by
    intro t ht htn htw
    have := hkle _ (List.mem_map_of_mem _ ht) (by split <;> exact htn) (by split <;> exact htw)
    simp only [htn, true_and] at this
    split_ifs at this ⊢ <;> exact this
  -- the promoted rows are the lowest Waiting members
  have hA : ∀ r ∈ remainingRows db nfaID approverID,
      LowestWaiting (remainingRows db nfaID approverID) nfaID r →
      (if r.Order > r0.Order then r.Order - 1 else r.Order) = k := by
    intro r hr hl
    have h1 := hkle' r hr hl.1 hl.2.1
    have h2 := hl.2.2 s hs hsn hsw
    have hrd := hned r hr hl.1
    split_ifs at h1 hso ⊢ <;> omega
  have hB : ∀ r ∈ remainingRows db nfaID approverID, r.NFAID = nfaID →
      (if r.Order > r0.Order then r.Order - 1 else r.Order) = k →
      LowestWaiting (remainingRows db nfaID approverID) nfaID r := by
    intro r hr hn ho
    have hrd := hned r hr hn
    have hrs : r = s := by
      apply hinj r hr s hs hn hsn
      split_ifs at ho hso <;> omega
    refine ⟨hn, hrs ▸ hsw, ?_⟩
    intro t ht htn htw
    have h1 := hkle' t ht htn htw
    have htd := hned t ht htn
    split_ifs at h1 ho <;> omega
  have hres : RemoveApprover db approverID nfaID =
      (Response.OK,
        promoteNext (shiftDown (deleteApprover db nfaID approverID) nfaID r0.Order) nfaID) := by
    rw [RemoveApprover_of_deletedOrder hd, hpe]
    rfl
  have hrows' : (promoteNext (shiftDown (deleteApprover db nfaID approverID) nfaID r0.Order)
      nfaID).nfa_approval_list =
      (remainingRows db nfaID approverID).map fun r =>
        if r.NFAID = nfaID ∧
            (if r.Order > r0.Order then r.Order - 1 else r.Order) = k then
          { r with Order := (if r.Order > r0.Order then r.Order - 1 else r.Order),
                   Status := some "Pending" }
        else if r.NFAID = nfaID ∧ r.Order > r0.Order then { r with Order := r.Order - 1 }
        else r := by
    simp only [promoteNext, hk, hrows, List.map_map, Option.some.injEq]
    apply List.map_congr_left
    intro r _
    simp only [Function.comp]
    by_cases hn : r.NFAID = nfaID
    · by_cases hgt : r.Order > r0.Order
      · by_cases hkk : r.Order - 1 = k
        · subst hkk
          simp [hn, hgt]
        · simp [hn, hgt, hkk]
      · by_cases hkk : r.Order = k
        · subst hkk
          simp [hn, hgt]
        · simp [hn, hgt, hkk]
    · simp [hn]
  refine ⟨_, hres, ?_, ?_⟩
  · rw [hrows']
    apply forall₂_map_of
    intro r hr
    by_cases hc : r.NFAID = nfaID ∧
        (if r.Order > r0.Order then r.Order - 1 else r.Order) = k
    · rw [if_pos hc]
      refine ⟨rfl, fun _ => rfl, fun hnl => ?_⟩
      exact absurd (hB r hr hc.1 hc.2) hnl
    · rw [if_neg hc]
      have hnl : ¬ LowestWaiting (remainingRows db nfaID approverID) nfaID r := fun hl =>
        hc ⟨hl.1, hA r hr hl⟩
      split
      · exact ⟨rfl, fun hl => absurd hl hnl, fun _ => rfl⟩
      · exact ⟨by cases r; rfl, fun hl => absurd hl hnl, fun _ => rfl⟩
  · have hu' : UniquePositions (promoteNext (shiftDown (deleteApprover db nfaID approverID)
        nfaID r0.Order) nfaID) nfaID :=
      uniquePositions_of_positions_eq (positions_promoteNext _ _)
        (uniquePositions_removed hu hr0c hr0a)
    have hle : AtMostOnePending (promoteNext (shiftDown (deleteApprover db nfaID approverID)
        nfaID r0.Order) nfaID) nfaID := by
      apply pendingCount_le_one_of_order k hu'
      intro r' hr' hp'
      rw [mem_chain_iff, hrows'] at hr'
      obtain ⟨hr'm, hr'n⟩ := hr'
      obtain ⟨r, hr, rfl⟩ := List.mem_map.mp hr'm
      by_cases hc : r.NFAID = nfaID ∧
          (if r.Order > r0.Order then r.Order - 1 else r.Order) = k
      · rw [if_pos hc]
        exact hc.2
      · rw [if_neg hc] at hp' hr'n
        have hn : r.NFAID = nfaID := by
          split at hr'n <;> exact hr'n
        have hp : r.Status = some "Pending" := by
          split at hp' <;> exact hp'
        exact absurd hp (hnotp r hr hn)
    have hge : 0 < pendingCount (promoteNext (shiftDown (deleteApprover db nfaID approverID)
        nfaID r0.Order) nfaID) nfaID := by
      unfold pendingCount
      apply List.length_pos_of_mem
        (a := ({ s with Order := (if s.Order > r0.Order then s.Order - 1 else s.Order),
                        Status := some "Pending" } : NFAApprovalList))
      simp only [List.mem_filter, decide_eq_true_eq, mem_chain_iff, and_true]
      refine ⟨?_, hsn⟩
      rw [hrows']
      refine List.mem_map.mpr ⟨s, hs, ?_⟩
      rw [if_pos ⟨hsn, hso⟩]
    unfold AtMostOnePending at hle
    omega

/-- C14, witness: removing B from `[A@1 = Complete, B@2 = Pending, C@3 = Waiting]`
leaves `[A@1 = Complete, C@2 = Pending]`. -/
theorem removal_promotes_next_waiting_witness :
    (∃ db', RemoveApprover storeABC 11 1 = (Response.OK, db') ∧
      List.Forall₂ (fun r r' =>
        r' = { r with Order := r'.Order, Status := r'.Status } ∧
        (LowestWaiting (remainingRows storeABC 1 11) 1 r → r'.Status = some "Pending") ∧
        (¬ LowestWaiting (remainingRows storeABC 1 11) 1 r → r'.Status = r.Status))
        (remainingRows storeABC 1 11) db'.nfa_approval_list ∧
      pendingCount db' 1 = 1) ∧
    (RemoveApprover storeABC 11 1).2.nfa_approval_list =
      [row 1 10 1 "Complete" none none, row 1 12 2 "Pending" none none] :=
  ⟨removal_promotes_next_waiting storeABC 11 1 (row 1 11 2 "Pending" none none) (by decide)
    (by decide) rfl rfl rfl (by decide) (by decide), by decide⟩

/-! ## Invariants of the chain -/

/-- C16, the code at the failing input: from the newly created request 1 (status
`Pending`, empty chain), `AddApprover` of user 10 at position 1, `AddApprover` of user
11 at position 1 and `approve` by the recommender, user 9, all answer OK, and leave
the chain `[11@1 = Pending, 10@2 = Pending]` with two Pending members. -/
theorem two_pending_members_reachable :
    (AddApprover storeNoChain 1 10 1 "").1 = Response.OK ∧
    (AddApprover (AddApprover storeNoChain 1 10 1 "").2 1 11 1 "").1 = Response.OK ∧
    ApproveOrRejectNFA (AddApprover (AddApprover storeNoChain 1 10 1 "").2 1 11 1 "").2
        7 9 1 "approve" "" =
      (Response.OK,
        { nfa := [request1 "Initiated"]
          nfa_approval_list :=
            [{ NFAID := 1, ApproverID := 10, Order := 2, Status := some "Pending",
               Comments := some "", StartedDate := none, CompletedDate := none },
             { NFAID := 1, ApproverID := 11, Order := 1, Status := some "Pending",
               Comments := some "", StartedDate := some 7, CompletedDate := none }] }) ∧
    pendingCount (ApproveOrRejectNFA
      (AddApprover (AddApprover storeNoChain 1 10 1 "").2 1 11 1 "").2
        7 9 1 "approve" "").2 1 = 2 := by
  decide

theorem positions_eq_of_rows_map {db db' : DB} (nfaID : Int)
    (f : NFAApprovalList → NFAApprovalList)
    (hf : ∀ r, (f r).NFAID = r.NFAID ∧ (f r).Order = r.Order)
    (h : db'.nfa_approval_list = db.nfa_approval_list.map f) :
    ((chain db' nfaID).map fun r => r.Order) = (chain db nfaID).map fun r => r.Order := by
  have := positions_map_rows db f nfaID hf
  simp only [chain] at this ⊢
  rw [h]
  exact this

theorem positions_closeApproval (db : DB) (now : Nat) (status comment : String)
    (nfaID userID currentOrder n : Int) :
    ((chain (closeApproval db now status comment nfaID userID currentOrder) n).map
      fun r => r.Order) = (chain db n).map fun r => r.Order := by
  apply positions_eq_of_rows_map n _ _ rfl
  intro r
  split <;> exact ⟨rfl, rfl⟩

theorem positions_startApproval (db : DB) (now : Nat) (nfaID order n : Int) :
    ((chain (startApproval db now nfaID order) n).map fun r => r.Order) =
      (chain db n).map fun r => r.Order := by
  apply positions_eq_of_rows_map n _ _ rfl
  intro r
  split <;> exact ⟨rfl, rfl⟩

theorem positions_setApproverStatus (db : DB) (nfaID approverID : Int) (status : String)
    (n : Int) :
    ((chain (setApproverStatus db nfaID approverID status) n).map fun r => r.Order) =
      (chain db n).map fun r => r.Order := by
  apply positions_eq_of_rows_map n _ _ rfl
  intro r
  split <;> exact ⟨rfl, rfl⟩

theorem positions_processApproverAction (db : DB) (now : Nat) (nfaID currentOrder : Int)
    (action comment : String) (userID n : Int) :
    ((chain (processApproverAction db now nfaID currentOrder action comment userID) n).map
      fun r => r.Order) = (chain db n).map fun r => r.Order := by
  unfold processApproverAction
  split
  · simp only
    split
    · rw [positions_startApproval, positions_closeApproval]
    · exact positions_closeApproval _ _ _ _ _ _ _ _
  · split
    · exact positions_closeApproval _ _ _ _ _ _ _ _
    · rfl

theorem positions_processRecommenderAction (db : DB) (now : Nat) (nfaID : Int)
    (action comment : String) (n : Int) :
    ((chain (processRecommenderAction db now nfaID action comment) n).map
      fun r => r.Order) = (chain db n).map fun r => r.Order := by
  unfold processRecommenderAction
  split
  · simp only
    split
    · rfl
    · exact positions_startApproval _ _ _ _ _
  · split <;> rfl

theorem positions_ApproveOrRejectNFA (db : DB) (now : Nat) (userID nfaID : Int)
    (action comment : String) (n : Int) :
    ((chain (ApproveOrRejectNFA db now userID nfaID action comment).2 n).map
      fun r => r.Order) = (chain db n).map fun r => r.Order := by
  unfold ApproveOrRejectNFA
  split
  · rfl
  · split
    · rfl
    · split
      · rfl
      · split
        · exact positions_processRecommenderAction _ _ _ _ _ _
        · split
          · rfl
          · exact positions_processApproverAction _ _ _ _ _ _ _ _

theorem positions_ApproveNFA (db : DB) (nfaID approverID n : Int) :
    ((chain (ApproveNFA db nfaID approverID).2.2 n).map fun r => r.Order) =
      (chain db n).map fun r => r.Order := by
  unfold ApproveNFA
  split
  · rfl
  · simp only
    split
    · exact positions_setApproverStatus _ _ _ _ _
    · rw [positions_setApproverStatus, positions_setApproverStatus]

theorem length_of_positionsOneTo {db : DB} {nfaID : Int} {N : Nat}
    (h : PositionsOneTo db nfaID N) : (chain db nfaID).length = N := by
  have := h.length_eq
  simpa using this

theorem positionsOneTo_length {db : DB} {nfaID : Int} {N : Nat}
    (h : PositionsOneTo db nfaID N) : PositionsOneTo db nfaID (chain db nfaID).length := by
  rw [length_of_positionsOneTo h]
  exact h

theorem positionsOneTo_of_positions_eq {db db' : DB} {nfaID : Int} {N : Nat}
    (h : ((chain db' nfaID).map fun r => r.Order) = (chain db nfaID).map fun r => r.Order)
    (hp : PositionsOneTo db nfaID N) : PositionsOneTo db' nfaID N := by
  unfold PositionsOneTo
  rw [h]
  exact hp

theorem positionsOneTo_AddApprover {db : DB} {nfaID : Int} {N : Nat}
    (approverID p : Int) (comments : String) (hpositions : PositionsOneTo db nfaID N)
    (hp : 1 ≤ p ∧ p ≤ N + 1) :
    ∃ N', PositionsOneTo (AddApprover db nfaID approverID p comments).2 nfaID N' := by
  by_cases hv : nfaID = 0 ∨ approverID = 0 ∨ p = 0
  · refine ⟨N, ?_⟩
    unfold AddApprover
    rw [if_pos hv]
    exact hpositions
  · refine ⟨N + 1, ?_⟩
    unfold PositionsOneTo
    rw [positions_AddApprover db nfaID approverID p comments hv]
    exact ((List.Perm.map _ hpositions).append_right [p]).trans (perm_insert_position N p hp)

theorem positionsOneTo_RemoveApprover {db : DB} {nfaID : Int} {N : Nat}
    (approverID : Int) (hpositions : PositionsOneTo db nfaID N)
    (hone : ∀ r ∈ chain db nfaID, ∀ s ∈ chain db nfaID,
      r.ApproverID = approverID → s.ApproverID = approverID → r = s) :
    ∃ N', PositionsOneTo (RemoveApprover db approverID nfaID).2 nfaID N' := by
  by_cases hex : ∃ r ∈ db.nfa_approval_list, r.NFAID = nfaID ∧ r.ApproverID = approverID
  · obtain ⟨m, hm, hmn, hma, hd⟩ := deletedOrderOf_spec hex
    have hmc : m ∈ chain db nfaID := (mem_chain_iff _ _ _).mpr ⟨hm, hmn⟩
    have hp2 := positionsOneTo_removed hpositions hmc hma
      (fun r hr ha => hone r hr m hmc ha hma)
    refine ⟨N - 1, ?_⟩
    rw [RemoveApprover_of_deletedOrder hd]
    simp only
    split
    · exact hp2
    · exact positionsOneTo_of_positions_eq (positions_promoteNext _ _) hp2
  · refine ⟨N, ?_⟩
    have hd : deletedOrderOf db nfaID approverID = none :=
      deletedOrderOf_eq_none fun r hr hc => hex ⟨r, hr, hc⟩
    unfold RemoveApprover
    rw [hd]
    exact hpositions

/-- C17 (amended): start from a store in which the chain of the request is empty and
make any finite sequence of calls on the request, each an `AddApprover` at a position
between 1 and the current number of members plus one, a `RemoveApprover` of an
approver who owns at most one member of the chain, an `ApproveNFA` or an
`ApproveOrRejectNFA`.  In the state reached, the positions of the `N` members of the
chain are exactly `1, ..., N`. -/
theorem contiguous_positions_reachable (nfaID : Int) (db0 db : DB)
    (hempty : chain db0 nfaID = [])
    (hreach : Relation.ReflTransGen (ChainStep nfaID) db0 db) :
    PositionsOneTo db nfaID (chain db nfaID).length := by
  induction hreach with
  | refl =>
    unfold PositionsOneTo
    rw [hempty]
    exact List.Perm.refl _
  | tail _ hstep ih =>
    cases hstep with
    | add approverID p comments hp =>
      obtain ⟨N', hN'⟩ := positionsOneTo_AddApprover approverID p comments ih
        ⟨hp.1, by exact_mod_cast hp.2⟩
      exact positionsOneTo_length hN'
    | remove approverID hone =>
      obtain ⟨N', hN'⟩ := positionsOneTo_RemoveApprover approverID ih hone
      exact positionsOneTo_length hN'
    | approveNFA approverID =>
      exact positionsOneTo_length
        (positionsOneTo_of_positions_eq (positions_ApproveNFA _ _ _ _) ih)
    | act now userID action comment =>
      exact positionsOneTo_length
        (positionsOneTo_of_positions_eq (positions_ApproveOrRejectNFA _ _ _ _ _ _ _) ih)

/-- C17, witness: from the empty chain of request 1, insert user 10 at position 1,
insert user 11 at position 2, then remove user 10. -/
theorem contiguous_positions_reachable_witness :
    PositionsOneTo
      (RemoveApprover (AddApprover (AddApprover storeNoChain 1 10 1 "").2 1 11 2 "").2 10 1).2
      1
      (chain
        (RemoveApprover (AddApprover (AddApprover storeNoChain 1 10 1 "").2 1 11 2 "").2
          10 1).2 1).length :=
  contiguous_positions_reachable 1 storeNoChain
    (RemoveApprover (AddApprover (AddApprover storeNoChain 1 10 1 "").2 1 11 2 "").2 10 1).2
    (by decide)
    (Relation.ReflTransGen.tail
      (Relation.ReflTransGen.tail
        (Relation.ReflTransGen.tail Relation.ReflTransGen.refl
          (ChainStep.add storeNoChain 10 1 "" (by decide)))
        (ChainStep.add (AddApprover storeNoChain 1 10 1 "").2 11 2 "" (by decide)))
      (ChainStep.remove (AddApprover (AddApprover storeNoChain 1 10 1 "").2 1 11 2 "").2 10
        (by decide)))

/-- C17, counterexample: on the empty chain of request 1, `AddApprover` at position 5
answers OK and leaves a chain of one member whose position is 5, not 1.  And after
`AddApprover` of user 10 at position 1, of user 10 again at position 2 and of user 11
at position 3, `RemoveApprover` of user 10 answers OK and leaves a chain of one
member whose position is 2. -/
theorem contiguous_positions_reachable_counterexample :
    chain storeNoChain 1 = [] ∧
    (AddApprover storeNoChain 1 10 5 "").1 = Response.OK ∧
    ((chain (AddApprover storeNoChain 1 10 5 "").2 1).map fun r => r.Order) = [5] ∧
    ¬ PositionsOneTo (AddApprover storeNoChain 1 10 5 "").2 1
      (chain (AddApprover storeNoChain 1 10 5 "").2 1).length ∧
    (RemoveApprover
      (AddApprover (AddApprover (AddApprover storeNoChain 1 10 1 "").2 1 10 2 "").2
        1 11 3 "").2 10 1).1 = Response.OK ∧
    ((chain (RemoveApprover
      (AddApprover (AddApprover (AddApprover storeNoChain 1 10 1 "").2 1 10 2 "").2
        1 11 3 "").2 10 1).2 1).map fun r => r.Order) = [2] := by
  decide

theorem atMostOnePending_of_no_pending {db : DB} {nfaID : Int}
    (h : ∀ r ∈ chain db nfaID, r.Status ≠ some "Pending") : AtMostOnePending db nfaID := by
  unfold AtMostOnePending pendingCount
  have : ((chain db nfaID).filter fun r => decide (r.Status = some "Pending")) = [] := by
    rw [List.filter_eq_nil_iff]
    intro r hr
    simpa using h r hr
  rw [this]
  simp

theorem pendingCount_eq_zero_of_not_hasPending {db : DB} {nfaID : Int}
    (h : ¬ HasPending db nfaID) : pendingCount db nfaID = 0 := by
  unfold pendingCount
  rw [List.length_eq_zero, List.filter_eq_nil_iff]
  intro r hr hp
  exact h ⟨r, hr, by simpa using hp⟩

theorem pendingCount_AddApprover (db : DB) (nfaID approverID p : Int) (comments : String)
    (hv : ¬ (nfaID = 0 ∨ approverID = 0 ∨ p = 0)) :
    pendingCount (AddApprover db nfaID approverID p comments).2 nfaID =
      pendingCount db nfaID + (if pendingOrderOf db nfaID = 0 ∧ p = 1 then 1 else 0) := by
  unfold AddApprover
  rw [if_neg hv]
  simp only [pendingCount, chain, List.filter_append, List.length_append, List.filter_filter,
    List.filter_map, List.length_map]
  congr 1
  · congr 1
    apply List.filter_congr
    intro r _
    simp only [Function.comp]
    split <;> rfl
  · by_cases hc : pendingOrderOf db nfaID = 0 ∧ p = 1 <;> simp [hc]

theorem atMostOnePending_AddApprover {db : DB} {nfaID : Int} {N : Nat}
    (approverID p : Int) (comments : String) (hpositions : PositionsOneTo db nfaID N)
    (hone : AtMostOnePending db nfaID) :
    AtMostOnePending (AddApprover db nfaID approverID p comments).2 nfaID := by
  by_cases hv : nfaID = 0 ∨ approverID = 0 ∨ p = 0
  · unfold AddApprover
    rw [if_pos hv]
    exact hone
  · unfold AtMostOnePending at hone ⊢
    rw [pendingCount_AddApprover db nfaID approverID p comments hv]
    by_cases hc : pendingOrderOf db nfaID = 0 ∧ p = 1
    · rw [if_pos hc,
        pendingCount_eq_zero_of_not_hasPending ((pendingOrderOf_eq_zero_iff hpositions).mp hc.1)]
    · rw [if_neg hc]
      exact hone

theorem pendingCount_removed_le (db : DB) (nfaID approverID d : Int) :
    pendingCount (shiftDown (deleteApprover db nfaID approverID) nfaID d) nfaID ≤
      pendingCount db nfaID := by
  unfold pendingCount
  rw [chain_removed, List.filter_map, List.length_map, List.filter_filter]
  have hsub : ((chain db nfaID).filter fun a =>
      (((fun r : NFAApprovalList => decide (r.Status = some "Pending")) ∘ fun r =>
        if r.NFAID = nfaID ∧ r.Order > d then { r with Order := r.Order - 1 } else r) a &&
        !decide (a.NFAID = nfaID ∧ a.ApproverID = approverID))).Sublist
      ((chain db nfaID).filter fun r => decide (r.Status = some "Pending")) := by
    apply List.monotone_filter_right
    intro a ha
    simp only [Bool.and_eq_true, Function.comp] at ha
    have h1 := ha.1
    split at h1 <;> exact h1
  exact hsub.length_le

theorem atMostOnePending_RemoveApprover {db : DB} {nfaID : Int} {N : Nat}
    (approverID : Int) (hpositions : PositionsOneTo db nfaID N)
    (hone : AtMostOnePending db nfaID) :
    AtMostOnePending (RemoveApprover db approverID nfaID).2 nfaID := by
  have hu := ((positionsOneTo_iff db nfaID N).mp hpositions).1
  by_cases hex : ∃ r ∈ db.nfa_approval_list, r.NFAID = nfaID ∧ r.ApproverID = approverID
  · obtain ⟨r0, hr0, hr0n, hr0a, hd⟩ := deletedOrderOf_spec hex
    have hr0c : r0 ∈ chain db nfaID := (mem_chain_iff _ _ _).mpr ⟨hr0, hr0n⟩
    rw [RemoveApprover_of_deletedOrder hd]
    simp only
    cases hpe : pendingExists (shiftDown (deleteApprover db nfaID approverID) nfaID r0.Order)
        nfaID
    · simp only [Bool.false_eq_true, if_false]
      have hu' : UniquePositions (promoteNext (shiftDown (deleteApprover db nfaID approverID)
          nfaID r0.Order) nfaID) nfaID :=
        uniquePositions_of_positions_eq (positions_promoteNext _ _)
          (uniquePositions_removed hu hr0c hr0a)
      apply pendingCount_le_one_of_order
        ((minWaitingOrder (shiftDown (deleteApprover db nfaID approverID) nfaID r0.Order)
          nfaID).getD 0) hu'
      intro r' hr' hp'
      rw [mem_chain_iff] at hr'
      simp only [promoteNext, List.mem_map] at hr'
      obtain ⟨⟨r2, hr2, rfl⟩, hn'⟩ := hr'
      by_cases hc : r2.NFAID = nfaID ∧ some r2.Order =
          minWaitingOrder (shiftDown (deleteApprover db nfaID approverID) nfaID r0.Order) nfaID
      · rw [if_pos hc, ← hc.2]
        rfl
      · rw [if_neg hc] at hp' hn'
        exact absurd hp' ((pendingExists_eq_false_iff _ _).mp hpe r2 hr2 hn')
    · simp only [if_true]
      unfold AtMostOnePending at hone ⊢
      exact le_trans (pendingCount_removed_le db nfaID approverID r0.Order) hone
  · have hd : deletedOrderOf db nfaID approverID = none :=
      deletedOrderOf_eq_none fun r hr hc => hex ⟨r, hr, hc⟩
    unfold RemoveApprover
    rw [hd]
    exact hone

theorem no_pending_closeApproval {db : DB} {nfaID userID p : Int} (now : Nat)
    (status comment : String) (hs : status ≠ "Pending") (hone : AtMostOnePending db nfaID)
    {r0 : NFAApprovalList} (hr0 : r0 ∈ db.nfa_approval_list) (hr0n : r0.NFAID = nfaID)
    (hr0a : r0.ApproverID = userID) (hr0o : r0.Order = p)
    (hr0p : r0.Status = some "Pending") :
    ∀ r' ∈ chain (closeApproval db now status comment nfaID userID p) nfaID,
      r'.Status ≠ some "Pending" := by
  intro r' hr' hp'
  rw [mem_chain_iff] at hr'
  simp only [closeApproval, List.mem_map] at hr'
  obtain ⟨⟨r, hr, rfl⟩, hn'⟩ := hr'
  by_cases hc : r.NFAID = nfaID ∧ r.ApproverID = userID ∧ r.Order = p
  · rw [if_pos hc] at hp'
    simp only [Option.some.injEq] at hp'
    exact hs hp'
  · rw [if_neg hc] at hp' hn'
    have hrr : r = r0 := eq_of_atMostOnePending hone ((mem_chain_iff _ _ _).mpr ⟨hr, hn'⟩)
      ((mem_chain_iff _ _ _).mpr ⟨hr0, hr0n⟩) hp' hr0p
    exact hc (hrr ▸ ⟨hr0n, hr0a, hr0o⟩)

theorem atMostOnePending_approver_action {db : DB} {nfaID : Int} {N : Nat}
    (now : Nat) (userID : Int) (action comment : String)
    (hpositions : PositionsOneTo db nfaID N) (hone : AtMostOnePending db nfaID)
    (hrole : ¬ RecommenderOfPending db nfaID userID) :
    AtMostOnePending (ApproveOrRejectNFA db now userID nfaID action comment).2 nfaID := by
  have hu := ((positionsOneTo_iff db nfaID N).mp hpositions).1
  have hnr : isRecommender db nfaID userID = false := by
    rw [Bool.eq_false_iff]
    intro h
    exact hrole ((isRecommender_iff _ _ _).mp h)
  unfold ApproveOrRejectNFA
  split
  · exact hone
  split
  · exact hone
  split
  · exact hone
  rw [hnr]
  simp only [Bool.false_eq_true, if_false]
  cases hf : db.nfa_approval_list.find? (isCurrentApproverRow nfaID userID) with
  | none =>
    simp only [currentOrderOf, hf, Option.map_none']
    exact hone
  | some r0 =>
    simp only [currentOrderOf, hf, Option.map_some']
    have hr0 : r0 ∈ db.nfa_approval_list := List.mem_of_find?_eq_some hf
    obtain ⟨hr0n, hr0a, hr0act⟩ := (isCurrentApproverRow_iff _ _ _).mp (List.find?_some hf)
    unfold processApproverAction
    split
    · simp only
      have hno := no_pending_closeApproval now "Approved" comment (by decide) hone hr0 hr0n
        hr0a rfl hr0act.1
      split
      · apply pendingCount_le_one_of_order (goInt (r0.Order + 1))
        · exact uniquePositions_of_positions_eq
            ((positions_startApproval _ _ _ _ _).trans (positions_closeApproval _ _ _ _ _ _ _ _))
            hu
        · intro r' hr' hp'
          rw [mem_chain_iff] at hr'
          simp only [startApproval, List.mem_map] at hr'
          obtain ⟨⟨r1, hr1, rfl⟩, hn'⟩ := hr'
          by_cases hc : r1.NFAID = nfaID ∧ r1.Order = goInt (r0.Order + 1)
          · rw [if_pos hc]
            exact hc.2
          · rw [if_neg hc] at hp' hn'
            exact absurd hp' (hno r1 ((mem_chain_iff _ _ _).mpr ⟨hr1, hn'⟩))
      · exact atMostOnePending_of_no_pending hno
    · split
      · exact atMostOnePending_of_no_pending
          (no_pending_closeApproval now "Rejected" comment (by decide) hone hr0 hr0n hr0a rfl
            hr0act.1)
      · exact hone

/-- C18: let the chain of the request have the positions `1, ..., N` and at most one
Pending member.  Then the chain has at most one Pending member after each of: (i)
`AddApprover` at any position, (ii) `RemoveApprover` of any approver, (iii) `approve`
and (iv) `reject` through `ApproveOrRejectNFA` by an actor in the approver role (not
the recommender of the request while its status is `Pending`). -/
theorem single_step_preserves_one_pending (db : DB) (nfaID : Int) (N : Nat)
    (hpositions : PositionsOneTo db nfaID N) (hone : AtMostOnePending db nfaID) :
    (∀ (approverID p : Int) (comments : String),
      AtMostOnePending (AddApprover db nfaID approverID p comments).2 nfaID) ∧
    (∀ approverID : Int, AtMostOnePending (RemoveApprover db approverID nfaID).2 nfaID) ∧
    (∀ (now : Nat) (userID : Int) (comment : String),
      ¬ RecommenderOfPending db nfaID userID →
      AtMostOnePending (ApproveOrRejectNFA db now userID nfaID "approve" comment).2 nfaID) ∧
    (∀ (now : Nat) (userID : Int) (comment : String),
      ¬ RecommenderOfPending db nfaID userID →
      AtMostOnePending (ApproveOrRejectNFA db now userID nfaID "reject" comment).2 nfaID) :=
  ⟨fun approverID p comments =>
      atMostOnePending_AddApprover approverID p comments hpositions hone,
    fun approverID => atMostOnePending_RemoveApprover approverID hpositions hone,
    fun now userID comment hrole =>
      atMostOnePending_approver_action now userID "approve" comment hpositions hone hrole,
    fun now userID comment hrole =>
      atMostOnePending_approver_action now userID "reject" comment hpositions hone hrole⟩

/-- C18, witness: the four calls on the scenario `[A@1 = Pending, B@2 = Waiting]`. -/
theorem single_step_preserves_one_pending_witness :
    AtMostOnePending (AddApprover storeAB 1 12 1 "").2 1 ∧
    AtMostOnePending (RemoveApprover storeAB 10 1).2 1 ∧
    AtMostOnePending (ApproveOrRejectNFA storeAB 7 10 1 "approve" "").2 1 ∧
    AtMostOnePending (ApproveOrRejectNFA storeAB 7 10 1 "reject" "no").2 1 :=
  ⟨(single_step_preserves_one_pending storeAB 1 2 (by decide) (by decide)).1 12 1 "",
    (single_step_preserves_one_pending storeAB 1 2 (by decide) (by decide)).2.1 10,
    (single_step_preserves_one_pending storeAB 1 2 (by decide) (by decide)).2.2.1 7 10 ""
      (by decide),
    (single_step_preserves_one_pending storeAB 1 2 (by decide) (by decide)).2.2.2 7 10 "no"
      (by decide)⟩

/-! ## The chain listing -/

theorem isListedRow_iff (nfaID : Int) (r : NFAApprovalList) :
    isListedRow nfaID r = true ↔
      r.NFAID = nfaID ∧ r.Status ≠ none ∧ r.Status ≠ some "Complete" := by
  unfold isListedRow
  cases hs : r.Status with
  | none => simp
  | some s => simp

/-- C19, the code at the failing input: the chain of `storeCreated` has two members,
of users 10 and 11 at positions 1 and 2, neither of them Complete, and
`GetNFAApprovalList` answers OK with the empty list.  After the recommender's approve
has made user 10 Pending, it lists user 10 and still leaves user 11 out. -/
theorem chain_listing_omits_unset_status :
    ((chain storeCreated 1).map fun r => (r.ApproverID, r.Order)) = [(10, 1), (11, 2)] ∧
    (∀ r ∈ chain storeCreated 1, r.Status ≠ some "Complete") ∧
    GetNFAApprovalList storeCreated 1 = (Response.OK, []) ∧
    (ApproveOrRejectNFA storeCreated 5 9 1 "approve" "").1 = Response.OK ∧
    ((chain (ApproveOrRejectNFA storeCreated 5 9 1 "approve" "").2 1).map
        fun r => (r.ApproverID, r.Order, r.Status)) =
      [(10, 1, some "Pending"), (11, 2, none)] ∧
    GetNFAApprovalList (ApproveOrRejectNFA storeCreated 5 9 1 "approve" "").2 1 =
      (Response.OK,
        [{ NFAID := 1, ApproverID := 10, Order := 1, Status := "Pending", Comments := "" }]) := by
  decide

/-- The listing of the members whose status is set: `GetNFAApprovalList` answers OK with
one element for each row of a list `l`, in the order of `l`, that carries the request,
approver, position, status and comment (`''` for NULL) of its row, where `l` holds
exactly, each as often as it is stored, the rows of the request whose status is set and
is not `Complete`, in ascending order of position.  So the members of the request that
are Waiting, Pending, Approved or Rejected are all listed, and no member of another
request and no Complete member is. -/
theorem chain_listing (db : DB) (nfaID : Int) :
    ∃ l : List NFAApprovalList,
      GetNFAApprovalList db nfaID = (Response.OK, l.map toApprovalWithName) ∧
      List.Forall₂ (fun r e =>
        e.NFAID = r.NFAID ∧ e.ApproverID = r.ApproverID ∧ e.Order = r.Order ∧
        r.Status = some e.Status ∧ e.Comments = r.Comments.getD "")
        l (GetNFAApprovalList db nfaID).2 ∧
      l.Perm (db.nfa_approval_list.filter fun r =>
        decide (r.NFAID = nfaID ∧ r.Status ≠ none ∧ r.Status ≠ some "Complete")) ∧
      l.Sorted (fun a b => a.Order ≤ b.Order) ∧
      (GetNFAApprovalList db nfaID).2.Sorted (fun a b => a.Order ≤ b.Order) ∧
      (∀ r ∈ db.nfa_approval_list, r.NFAID = nfaID →
        (r.Status = some "Waiting" ∨ r.Status = some "Pending" ∨
          r.Status = some "Approved" ∨ r.Status = some "Rejected") → r ∈ l) ∧
      (∀ r ∈ l, r ∈ db.nfa_approval_list ∧ r.NFAID = nfaID ∧ r.Status ≠ some "Complete") := by
  haveI : IsTotal NFAApprovalList (fun a b => a.Order ≤ b.Order) :=
    ⟨fun a b => le_total a.Order b.Order⟩
  haveI : IsTrans NFAApprovalList (fun a b => a.Order ≤ b.Order) :=
    ⟨fun _ _ _ h1 h2 => le_trans h1 h2⟩
  have hfilter : db.nfa_approval_list.filter (isListedRow nfaID) =
      db.nfa_approval_list.filter fun r =>
        decide (r.NFAID = nfaID ∧ r.Status ≠ none ∧ r.Status ≠ some "Complete") := by
    apply List.filter_congr
    intro r _
    rw [Bool.eq_iff_iff, isListedRow_iff]
    simp
  have hperm := List.perm_insertionSort (fun a b : NFAApprovalList => a.Order ≤ b.Order)
    (db.nfa_approval_list.filter (isListedRow nfaID))
  have hsorted := List.sorted_insertionSort (fun a b : NFAApprovalList => a.Order ≤ b.Order)
    (db.nfa_approval_list.filter (isListedRow nfaID))
  refine ⟨_, rfl, ?_, hfilter ▸ hperm, hsorted, ?_, ?_, ?_⟩
  · unfold GetNFAApprovalList
    apply forall₂_map_of
    intro r hr
    rw [hperm.mem_iff, List.mem_filter, isListedRow_iff] at hr
    refine ⟨rfl, rfl, rfl, ?_, rfl⟩
    cases hs : r.Status with
    | none => exact absurd hs hr.2.2.1
    | some st => simp [toApprovalWithName, hs]
  · unfold GetNFAApprovalList
    simp only [List.Sorted, List.pairwise_map]
    exact hsorted
  · intro r hr hn hs
    rw [hperm.mem_iff, List.mem_filter, isListedRow_iff]
    refine ⟨hr, hn, ?_, ?_⟩
    · rcases hs with h | h | h | h <;> rw [h] <;> simp
    · rcases hs with h | h | h | h <;> rw [h] <;> decide
  · intro r hr
    rw [hperm.mem_iff, List.mem_filter, isListedRow_iff] at hr
    exact ⟨hr.1, hr.2.1, hr.2.2.2⟩

/-! ## Independence of requests -/

theorem filter_map_eq_of_fix {α : Type} (key : α → Int) (f : α → α) (t t' : Int)
    (hne : t ≠ t') (hkey : ∀ x, key (f x) = key x) (hfix : ∀ x, key x ≠ t → f x = x)
    (l : List α) :
    (l.map f).filter (fun x => decide (key x = t')) =
      l.filter fun x => decide (key x = t') := by
  induction l with
  | nil => rfl
  | cons a tl ih =>
    simp only [List.map_cons, List.filter_cons, hkey a, ih]
    by_cases h : key a = t'
    · have hat : key a ≠ t := fun h' => hne (h'.symm.trans h)
      simp [h, hfix a hat]
    · simp [h]

theorem chain_rows_map_other (db : DB) (f : NFAApprovalList → NFAApprovalList) (t t' : Int)
    (hne : t ≠ t') (hkey : ∀ x, (f x).NFAID = x.NFAID)
    (hfix : ∀ x : NFAApprovalList, x.NFAID ≠ t → f x = x) :
    chain { db with nfa_approval_list := db.nfa_approval_list.map f } t' = chain db t' :=
  filter_map_eq_of_fix (fun x : NFAApprovalList => x.NFAID) f t t' hne hkey hfix _

theorem chain_closeApproval_other (db : DB) (now : Nat) (status comment : String)
    (t userID currentOrder t' : Int) (hne : t ≠ t') :
    chain (closeApproval db now status comment t userID currentOrder) t' = chain db t' := by
  apply chain_rows_map_other db _ t t' hne
  · intro x
    split <;> rfl
  · intro x hx
    rw [if_neg (fun h => hx h.1)]

theorem chain_startApproval_other (db : DB) (now : Nat) (t order t' : Int) (hne : t ≠ t') :
    chain (startApproval db now t order) t' = chain db t' := by
  apply chain_rows_map_other db _ t t' hne
  · intro x
    split <;> rfl
  · intro x hx
    rw [if_neg (fun h => hx h.1)]

theorem chain_setApproverStatus_other (db : DB) (t approverID : Int) (status : String)
    (t' : Int) (hne : t ≠ t') :
    chain (setApproverStatus db t approverID status) t' = chain db t' := by
  apply chain_rows_map_other db _ t t' hne
  · intro x
    split <;> rfl
  · intro x hx
    rw [if_neg (fun h => hx h.1)]

theorem chain_shiftDown_other (db : DB) (t d t' : Int) (hne : t ≠ t') :
    chain (shiftDown db t d) t' = chain db t' := by
  apply chain_rows_map_other db _ t t' hne
  · intro x
    split <;> rfl
  · intro x hx
    rw [if_neg (fun h => hx h.1)]

theorem chain_promoteNext_other (db : DB) (t t' : Int) (hne : t ≠ t') :
    chain (promoteNext db t) t' = chain db t' := by
  apply chain_rows_map_other db _ t t' hne
  · intro x
    split <;> rfl
  · intro x hx
    rw [if_neg (fun h => hx h.1)]

theorem chain_deleteApprover_other (db : DB) (t approverID t' : Int) (hne : t ≠ t') :
    chain (deleteApprover db t approverID) t' = chain db t' := by
  simp only [chain, deleteApprover, List.filter_filter]
  apply List.filter_congr
  intro x _
  by_cases h : x.NFAID = t'
  · have hat : ¬ t' = t := fun h' => hne h'.symm
    simp [h, hat]
  · simp [h]

theorem chain_AddApprover_other (db : DB) (t approverID p : Int) (comments : String)
    (t' : Int) (hne : t ≠ t') :
    chain (AddApprover db t approverID p comments).2 t' = chain db t' := by
  unfold AddApprover
  split
  · rfl
  · simp only [chain, List.filter_append]
    have h1 := filter_map_eq_of_fix (fun x : NFAApprovalList => x.NFAID)
      (fun r => if r.NFAID = t ∧ r.Order ≥ p then { r with Order := r.Order + 1 } else r)
      t t' hne (fun x => by dsimp only; split <;> rfl)
      (fun x hx => by dsimp only at hx ⊢; rw [if_neg (fun h => hx h.1)])
      db.nfa_approval_list
    rw [h1]
    simp [hne]

theorem chain_RemoveApprover_other (db : DB) (approverID t t' : Int) (hne : t ≠ t') :
    chain (RemoveApprover db approverID t).2 t' = chain db t' := by
  unfold RemoveApprover
  split
  · rfl
  · simp only
    split
    · rw [chain_promoteNext_other _ _ _ hne, chain_shiftDown_other _ _ _ _ hne,
        chain_deleteApprover_other _ _ _ _ hne]
    · rw [chain_shiftDown_other _ _ _ _ hne, chain_deleteApprover_other _ _ _ _ hne]

theorem chain_ApproveNFA_other (db : DB) (t approverID t' : Int) (hne : t ≠ t') :
    chain (ApproveNFA db t approverID).2.2 t' = chain db t' := by
  unfold ApproveNFA
  split
  · rfl
  · simp only
    split
    · exact chain_setApproverStatus_other _ _ _ _ _ hne
    · rw [chain_setApproverStatus_other _ _ _ _ _ hne,
        chain_setApproverStatus_other _ _ _ _ _ hne]

theorem chain_ApproveOrRejectNFA_other (db : DB) (now : Nat) (userID t : Int)
    (action comment : String) (t' : Int) (hne : t ≠ t') :
    chain (ApproveOrRejectNFA db now userID t action comment).2 t' = chain db t' := by
  unfold ApproveOrRejectNFA
  split
  · rfl
  split
  · rfl
  split
  · rfl
  split
  · unfold processRecommenderAction
    split
    · simp only
      split
      · rfl
      · exact chain_startApproval_other _ _ _ _ _ hne
    · split <;> rfl
  · split
    · rfl
    · unfold processApproverAction
      split
      · simp only
        split
        · rw [chain_startApproval_other _ _ _ _ _ hne,
            chain_closeApproval_other _ _ _ _ _ _ _ _ hne]
        · exact chain_closeApproval_other _ _ _ _ _ _ _ _ hne
      · split
        · exact chain_closeApproval_other _ _ _ _ _ _ _ _ hne
        · rfl

theorem nfa_updateNFAStatus_other (db : DB) (t : Int) (status : String) (t' : Int)
    (hne : t ≠ t') :
    (updateNFAStatus db t status).nfa.filter (fun n => decide (n.NFAID = t')) =
      db.nfa.filter fun n => decide (n.NFAID = t') := by
  apply filter_map_eq_of_fix (fun n : NFA => n.NFAID) _ t t' hne
  · intro x
    split <;> rfl
  · intro x hx
    rw [if_neg hx]

theorem nfa_ApproveOrRejectNFA_other (db : DB) (now : Nat) (userID t : Int)
    (action comment : String) (t' : Int) (hne : t ≠ t') :
    (ApproveOrRejectNFA db now userID t action comment).2.nfa.filter
        (fun n => decide (n.NFAID = t')) =
      db.nfa.filter fun n => decide (n.NFAID = t') := by
  unfold ApproveOrRejectNFA
  split
  · rfl
  split
  · rfl
  split
  · rfl
  split
  · unfold processRecommenderAction
    split
    · simp only
      split
      · exact nfa_updateNFAStatus_other _ _ _ _ hne
      · exact nfa_updateNFAStatus_other _ _ _ _ hne
    · split
      · apply filter_map_eq_of_fix (fun n : NFA => n.NFAID) _ t t' hne
        · intro x
          split <;> rfl
        · intro x hx
          rw [if_neg hx]
      · rfl
  · split
    · rfl
    · unfold processApproverAction
      split
      · simp only
        split
        · rfl
        · exact nfa_updateNFAStatus_other _ _ _ _ hne
      · split
        · exact nfa_updateNFAStatus_other _ _ _ _ hne
        · rfl

theorem nfa_AddApprover (db : DB) (t approverID p : Int) (comments : String) :
    (AddApprover db t approverID p comments).2.nfa = db.nfa := by
  unfold AddApprover
  split <;> rfl

theorem nfa_RemoveApprover (db : DB) (approverID t : Int) :
    (RemoveApprover db approverID t).2.nfa = db.nfa := by
  unfold RemoveApprover
  split
  · rfl
  · simp only
    split <;> rfl

theorem nfa_ApproveNFA (db : DB) (t approverID : Int) :
    (ApproveNFA db t approverID).2.2.nfa = db.nfa := by
  unfold ApproveNFA
  split
  · rfl
  · simp only
    split <;> rfl

/-- C20: for distinct request ids `target` and `other`, every call of `AddApprover`,
`RemoveApprover`, `ApproveNFA` or `ApproveOrRejectNFA` on `target` leaves the chain of
`other` (its rows, hence their positions, statuses, comments and timestamps, in the
same order) and the stored request `other` (hence its status) unchanged; the first
three leave table `nfa` untouched. -/
theorem requests_independent (db : DB) (target other : Int) (hne : target ≠ other) :
    (∀ (approverID p : Int) (comments : String),
      chain (AddApprover db target approverID p comments).2 other = chain db other ∧
      (AddApprover db target approverID p comments).2.nfa = db.nfa) ∧
    (∀ approverID : Int,
      chain (RemoveApprover db approverID target).2 other = chain db other ∧
      (RemoveApprover db approverID target).2.nfa = db.nfa) ∧
    (∀ approverID : Int,
      chain (ApproveNFA db target approverID).2.2 other = chain db other ∧
      (ApproveNFA db target approverID).2.2.nfa = db.nfa) ∧
    (∀ (now : Nat) (userID : Int) (action comment : String),
      chain (ApproveOrRejectNFA db now userID target action comment).2 other =
        chain db other ∧
      (ApproveOrRejectNFA db now userID target action comment).2.nfa.filter
          (fun n => decide (n.NFAID = other)) =
        db.nfa.filter fun n => decide (n.NFAID = other)) :=
  ⟨fun approverID p comments =>
      ⟨chain_AddApprover_other db target approverID p comments other hne,
        nfa_AddApprover db target approverID p comments⟩,
    fun approverID =>
      ⟨chain_RemoveApprover_other db approverID target other hne,
        nfa_RemoveApprover db approverID target⟩,
    fun approverID =>
      ⟨chain_ApproveNFA_other db target approverID other hne, nfa_ApproveNFA db target approverID⟩,
    fun now userID action comment =>
      ⟨chain_ApproveOrRejectNFA_other db now userID target action comment other hne,
        nfa_ApproveOrRejectNFA_other db now userID target action comment other hne⟩⟩

/-- C20, witness: calls on request 1 of `storeWaiting` leave request 2 and its chain
as they were. -/
theorem requests_independent_witness :
    (chain (AddApprover storeWaiting 1 12 1 "").2 2 = chain storeWaiting 2 ∧
      (AddApprover storeWaiting 1 12 1 "").2.nfa = storeWaiting.nfa) ∧
    (chain (RemoveApprover storeWaiting 10 1).2 2 = chain storeWaiting 2 ∧
      (RemoveApprover storeWaiting 10 1).2.nfa = storeWaiting.nfa) ∧
    (chain (ApproveNFA storeWaiting 1 10).2.2 2 = chain storeWaiting 2 ∧
      (ApproveNFA storeWaiting 1 10).2.2.nfa = storeWaiting.nfa) ∧
    (chain (ApproveOrRejectNFA storeWaiting 7 9 1 "approve" "").2 2 = chain storeWaiting 2 ∧
      (ApproveOrRejectNFA storeWaiting 7 9 1 "approve" "").2.nfa.filter
          (fun n => decide (n.NFAID = 2)) =
        storeWaiting.nfa.filter fun n => decide (n.NFAID = 2)) :=
  ⟨(requests_independent storeWaiting 1 2 (by decide)).1 12 1 "",
    (requests_independent storeWaiting 1 2 (by decide)).2.1 10,
    (requests_independent storeWaiting 1 2 (by decide)).2.2.1 10,
    (requests_independent storeWaiting 1 2 (by decide)).2.2.2 7 9 "approve" ""⟩

/-! ## The handler ApproveNFA -/

/-- C22, the code at the failing input: in the scenario `[A@1 = Pending, B@2 = Waiting]`
the chain has unique positions and one Pending member, owned by user 10 at position
1, and a member exists at position 2.  `ApproveNFA` for user 10 answers OK with the
message `Final approval completed. No more approvers remaining.`, marks A Complete and
leaves B Waiting. -/
theorem approveNFA_does_not_activate_next :
    UniquePositions storeAB 1 ∧ AtMostOnePending storeAB 1 ∧
    (∃ m ∈ chain storeAB 1, m.ApproverID = 10 ∧ m.Order = 1 ∧ m.Status = some "Pending") ∧
    (∃ s ∈ chain storeAB 1, s.Order > 1) ∧
    ApproveNFA storeAB 1 10 =
      (Response.OK, "Final approval completed. No more approvers remaining.",
        { nfa := [request1 "Initiated"]
          nfa_approval_list := [row 1 10 1 "Complete" (some 5) none,
            row 1 11 2 "Waiting" none none] }) ∧
    (∀ r ∈ chain (ApproveNFA storeAB 1 10).2.2 1, r.Order > 1 → r.Status ≠ some "Pending") := by
  decide

theorem ApproveNFA_find_eq_none_iff (db : DB) (nfaID approverID : Int) :
    (db.nfa_approval_list.find? fun r =>
        decide (r.NFAID = nfaID ∧ r.ApproverID = approverID ∧ r.Status = some "Pending")) = none ↔
      ¬ ∃ r ∈ chain db nfaID, r.ApproverID = approverID ∧ r.Status = some "Pending" := by
  rw [List.find?_eq_none]
  simp only [mem_chain_iff, decide_eq_true_eq, not_exists, not_and]
  constructor
  · intro h r hr ha hs
    exact h r hr.1 hr.2 ha hs
  · intro h r hr hn ha hs
    exact h r ⟨hr, hn⟩ ha hs

theorem ApproveNFA_of_none {db : DB} {nfaID approverID : Int}
    (h : (db.nfa_approval_list.find? fun r =>
        decide (r.NFAID = nfaID ∧ r.ApproverID = approverID ∧ r.Status = some "Pending")) = none) :
    ApproveNFA db nfaID approverID =
      (Response.BadRequest, "Approver is not next in line or already approved", db) := by
  unfold ApproveNFA
  rw [h]
  rfl

theorem ApproveNFA_of_some {db : DB} {nfaID approverID : Int} {r0 : NFAApprovalList}
    (h : (db.nfa_approval_list.find? fun r =>
        decide (r.NFAID = nfaID ∧ r.ApproverID = approverID ∧ r.Status = some "Pending")) =
      some r0) :
    (ApproveNFA db nfaID approverID).1 = Response.OK := by
  unfold ApproveNFA
  rw [h]
  simp only [Option.map_some']
  split <;> rfl

/-- C23: `ApproveNFA` fails, with status BadRequest and the error `Approver is not next
in line or already approved`, if and only if the chain of the request has no Pending
member owned by the approver; otherwise it answers OK; and when it does not answer OK
the store, with every chain member and the request status, is unchanged. -/
theorem approveNFA_precondition (db : DB) (nfaID approverID : Int) :
    (((ApproveNFA db nfaID approverID).1 = Response.BadRequest ∧
        (ApproveNFA db nfaID approverID).2.1 =
          "Approver is not next in line or already approved") ↔
      ¬ ∃ r ∈ chain db nfaID, r.ApproverID = approverID ∧ r.Status = some "Pending") ∧
    ((ApproveNFA db nfaID approverID).1 = Response.OK ↔
      ∃ r ∈ chain db nfaID, r.ApproverID = approverID ∧ r.Status = some "Pending") ∧
    ((ApproveNFA db nfaID approverID).1 ≠ Response.OK →
      (ApproveNFA db nfaID approverID).2.2 = db) := by
  cases hf : db.nfa_approval_list.find? fun r =>
      decide (r.NFAID = nfaID ∧ r.ApproverID = approverID ∧ r.Status = some "Pending") with
  | none =>
    have hno := (ApproveNFA_find_eq_none_iff db nfaID approverID).mp hf
    rw [ApproveNFA_of_none hf]
    refine ⟨⟨fun _ => hno, fun _ => ⟨rfl, rfl⟩⟩, ⟨fun h => ?_, fun h => absurd h hno⟩, fun _ => rfl⟩
    simp at h
  | some r0 =>
    have hyes : ∃ r ∈ chain db nfaID, r.ApproverID = approverID ∧ r.Status = some "Pending" := by
      by_contra hno
      rw [(ApproveNFA_find_eq_none_iff db nfaID approverID).mpr hno] at hf
      exact absurd hf (by simp)
    have hok := ApproveNFA_of_some hf
    refine ⟨⟨fun h => ?_, fun h => absurd hyes h⟩, ⟨fun _ => hyes, fun _ => hok⟩,
      fun h => absurd hok h⟩
    rw [hok] at h
    exact absurd h.1 (by decide)

/-! ## Timestamps -/

/-- C26, the code at the failing input: from the chain `[A@1 = Waiting, B@2 = Waiting]`
of request 1, whose members have no timestamps, `RemoveApprover` of A answers OK and
leaves B Pending with no started timestamp; `ApproveNFA` for B then answers OK and
leaves B Complete with no completion timestamp; and `AddApprover` of user 12 at
position 1 of the first chain answers OK and inserts a Pending member with no started
timestamp. -/
theorem timestamps_do_not_track_status :
    (∀ r ∈ chain storeWaiting 1,
      r.Status = some "Waiting" ∧ r.StartedDate = none ∧ r.CompletedDate = none) ∧
    (RemoveApprover storeWaiting 10 1).1 = Response.OK ∧
    chain (RemoveApprover storeWaiting 10 1).2 1 = [row 1 11 1 "Pending" none none] ∧
    (ApproveNFA (RemoveApprover storeWaiting 10 1).2 1 11).1 = Response.OK ∧
    chain (ApproveNFA (RemoveApprover storeWaiting 10 1).2 1 11).2.2 1 =
      [row 1 11 1 "Complete" none none] ∧
    (AddApprover storeWaiting 1 12 1 "").1 = Response.OK ∧
    (∃ r ∈ chain (AddApprover storeWaiting 1 12 1 "").2 1,
      r.ApproverID = 12 ∧ r.Status = some "Pending" ∧ r.StartedDate = none) := by
  decide

/-! ## Precedence of the recommender role -/

theorem ApproveOrRejectNFA_recommender {db : DB} {now : Nat} {userID nfaID : Int}
    {action comment : String} (hpos : 0 < nfaID)
    (hact : action = "approve" ∨ action = "reject")
    (hrec : RecommenderOfPending db nfaID userID) :
    ApproveOrRejectNFA db now userID nfaID action comment =
      (Response.OK, processRecommenderAction db now nfaID action comment) := by
  have h1 : ¬ nfaID ≤ 0 := by omega
  have h2 : ¬ (action ≠ "approve" ∧ action ≠ "reject") := by tauto
  have hex : RequestExists db nfaID := by
    obtain ⟨n, hn, hid, -⟩ := hrec
    exact ⟨n, hn, hid⟩
  have h3 : nfaExists db nfaID = true := (nfaExists_iff _ _).mpr hex
  have h4 : isRecommender db nfaID userID = true := (isRecommender_iff _ _ _).mpr hrec
  unfold ApproveOrRejectNFA
  rw [if_neg h1, if_neg h2]
  simp [h3, h4]

/-- C29: let the request be stored (with a positive id) with status `Pending`, and let
its recommender also own a chain member `m` that is Pending.  A call of
`ApproveOrRejectNFA` by that actor answers OK and is the recommender transition.  On
`reject` the request becomes `Rejected` and table `nfa_approval_list` is unchanged.  On
`approve` the request becomes `Initiated` or `Completed`, and every chain row keeps its
status or becomes Pending.  In both cases `m` is Pending afterwards, with its comment
and its completion timestamp untouched: it is not marked Approved or Rejected. -/
theorem recommender_role_takes_precedence (db : DB) (now : Nat) (userID nfaID : Int)
    (comment : String) (m : NFAApprovalList)
    (hpos : 0 < nfaID) (hst : RequestHasStatus db nfaID "Pending")
    (hrec : ∃ n ∈ db.nfa, n.NFAID = nfaID ∧ n.Recommender = userID)
    (_hm : m ∈ db.nfa_approval_list) (_hmn : m.NFAID = nfaID)
    (_hma : m.ApproverID = userID) (hmp : m.Status = some "Pending") :
    (ApproveOrRejectNFA db now userID nfaID "reject" comment =
        (Response.OK, processRecommenderAction db now nfaID "reject" comment) ∧
      RequestHasStatus (ApproveOrRejectNFA db now userID nfaID "reject" comment).2 nfaID
        "Rejected" ∧
      (ApproveOrRejectNFA db now userID nfaID "reject" comment).2.nfa_approval_list =
        db.nfa_approval_list) ∧
    (ApproveOrRejectNFA db now userID nfaID "approve" comment =
        (Response.OK, processRecommenderAction db now nfaID "approve" comment) ∧
      (RequestHasStatus (ApproveOrRejectNFA db now userID nfaID "approve" comment).2 nfaID
          "Initiated" ∨
        RequestHasStatus (ApproveOrRejectNFA db now userID nfaID "approve" comment).2 nfaID
          "Completed") ∧
      List.Forall₂ (fun r r' =>
        (r'.Status = r.Status ∨ r'.Status = some "Pending") ∧
        r'.Comments = r.Comments ∧ r'.CompletedDate = r.CompletedDate ∧
        (r = m → r'.Status = some "Pending"))
        db.nfa_approval_list
        (ApproveOrRejectNFA db now userID nfaID "approve" comment).2.nfa_approval_list) := by
  have hrp : RecommenderOfPending db nfaID userID := by
    obtain ⟨n, hn, hid, hr⟩ := hrec
    exact ⟨n, hn, hid, hr, hst.2 n hn hid⟩
  constructor
  · rw [ApproveOrRejectNFA_recommender hpos (Or.inr rfl) hrp]
    refine ⟨rfl, ?_, ?_⟩
    · have hres : processRecommenderAction db now nfaID "reject" comment =
          { db with nfa := db.nfa.map fun n =>
              if n.NFAID = nfaID then
                { n with Status := "Rejected", Comments := NULLIF comment "" }
              else n } := by
        simp [processRecommenderAction]
      rw [hres]
      obtain ⟨n, hn, hid⟩ := hst.1
      constructor
      · refine ⟨{ n with Status := "Rejected", Comments := NULLIF comment "" }, ?_, hid⟩
        simp only [List.mem_map]
        exact ⟨n, hn, by simp [hid]⟩
      · intro n' hn' hid'
        simp only [List.mem_map] at hn'
        obtain ⟨k, -, hk⟩ := hn'
        by_cases hk' : k.NFAID = nfaID
        · rw [if_pos hk'] at hk
          rw [← hk]
        · rw [if_neg hk'] at hk
          rw [← hk] at hid'
          exact absurd hid' hk'
    · simp [processRecommenderAction]
  · rw [ApproveOrRejectNFA_recommender hpos (Or.inl rfl) hrp]
    refine ⟨rfl, ?_, ?_⟩
    · cases h : approverExistsAt db nfaID 1
      · right
        have hres : processRecommenderAction db now nfaID "approve" comment =
            updateNFAStatus db nfaID "Completed" := by
          simp [processRecommenderAction, h]
        rw [hres]
        exact updateNFAStatus_hasStatus "Completed" hst.1
      · left
        have hres : processRecommenderAction db now nfaID "approve" comment =
            startApproval (updateNFAStatus db nfaID "Initiated") now nfaID 1 := by
          simp [processRecommenderAction, h]
        rw [hres]
        exact updateNFAStatus_hasStatus "Initiated" hst.1
    · cases h : approverExistsAt db nfaID 1
      · have hres : processRecommenderAction db now nfaID "approve" comment =
            updateNFAStatus db nfaID "Completed" := by
          simp [processRecommenderAction, h]
        rw [hres]
        have hid : (updateNFAStatus db nfaID "Completed").nfa_approval_list =
            db.nfa_approval_list.map id := by
          simp [updateNFAStatus]
        rw [hid]
        apply forall₂_map_of
        intro r _
        exact ⟨Or.inl rfl, rfl, rfl, fun hrm => hrm ▸ hmp⟩
      · have hres : processRecommenderAction db now nfaID "approve" comment =
            startApproval (updateNFAStatus db nfaID "Initiated") now nfaID 1 := by
          simp [processRecommenderAction, h]
        rw [hres]
        simp only [startApproval, updateNFAStatus]
        apply forall₂_map_of
        intro r _
        by_cases hc : r.NFAID = nfaID ∧ r.Order = 1
        · rw [if_pos hc]
          exact ⟨Or.inr rfl, rfl, rfl, fun _ => rfl⟩
        · rw [if_neg hc]
          exact ⟨Or.inl rfl, rfl, rfl, fun hrm => hrm ▸ hmp⟩

/-- C29, witness: in `storeRecommenderActive` user 9 is the recommender of the Pending
request 1 and owns its Pending, started member; the outcome of `reject` and of
`approve` is also evaluated. -/
theorem recommender_role_takes_precedence_witness :
    ((ApproveOrRejectNFA storeRecommenderActive 7 9 1 "reject" "no" =
        (Response.OK, processRecommenderAction storeRecommenderActive 7 1 "reject" "no") ∧
      RequestHasStatus (ApproveOrRejectNFA storeRecommenderActive 7 9 1 "reject" "no").2 1
        "Rejected" ∧
      (ApproveOrRejectNFA storeRecommenderActive 7 9 1 "reject" "no").2.nfa_approval_list =
        storeRecommenderActive.nfa_approval_list) ∧
    (ApproveOrRejectNFA storeRecommenderActive 7 9 1 "approve" "no" =
        (Response.OK, processRecommenderAction storeRecommenderActive 7 1 "approve" "no") ∧
      (RequestHasStatus (ApproveOrRejectNFA storeRecommenderActive 7 9 1 "approve" "no").2 1
          "Initiated" ∨
        RequestHasStatus (ApproveOrRejectNFA storeRecommenderActive 7 9 1 "approve" "no").2 1
          "Completed") ∧
      List.Forall₂ (fun r r' =>
        (r'.Status = r.Status ∨ r'.Status = some "Pending") ∧
        r'.Comments = r.Comments ∧ r'.CompletedDate = r.CompletedDate ∧
        (r = row 1 9 1 "Pending" (some 5) none → r'.Status = some "Pending"))
        storeRecommenderActive.nfa_approval_list
        (ApproveOrRejectNFA storeRecommenderActive 7 9 1 "approve" "no").2.nfa_approval_list)) ∧
    (ApproveOrRejectNFA storeRecommenderActive 7 9 1 "approve" "no").2 =
      { nfa := [request1 "Initiated"]
        nfa_approval_list := [row 1 9 1 "Pending" (some 7) none,
          row 1 11 2 "Waiting" none none] } :=
  ⟨recommender_role_takes_precedence storeRecommenderActive 7 9 1 "no"
    (row 1 9 1 "Pending" (some 5) none) (by decide) (by decide) (by decide) (by decide) rfl rfl
    rfl, by decide⟩

/-! ## Insertion followed by removal -/

theorem AddApprover_accepted {db : DB} {nfaID X p : Int} {comments : String}
    (hacc : (AddApprover db nfaID X p comments).1 = Response.OK) :
    ¬ (nfaID = 0 ∨ X = 0 ∨ p = 0) := by
  intro h
  unfold AddApprover at hacc
  rw [if_pos h] at hacc
  simp at hacc

theorem AddApprover_store {db : DB} {nfaID X p : Int} {comments : String}
    (hacc : ¬ (nfaID = 0 ∨ X = 0 ∨ p = 0)) :
    (AddApprover db nfaID X p comments).2 =
      { db with nfa_approval_list :=
          (db.nfa_approval_list.map fun r =>
            if r.NFAID = nfaID ∧ r.Order ≥ p then { r with Order := r.Order + 1 } else r) ++
          [{ NFAID := nfaID, ApproverID := X, Order := p,
             Status := some (if pendingOrderOf db nfaID = 0 ∧ p = 1 then "Pending"
               else "Waiting"),
             Comments := some comments, StartedDate := none, CompletedDate := none }] } := by
  unfold AddApprover
  rw [if_neg hacc]

theorem removed_after_AddApprover {db : DB} {nfaID X p : Int} {comments : String}
    (hacc : ¬ (nfaID = 0 ∨ X = 0 ∨ p = 0))
    (hown : ∀ r ∈ chain db nfaID, r.ApproverID ≠ X) :
    deletedOrderOf (AddApprover db nfaID X p comments).2 nfaID X = some p ∧
    shiftDown (deleteApprover (AddApprover db nfaID X p comments).2 nfaID X) nfaID p = db := by
  have hown' : ∀ r ∈ db.nfa_approval_list, ¬ (r.NFAID = nfaID ∧ r.ApproverID = X) :=
    fun r hr hc => hown r ((mem_chain_iff db nfaID r).mpr ⟨hr, hc.1⟩) hc.2
  rw [AddApprover_store hacc]
  constructor
  · unfold deletedOrderOf
    simp only [List.find?_append]
    have hnone : (List.find? (fun r => decide (r.NFAID = nfaID ∧ r.ApproverID = X))
        (db.nfa_approval_list.map fun r =>
          if r.NFAID = nfaID ∧ r.Order ≥ p then { r with Order := r.Order + 1 } else r)) =
        none := by
      rw [List.find?_eq_none]
      intro r hr
      simp only [List.mem_map] at hr
      obtain ⟨s, hs, hsr⟩ := hr
      have hk := hown' s hs
      split_ifs at hsr <;> subst hsr <;> simpa using hk
    rw [hnone]
    simp
  · unfold shiftDown deleteApprover
    simp only [List.filter_append]
    have hkeep : (List.filter (fun r => !decide (r.NFAID = nfaID ∧ r.ApproverID = X))
        (db.nfa_approval_list.map fun r =>
          if r.NFAID = nfaID ∧ r.Order ≥ p then { r with Order := r.Order + 1 } else r)) =
        db.nfa_approval_list.map fun r =>
          if r.NFAID = nfaID ∧ r.Order ≥ p then { r with Order := r.Order + 1 } else r := by
      rw [List.filter_eq_self]
      intro r hr
      simp only [List.mem_map] at hr
      obtain ⟨s, hs, hsr⟩ := hr
      have hk := hown' s hs
      simp only [Bool.not_eq_true', decide_eq_false_iff_not]
      split_ifs at hsr <;> subst hsr <;> exact hk
    rw [hkeep]
    have hdrop : (List.filter (fun r => !decide (r.NFAID = nfaID ∧ r.ApproverID = X))
        [({ NFAID := nfaID, ApproverID := X, Order := p,
            Status := some (if pendingOrderOf db nfaID = 0 ∧ p = 1 then "Pending"
              else "Waiting"),
            Comments := some comments, StartedDate := none, CompletedDate := none } :
          NFAApprovalList)]) = [] := by
      simp
    rw [hdrop, List.append_nil, List.map_map]
    have hid : (db.nfa_approval_list.map
        ((fun r : NFAApprovalList =>
            if r.NFAID = nfaID ∧ r.Order > p then { r with Order := r.Order - 1 } else r) ∘
          fun r => if r.NFAID = nfaID ∧ r.Order ≥ p then { r with Order := r.Order + 1 }
            else r)) = db.nfa_approval_list := by
      rw [List.map_congr_left, List.map_id]
      intro r _
      cases r with
      | mk n a o s c sd cd =>
        simp only [Function.comp, id]
        by_cases h1 : n = nfaID ∧ o ≥ p
        · have h2 : n = nfaID ∧ o + 1 > p := ⟨h1.1, by omega⟩
          simp [h1, h2]
        · have h2 : ¬ (n = nfaID ∧ o > p) := fun h => h1 ⟨h.1, by omega⟩
          simp [h1, h2]
    rw [hid]

/-- C28: let approver X own no member of the chain of the request, and let
`AddApprover` accept the insertion of X at position p (it answers OK).  Then
`RemoveApprover` of X from the resulting store answers OK, and its result holds the
rows of the original store in the original order, each equal to the original row in
every column except possibly the status: every original member is back at its original
position.  If moreover the original chain contains a Pending member, the resulting store
is the original store, so the chain is the original chain exactly. -/
theorem insert_then_remove_round_trip (db : DB) (nfaID X p : Int) (comments : String)
    (hown : ∀ r ∈ chain db nfaID, r.ApproverID ≠ X)
    (hacc : (AddApprover db nfaID X p comments).1 = Response.OK) :
    (RemoveApprover (AddApprover db nfaID X p comments).2 X nfaID).1 = Response.OK ∧
    (RemoveApprover (AddApprover db nfaID X p comments).2 X nfaID).2.nfa = db.nfa ∧
    List.Forall₂ (fun r r' => r' = { r with Status := r'.Status })
      db.nfa_approval_list
      (RemoveApprover (AddApprover db nfaID X p comments).2 X nfaID).2.nfa_approval_list ∧
    (HasPending db nfaID →
      (RemoveApprover (AddApprover db nfaID X p comments).2 X nfaID).2 = db) := by
  have hacc' := AddApprover_accepted hacc
  have hround : deletedOrderOf (AddApprover db nfaID X p comments).2 nfaID X = some p ∧
      shiftDown (deleteApprover (AddApprover db nfaID X p comments).2 nfaID X) nfaID p = db :=
    removed_after_AddApprover hacc' hown
  obtain ⟨hd, hback⟩ := hround
  rw [RemoveApprover_of_deletedOrder hd, hback]
  refine ⟨rfl, ?_, ?_, ?_⟩
  · dsimp only
    split_ifs
    · rfl
    · rfl
  · dsimp only
    split_ifs
    · have hid : db.nfa_approval_list = db.nfa_approval_list.map id := by simp
      nth_rewrite 2 [hid]
      apply forall₂_map_of
      intro r _
      rfl
    · unfold promoteNext
      apply forall₂_map_of
      intro r _
      split_ifs <;> rfl
  · intro hp
    obtain ⟨r, hr, hs⟩ := hp
    have hr' := (mem_chain_iff db nfaID r).mp hr
    have hpe : pendingExists db nfaID = true := by
      simp only [pendingExists, List.any_eq_true, decide_eq_true_eq]
      exact ⟨r, hr'.1, hr'.2, hs⟩
    dsimp only
    rw [if_pos hpe]

/-- C28, witness: approver 12 is inserted at position 1 of the chain of `storeAB`
(positions 1..2, user 10 Pending) and removed again; the store is `storeAB` again. -/
theorem insert_then_remove_round_trip_witness :
    ((RemoveApprover (AddApprover storeAB 1 12 1 "").2 12 1).1 = Response.OK ∧
    (RemoveApprover (AddApprover storeAB 1 12 1 "").2 12 1).2.nfa = storeAB.nfa ∧
    List.Forall₂ (fun r r' => r' = { r with Status := r'.Status })
      storeAB.nfa_approval_list
      (RemoveApprover (AddApprover storeAB 1 12 1 "").2 12 1).2.nfa_approval_list ∧
    (HasPending storeAB 1 →
      (RemoveApprover (AddApprover storeAB 1 12 1 "").2 12 1).2 = storeAB)) ∧
    PositionsOneTo storeAB 1 2 ∧ HasPending storeAB 1 ∧
    (AddApprover storeAB 1 12 1 "").2.nfa_approval_list =
      [row 1 10 2 "Pending" (some 5) none, row 1 11 3 "Waiting" none none,
        { NFAID := 1, ApproverID := 12, Order := 1, Status := some "Waiting",
          Comments := some "", StartedDate := none, CompletedDate := none }] :=
  ⟨insert_then_remove_round_trip storeAB 1 12 1 "" (by decide) (by decide), by decide,
    by decide, by decide⟩

/-! ## The pending-work view -/

theorem mem_pendingJoin_iff (db : DB) (userID : Int) (n : NFA) (e : NFAWithNames) :
    e ∈ pendingJoin db userID n ↔
      ∃ al ∈ db.nfa_approval_list, ∃ t, al.StartedDate = some t ∧ n.NFAID = al.NFAID ∧
        al.ApproverID = userID ∧ al.Status = some "Pending" ∧ al.CompletedDate = none ∧
        e = { NFAID := n.NFAID, Status := n.Status, Recommender := n.Recommender,
              OrderValue := al.Order, StartedAt := t } := by
  unfold pendingJoin
  simp only [List.mem_filterMap]
  constructor
  · rintro ⟨al, hal, h⟩
    cases hs : al.StartedDate with
    | none => simp [hs] at h
    | some t =>
      simp only [hs] at h
      split_ifs at h with hc
      simp only [Option.some.injEq] at h
      exact ⟨al, hal, t, hs, hc.1, hc.2.1, hc.2.2.1, hc.2.2.2, h.symm⟩
  · rintro ⟨al, hal, t, hs, h1, h2, h3, h4, he⟩
    refine ⟨al, hal, ?_⟩
    simp only [hs]
    rw [if_pos ⟨h1, h2, h3, h4⟩, he]

theorem mem_GetPendingApprovals_iff (db : DB) (userID : Int) (e : NFAWithNames) :
    e ∈ (GetPendingApprovals db userID).2 ↔ ∃ n ∈ db.nfa, e ∈ pendingJoin db userID n := by
  unfold GetPendingApprovals
  simp only
  rw [(List.perm_insertionSort _ _).mem_iff]
  simp only [List.mem_flatten, List.mem_map]
  constructor
  · rintro ⟨l, ⟨n, hn, rfl⟩, he⟩
    exact ⟨n, hn, he⟩
  · rintro ⟨n, hn, he⟩
    exact ⟨_, ⟨n, hn, rfl⟩, he⟩

/-- C30, counterexample: in `storeRecommenderActive` user 9 owns a member of request 1
that is Pending with started set and completion unset, and `GetPendingApprovals` lists
request 1 for user 9; but user 9 is also the recommender of the request, whose status
is `Pending`, and `ApproveOrRejectNFA` accepts the call of user 9 in the recommender
role, not in the approver role: on `reject` the request becomes `Rejected` and the
member stays Pending, where the approver transition of the member at position 1
(`processApproverAction`) gives another store. -/
theorem pending_view_gate_counterexample :
    (∃ m ∈ chain storeRecommenderActive 1, m.ApproverID = 9 ∧ Active m) ∧
    (GetPendingApprovals storeRecommenderActive 9).2 =
      [{ NFAID := 1, Status := "Pending", Recommender := 9, OrderValue := 1,
         StartedAt := 5 }] ∧
    ApproveOrRejectNFA storeRecommenderActive 7 9 1 "reject" "" =
      (Response.OK, processRecommenderAction storeRecommenderActive 7 1 "reject" "") ∧
    (ApproveOrRejectNFA storeRecommenderActive 7 9 1 "reject" "").2 =
      { nfa := [request1 "Rejected"]
        nfa_approval_list := storeRecommenderActive.nfa_approval_list } ∧
    (ApproveOrRejectNFA storeRecommenderActive 7 9 1 "reject" "").2 ≠
      processApproverAction storeRecommenderActive 7 1 1 "reject" "" 9 := by
  decide

/-- C30, amended: for every user u and stored request r, r appears in the result of
`GetPendingApprovals` for u if and only if u owns a chain member of r that is Pending
with started set and completion unset.  Unless u is the recommender of r while the
status of r is `Pending`, this is exactly the condition under which
`ApproveOrRejectNFA` (positive request id, action `approve` or `reject`) accepts u, and
it then accepts u in the approver role: the store after the call is the approver
transition of a position of u.  The result of `GetPendingApprovals` is in ascending
order of started timestamp. -/
theorem pending_view_agrees_with_gate (db : DB) (u r : Int) (hex : RequestExists db r) :
    ((GetPendingApprovals db u).1 = Response.OK ∧
      ((∃ e ∈ (GetPendingApprovals db u).2, e.NFAID = r) ↔
        ∃ m ∈ chain db r, m.ApproverID = u ∧ Active m)) ∧
    (∀ (now : Nat) (action comment : String), 0 < r →
      (action = "approve" ∨ action = "reject") → ¬ RecommenderOfPending db r u →
      (((ApproveOrRejectNFA db now u r action comment).1 = Response.OK ↔
          ∃ m ∈ chain db r, m.ApproverID = u ∧ Active m) ∧
        ((ApproveOrRejectNFA db now u r action comment).1 = Response.OK →
          ∃ m ∈ chain db r, m.ApproverID = u ∧ Active m ∧
            (ApproveOrRejectNFA db now u r action comment).2 =
              processApproverAction db now r m.Order action comment u))) ∧
    (GetPendingApprovals db u).2.Sorted (fun a b => a.StartedAt ≤ b.StartedAt) := by
  refine ⟨⟨rfl, ?_⟩, ?_, ?_⟩
  · constructor
    · rintro ⟨e, he, her⟩
      rw [mem_GetPendingApprovals_iff] at he
      obtain ⟨n, -, hen⟩ := he
      rw [mem_pendingJoin_iff] at hen
      obtain ⟨al, hal, t, hs, h1, h2, h3, h4, hee⟩ := hen
      subst hee
      simp only at her
      refine ⟨al, (mem_chain_iff db r al).mpr ⟨hal, ?_⟩, h2, h3, ?_, h4⟩
      · rw [← h1, her]
      · rw [hs]
        simp
    · rintro ⟨m, hm, hmu, hms, hmst, hmc⟩
      obtain ⟨n, hn, hnr⟩ := hex
      rw [mem_chain_iff] at hm
      cases hs : m.StartedDate with
      | none => exact absurd hs hmst
      | some t =>
        refine ⟨{ NFAID := n.NFAID, Status := n.Status, Recommender := n.Recommender,
                  OrderValue := m.Order, StartedAt := t }, ?_, hnr⟩
        rw [mem_GetPendingApprovals_iff]
        refine ⟨n, hn, ?_⟩
        rw [mem_pendingJoin_iff]
        exact ⟨m, hm.1, t, hs, hnr.trans hm.2.symm, hmu, hms, hmc, rfl⟩
  · intro now action comment hpos hact hnrec
    have h1 : ¬ r ≤ 0 := by omega
    have h2 : ¬ (action ≠ "approve" ∧ action ≠ "reject") := by tauto
    have h3 : nfaExists db r = true := (nfaExists_iff _ _).mpr hex
    have h4 : isRecommender db r u = false := by
      rw [Bool.eq_false_iff]
      intro h
      exact hnrec ((isRecommender_iff _ _ _).mp h)
    cases hc : currentOrderOf db r u with
    | none =>
      have hres : ApproveOrRejectNFA db now u r action comment = (Response.Forbidden, db) := by
        unfold ApproveOrRejectNFA
        rw [if_neg h1, if_neg h2]
        simp [h3, h4, hc]
      have hno : ¬ ∃ m ∈ chain db r, m.ApproverID = u ∧ Active m := by
        rintro ⟨m, hm, hmu, hma⟩
        rw [mem_chain_iff] at hm
        have hnone := List.find?_eq_none.mp
          (show db.nfa_approval_list.find? (isCurrentApproverRow r u) = none by
            unfold currentOrderOf at hc
            simpa using hc) m hm.1
        exact hnone ((isCurrentApproverRow_iff r u m).mpr ⟨hm.2, hmu, hma⟩)
      rw [hres]
      constructor
      · constructor
        · intro h
          simp at h
        · intro h
          exact absurd h hno
      · intro h
        simp at h
    | some k =>
      have hres : ApproveOrRejectNFA db now u r action comment =
          (Response.OK, processApproverAction db now r k action comment u) := by
        unfold ApproveOrRejectNFA
        rw [if_neg h1, if_neg h2]
        simp [h3, h4, hc]
      have hyes : ∃ m ∈ chain db r, m.ApproverID = u ∧ Active m ∧ m.Order = k := by
        unfold currentOrderOf at hc
        cases hf : db.nfa_approval_list.find? (isCurrentApproverRow r u) with
        | none => simp [hf] at hc
        | some m =>
          simp only [hf, Option.map_some', Option.some.injEq] at hc
          have hp := List.find?_some hf
          have hmem := List.mem_of_find?_eq_some hf
          rw [isCurrentApproverRow_iff] at hp
          exact ⟨m, (mem_chain_iff db r m).mpr ⟨hmem, hp.1⟩, hp.2.1, hp.2.2, hc⟩
      obtain ⟨m, hm, hmu, hma, hmk⟩ := hyes
      rw [hres]
      exact ⟨⟨fun _ => ⟨m, hm, hmu, hma⟩, fun _ => rfl⟩,
        fun _ => ⟨m, hm, hmu, hma, by rw [hmk]⟩⟩
  · haveI : IsTotal NFAWithNames (fun a b => a.StartedAt ≤ b.StartedAt) :=
      ⟨fun a b => le_total a.StartedAt b.StartedAt⟩
    haveI : IsTrans NFAWithNames (fun a b => a.StartedAt ≤ b.StartedAt) :=
      ⟨fun _ _ _ h1 h2 => le_trans h1 h2⟩
    exact List.sorted_insertionSort _ _

/-- C30, witness: request 1 of `storeAB` is stored; user 10 owns its active member, is
listed the request, and is accepted in the approver role. -/
theorem pending_view_agrees_with_gate_witness :
    (((GetPendingApprovals storeAB 10).1 = Response.OK ∧
      ((∃ e ∈ (GetPendingApprovals storeAB 10).2, e.NFAID = 1) ↔
        ∃ m ∈ chain storeAB 1, m.ApproverID = 10 ∧ Active m)) ∧
    (∀ (now : Nat) (action comment : String), 0 < (1 : Int) →
      (action = "approve" ∨ action = "reject") → ¬ RecommenderOfPending storeAB 1 10 →
      (((ApproveOrRejectNFA storeAB now 10 1 action comment).1 = Response.OK ↔
          ∃ m ∈ chain storeAB 1, m.ApproverID = 10 ∧ Active m) ∧
        ((ApproveOrRejectNFA storeAB now 10 1 action comment).1 = Response.OK →
          ∃ m ∈ chain storeAB 1, m.ApproverID = 10 ∧ Active m ∧
            (ApproveOrRejectNFA storeAB now 10 1 action comment).2 =
              processApproverAction storeAB now 1 m.Order action comment 10))) ∧
    (GetPendingApprovals storeAB 10).2.Sorted (fun a b => a.StartedAt ≤ b.StartedAt)) ∧
    (GetPendingApprovals storeAB 10).2 =
      [{ NFAID := 1, Status := "Initiated", Recommender := 9, OrderValue := 1,
         StartedAt := 5 }] ∧
    (GetPendingApprovals storeAB 11).2 = [] :=
  ⟨pending_view_agrees_with_gate storeAB 10 1 (by decide), by decide, by decide⟩

/-! ## Rejection -/

theorem settled_rows_map {l : List NFAApprovalList} {nfaID : Int}
    (f : NFAApprovalList → NFAApprovalList)
    (hf : ∀ r, (f r).NFAID = r.NFAID ∧ (f r).StartedDate = r.StartedDate ∧
      (f r).CompletedDate = r.CompletedDate)
    (h : ∀ r ∈ l, r.NFAID = nfaID → r.StartedDate ≠ none → r.CompletedDate ≠ none) :
    ∀ r ∈ l.map f, r.NFAID = nfaID → r.StartedDate ≠ none → r.CompletedDate ≠ none := by
  intro r hr
  simp only [List.mem_map] at hr
  obtain ⟨s, hs, rfl⟩ := hr
  rw [(hf s).1, (hf s).2.1, (hf s).2.2]
  exact h s hs

theorem settled_iff (db : DB) (nfaID : Int) :
    Settled db nfaID ↔
      ∀ r ∈ db.nfa_approval_list, r.NFAID = nfaID → r.StartedDate ≠ none →
        r.CompletedDate ≠ none := by
  unfold Settled
  constructor
  · intro h r hr hn
    exact h r ((mem_chain_iff db nfaID r).mpr ⟨hr, hn⟩)
  · intro h r hr
    rw [mem_chain_iff] at hr
    exact h r hr.1 hr.2

theorem settled_AddApprover {db : DB} {nfaID : Int} (t approverID p : Int)
    (comments : String) (h : Settled db nfaID) :
    Settled (AddApprover db t approverID p comments).2 nfaID := by
  by_cases hacc : t = 0 ∨ approverID = 0 ∨ p = 0
  · unfold AddApprover
    rw [if_pos hacc]
    exact h
  · rw [settled_iff] at h ⊢
    rw [AddApprover_store hacc]
    intro r hr
    simp only [List.mem_append, List.mem_singleton] at hr
    rcases hr with hr | hr
    · refine settled_rows_map _ ?_ h r hr
      intro s
      split_ifs <;> exact ⟨rfl, rfl, rfl⟩
    · subst hr
      intro _ hs
      exact absurd rfl hs

theorem settled_setApproverStatus {db : DB} {nfaID : Int} (t approverID : Int)
    (status : String) (h : Settled db nfaID) :
    Settled (setApproverStatus db t approverID status) nfaID := by
  rw [settled_iff] at h ⊢
  unfold setApproverStatus
  refine settled_rows_map _ ?_ h
  intro s
  split_ifs <;> exact ⟨rfl, rfl, rfl⟩

theorem settled_ApproveNFA {db : DB} {nfaID : Int} (t approverID : Int)
    (h : Settled db nfaID) : Settled (ApproveNFA db t approverID).2.2 nfaID := by
  unfold ApproveNFA
  split
  · exact h
  · simp only
    split
    · exact settled_setApproverStatus t approverID "Complete" h
    · exact settled_setApproverStatus t _ "Pending"
        (settled_setApproverStatus t approverID "Complete" h)

theorem settled_RemoveApprover {db : DB} {nfaID : Int} (approverID t : Int)
    (h : Settled db nfaID) : Settled (RemoveApprover db approverID t).2 nfaID := by
  have h1 : Settled (deleteApprover db t approverID) nfaID := by
    rw [settled_iff] at h ⊢
    unfold deleteApprover
    intro r hr
    exact h r (List.mem_of_mem_filter hr)
  have h2 : ∀ d, Settled (shiftDown (deleteApprover db t approverID) t d) nfaID := by
    intro d
    rw [settled_iff] at h1 ⊢
    unfold shiftDown
    refine settled_rows_map _ ?_ h1
    intro s
    split_ifs <;> exact ⟨rfl, rfl, rfl⟩
  have h3 : ∀ d, Settled (promoteNext (shiftDown (deleteApprover db t approverID) t d) t)
      nfaID := by
    intro d
    have h2d := h2 d
    rw [settled_iff] at h2d ⊢
    unfold promoteNext
    refine settled_rows_map _ ?_ h2d
    intro s
    split_ifs <;> exact ⟨rfl, rfl, rfl⟩
  unfold RemoveApprover
  split
  · exact h
  · simp only
    split
    · exact h3 _
    · exact h2 _

theorem ApproveOrRejectNFA_settled_rejected {db : DB} {nfaID : Int} {s : String}
    (hs : s ≠ "Pending") (hst : RequestHasStatus db nfaID s) (hset : Settled db nfaID)
    (now : Nat) (userID : Int) (action comment : String) :
    (ApproveOrRejectNFA db now userID nfaID action comment).2 = db := by
  have hrec : isRecommender db nfaID userID = false := by
    rw [Bool.eq_false_iff]
    intro h
    obtain ⟨n, hn, hid, -, hp⟩ := (isRecommender_iff _ _ _).mp h
    exact hs ((hst.2 n hn hid).symm.trans hp)
  have hcur : currentOrderOf db nfaID userID = none := by
    apply currentOrderOf_eq_none
    intro r hr
    rw [Bool.eq_false_iff]
    intro hc
    obtain ⟨hn, -, -, hsd, hcd⟩ := (isCurrentApproverRow_iff nfaID userID r).mp hc
    exact (settled_iff db nfaID).mp hset r hr hn hsd hcd
  unfold ApproveOrRejectNFA
  split
  · rfl
  split
  · rfl
  split
  · rfl
  simp [hrec, hcur]

theorem requestHasStatus_of_nfa_filter {db db' : DB} {nfaID : Int} {s : String}
    (h : db'.nfa.filter (fun n => decide (n.NFAID = nfaID)) =
      db.nfa.filter fun n => decide (n.NFAID = nfaID))
    (hst : RequestHasStatus db nfaID s) : RequestHasStatus db' nfaID s := by
  have hmem : ∀ n, (n ∈ db'.nfa ∧ n.NFAID = nfaID) ↔ (n ∈ db.nfa ∧ n.NFAID = nfaID) := by
    intro n
    have h1 : n ∈ db'.nfa.filter (fun n => decide (n.NFAID = nfaID)) ↔
        n ∈ db.nfa.filter fun n => decide (n.NFAID = nfaID) := by rw [h]
    simpa [List.mem_filter] using h1
  obtain ⟨⟨n, hn, hid⟩, hall⟩ := hst
  constructor
  · have := (hmem n).mpr ⟨hn, hid⟩
    exact ⟨n, this.1, hid⟩
  · intro n' hn' hid'
    exact hall n' ((hmem n').mp ⟨hn', hid'⟩).1 hid'

theorem rejected_settled_applyCall {db : DB} {nfaID : Int} {s : String}
    (hs : s ≠ "Pending") (hst : RequestHasStatus db nfaID s) (hset : Settled db nfaID)
    (c : Call) :
    RequestHasStatus (applyCall db c) nfaID s ∧ Settled (applyCall db c) nfaID := by
  cases c with
  | addApprover t approverID p comments =>
    refine ⟨?_, settled_AddApprover t approverID p comments hset⟩
    unfold RequestHasStatus RequestExists applyCall
    rw [nfa_AddApprover]
    exact hst
  | removeApprover approverID t =>
    refine ⟨?_, settled_RemoveApprover approverID t hset⟩
    unfold RequestHasStatus RequestExists applyCall
    rw [nfa_RemoveApprover]
    exact hst
  | approveNFA t approverID =>
    refine ⟨?_, settled_ApproveNFA t approverID hset⟩
    unfold RequestHasStatus RequestExists applyCall
    rw [nfa_ApproveNFA]
    exact hst
  | approveOrReject now userID t action comment =>
    simp only [applyCall]
    by_cases ht : t = nfaID
    · subst ht
      rw [ApproveOrRejectNFA_settled_rejected hs hst hset]
      exact ⟨hst, hset⟩
    · constructor
      · exact requestHasStatus_of_nfa_filter
          (nfa_ApproveOrRejectNFA_other db now userID t action comment nfaID ht) hst
      · unfold Settled at hset ⊢
        rw [chain_ApproveOrRejectNFA_other db now userID t action comment nfaID ht]
        exact hset

theorem rejected_settled_applyCalls {nfaID : Int} {s : String} (hs : s ≠ "Pending")
    (calls : List Call) :
    ∀ db : DB, RequestHasStatus db nfaID s → Settled db nfaID →
      RequestHasStatus (applyCalls db calls) nfaID s ∧ Settled (applyCalls db calls) nfaID := by
  induction calls with
  | nil => exact fun db hst hset => ⟨hst, hset⟩
  | cons c cs ih =>
    intro db hst hset
    obtain ⟨h1, h2⟩ := rejected_settled_applyCall hs hst hset c
    exact ih (applyCall db c) h1 h2

/-- C21, counterexample: the request of `storeDuplicate` (two members at position 1)
is approved by its recommender, user 9, which starts both members, and is then rejected
by user 10: its status is `Rejected_By_Approver`.  The later `approve` call of user 11,
whose member is still Pending and started, is answered OK and changes the status to
`Completed`. -/
theorem rejection_terminal_counterexample :
    RequestHasStatus
      (applyCalls storeDuplicate
        [Call.approveOrReject 5 9 1 "approve" "", Call.approveOrReject 6 10 1 "reject" ""])
      1 "Rejected_By_Approver" ∧
    ApproveOrRejectNFA
      (applyCalls storeDuplicate
        [Call.approveOrReject 5 9 1 "approve" "", Call.approveOrReject 6 10 1 "reject" ""])
      7 11 1 "approve" "" =
      (Response.OK,
        { nfa := [request1 "Completed"]
          nfa_approval_list :=
            [{ NFAID := 1, ApproverID := 10, Order := 1, Status := some "Rejected",
               Comments := none, StartedDate := some 5, CompletedDate := some 6 },
             { NFAID := 1, ApproverID := 11, Order := 1, Status := some "Approved",
               Comments := none, StartedDate := some 5, CompletedDate := some 7 }] }) ∧
    RequestHasStatus
      (applyCalls storeDuplicate
        [Call.approveOrReject 5 9 1 "approve" "", Call.approveOrReject 6 10 1 "reject" "",
          Call.approveOrReject 7 11 1 "approve" ""])
      1 "Completed" := by
  decide

/-- C21, amended: once the status of a request is `Rejected` or `Rejected_By_Approver`
and no member of its chain is started and not completed, no sequence of `AddApprover`,
`RemoveApprover`, `ApproveNFA` and `ApproveOrRejectNFA` calls, with any arguments and on
any request, changes the status of the request: after the sequence the request is
stored with the same status (and again no member is started and not completed). -/
theorem rejection_is_terminal (db : DB) (nfaID : Int) (s : String) (calls : List Call)
    (hs : s = "Rejected" ∨ s = "Rejected_By_Approver")
    (hst : RequestHasStatus db nfaID s) (hset : Settled db nfaID) :
    RequestHasStatus (applyCalls db calls) nfaID s ∧ Settled (applyCalls db calls) nfaID := by
  have hne : s ≠ "Pending" := by
    rcases hs with h | h <;> rw [h] <;> decide
  exact rejected_settled_applyCalls hne calls db hst hset

/-- C21, witness: the request of `storeDuplicate`, rejected by its recommender, keeps
the status `Rejected` through an insertion, an approve call of a member, a removal and
an `ApproveNFA` call. -/
theorem rejection_is_terminal_witness :
    RequestHasStatus (applyCall storeDuplicate (Call.approveOrReject 5 9 1 "reject" "")) 1
      "Rejected" ∧
    (RequestHasStatus
        (applyCalls (applyCall storeDuplicate (Call.approveOrReject 5 9 1 "reject" ""))
          [Call.addApprover 1 12 1 "", Call.approveOrReject 6 12 1 "approve" "",
            Call.removeApprover 10 1, Call.approveNFA 1 12])
        1 "Rejected" ∧
      Settled
        (applyCalls (applyCall storeDuplicate (Call.approveOrReject 5 9 1 "reject" ""))
          [Call.addApprover 1 12 1 "", Call.approveOrReject 6 12 1 "approve" "",
            Call.removeApprover 10 1, Call.approveNFA 1 12])
        1) :=
  ⟨by decide,
    rejection_is_terminal (applyCall storeDuplicate (Call.approveOrReject 5 9 1 "reject" ""))
      1 "Rejected"
      [Call.addApprover 1 12 1 "", Call.approveOrReject 6 12 1 "approve" "",
        Call.removeApprover 10 1, Call.approveNFA 1 12]
      (Or.inl rfl) (by decide) (by decide)⟩

/-! ## The order of progress along the chain -/

theorem chain_map_rows (db : DB) (f : NFAApprovalList → NFAApprovalList) (nfaID : Int)
    (hf : ∀ r, (f r).NFAID = r.NFAID) :
    chain { db with nfa_approval_list := db.nfa_approval_list.map f } nfaID =
      (chain db nfaID).map f := by
  simp only [chain]
  exact filter_map_rows f nfaID hf _

theorem chain_AddApprover_same (db : DB) (nfaID approverID p : Int) (comments : String)
    (hv : ¬ (nfaID = 0 ∨ approverID = 0 ∨ p = 0)) :
    chain (AddApprover db nfaID approverID p comments).2 nfaID =
      ((chain db nfaID).map fun r =>
        if r.NFAID = nfaID ∧ r.Order ≥ p then { r with Order := r.Order + 1 } else r) ++
      [{ NFAID := nfaID, ApproverID := approverID, Order := p,
         Status := some (if pendingOrderOf db nfaID = 0 ∧ p = 1 then "Pending" else "Waiting"),
         Comments := some comments, StartedDate := none, CompletedDate := none }] := by
  rw [AddApprover_store hv]
  simp only [chain, List.filter_append]
  rw [filter_map_rows _ nfaID (fun r => by split <;> rfl)]
  simp

theorem shiftUp_spec (nfaID p : Int) (r : NFAApprovalList) (hn : r.NFAID = nfaID) :
    (if r.NFAID = nfaID ∧ r.Order ≥ p then { r with Order := r.Order + 1 } else r).Status =
        r.Status ∧
    (if r.NFAID = nfaID ∧ r.Order ≥ p then { r with Order := r.Order + 1 } else r).StartedDate =
        r.StartedDate ∧
    (if r.NFAID = nfaID ∧ r.Order ≥ p then { r with Order := r.Order + 1 } else r).CompletedDate =
        r.CompletedDate ∧
    ((p ≤ r.Order ∧
        (if r.NFAID = nfaID ∧ r.Order ≥ p then { r with Order := r.Order + 1 } else r).Order =
          r.Order + 1) ∨
      (r.Order < p ∧
        (if r.NFAID = nfaID ∧ r.Order ≥ p then { r with Order := r.Order + 1 } else r).Order =
          r.Order)) := by
  by_cases h : r.Order ≥ p
  · rw [if_pos ⟨hn, h⟩]
    exact ⟨rfl, rfl, rfl, Or.inl ⟨h, rfl⟩⟩
  · rw [if_neg fun hc => h hc.2]
    exact ⟨rfl, rfl, rfl, Or.inr ⟨by omega, rfl⟩⟩

theorem shiftDown_spec (nfaID d : Int) (r : NFAApprovalList) (hn : r.NFAID = nfaID) :
    (if r.NFAID = nfaID ∧ r.Order > d then { r with Order := r.Order - 1 } else r).Status =
        r.Status ∧
    (if r.NFAID = nfaID ∧ r.Order > d then { r with Order := r.Order - 1 } else r).StartedDate =
        r.StartedDate ∧
    (if r.NFAID = nfaID ∧ r.Order > d then { r with Order := r.Order - 1 } else r).CompletedDate =
        r.CompletedDate ∧
    ((d < r.Order ∧
        (if r.NFAID = nfaID ∧ r.Order > d then { r with Order := r.Order - 1 } else r).Order =
          r.Order - 1) ∨
      (r.Order ≤ d ∧
        (if r.NFAID = nfaID ∧ r.Order > d then { r with Order := r.Order - 1 } else r).Order =
          r.Order)) := by
  by_cases h : r.Order > d
  · rw [if_pos ⟨hn, h⟩]
    exact ⟨rfl, rfl, rfl, Or.inl ⟨h, rfl⟩⟩
  · rw [if_neg fun hc => h hc.2]
    exact ⟨rfl, rfl, rfl, Or.inr ⟨by omega, rfl⟩⟩

theorem terminal_of_status_eq {r r' : NFAApprovalList} (h : r'.Status = r.Status) :
    Terminal r' ↔ Terminal r := by
  unfold Terminal
  rw [h]

theorem not_terminal_of_waiting {r : NFAApprovalList} (h : r.Status = some "Waiting") :
    ¬ Terminal r := by
  unfold Terminal
  rw [h]
  decide

theorem not_terminal_of_pending {r : NFAApprovalList} (h : r.Status = some "Pending") :
    ¬ Terminal r := by
  unfold Terminal
  rw [h]
  decide

theorem ordered_AddApprover {db : DB} {nfaID : Int} (approverID p : Int) (comments : String)
    (ho : Ordered db nfaID) (hp : 1 ≤ p)
    (hw : ∀ r ∈ chain db nfaID, r.Status ≠ some "Waiting" → r.Order < p) :
    Ordered (AddApprover db nfaID approverID p comments).2 nfaID := by
  by_cases hv : nfaID = 0 ∨ approverID = 0 ∨ p = 0
  · unfold AddApprover
    rw [if_pos hv]
    exact ho
  obtain ⟨hk, hs, hi⟩ := ho
  have hnew : (if pendingOrderOf db nfaID = 0 ∧ p = 1 then "Pending" else "Waiting") =
      "Waiting" ∨
      ((if pendingOrderOf db nfaID = 0 ∧ p = 1 then "Pending" else "Waiting") = "Pending" ∧
        p = 1) := by
    by_cases hc : pendingOrderOf db nfaID = 0 ∧ p = 1
    · rw [if_pos hc]
      exact Or.inr ⟨rfl, hc.2⟩
    · rw [if_neg hc]
      exact Or.inl rfl
  unfold Ordered
  rw [chain_AddApprover_same db nfaID approverID p comments hv, nfa_AddApprover]
  generalize (if pendingOrderOf db nfaID = 0 ∧ p = 1 then "Pending" else "Waiting") = st
    at hnew ⊢
  have hmem : ∀ x, x ∈ ((chain db nfaID).map fun r =>
        if r.NFAID = nfaID ∧ r.Order ≥ p then { r with Order := r.Order + 1 } else r) ++
      [({ NFAID := nfaID, ApproverID := approverID, Order := p, Status := some st,
          Comments := some comments, StartedDate := none, CompletedDate := none } :
        NFAApprovalList)] →
      (∃ r ∈ chain db nfaID, x.Status = r.Status ∧ x.StartedDate = r.StartedDate ∧
        ((p ≤ r.Order ∧ x.Order = r.Order + 1) ∨ (r.Order < p ∧ x.Order = r.Order))) ∨
      (x.Order = p ∧ x.Status = some st ∧ x.StartedDate = none) := by
    intro x hx
    simp only [List.mem_append, List.mem_map, List.mem_singleton] at hx
    rcases hx with ⟨r, hr, rfl⟩ | rfl
    · have hn := ((mem_chain_iff db nfaID r).mp hr).2
      obtain ⟨h1, h2, -, h4⟩ := shiftUp_spec nfaID p r hn
      exact Or.inl ⟨r, hr, h1, h2, h4⟩
    · exact Or.inr ⟨rfl, rfl, rfl⟩
  refine ⟨?_, ?_, ?_⟩
  · intro x hx
    rcases hmem x hx with ⟨r, hr, h1, -, h4⟩ | ⟨h1, h2, -⟩
    · have hkr := hk r hr
      refine ⟨by omega, ?_⟩
      rw [terminal_of_status_eq h1, h1]
      exact hkr.2
    · refine ⟨by omega, ?_⟩
      rw [h2]
      rcases hnew with h | h
      · exact Or.inr (Or.inr (by rw [h]))
      · exact Or.inr (Or.inl (by rw [h.1]))
  · intro a ha b hb hab
    rcases hmem a ha with ⟨r, hr, h1, -, h4⟩ | ⟨h1, h2, -⟩
    · rcases hmem b hb with ⟨r', hr', h1', -, h4'⟩ | ⟨h1', h2', -⟩
      · rw [terminal_of_status_eq h1, h1']
        exact hs r hr r' hr' (by omega)
      · rcases hnew with h | h
        · exact Or.inr (by rw [h2', h])
        · have := (hk r hr).1
          omega
    · rcases hmem b hb with ⟨r', hr', h1', -, h4'⟩ | ⟨h1', h2', -⟩
      · right
        rw [h1']
        by_contra hnw
        have := hw r' hr' hnw
        omega
      · omega
  · intro n hn hid hst x hx
    rcases hmem x hx with ⟨r, hr, h1, h2, -⟩ | ⟨-, h2, h3⟩
    · rw [terminal_of_status_eq h1, h2]
      exact hi n hn hid hst r hr
    · refine ⟨?_, h3⟩
      rcases hnew with h | h
      · exact not_terminal_of_waiting (by rw [h2, h])
      · exact not_terminal_of_pending (by rw [h2, h.1])

theorem uniquePositions_AddApprover {db : DB} {nfaID : Int} (approverID p : Int)
    (comments : String) (hu : UniquePositions db nfaID) :
    UniquePositions (AddApprover db nfaID approverID p comments).2 nfaID := by
  by_cases hv : nfaID = 0 ∨ approverID = 0 ∨ p = 0
  · unfold AddApprover
    rw [if_pos hv]
    exact hu
  unfold UniquePositions at hu ⊢
  rw [positions_AddApprover db nfaID approverID p comments hv]
  rw [List.nodup_append]
  refine ⟨?_, List.nodup_singleton p, ?_⟩
  · apply List.Nodup.map_on _ hu
    intro x _ y _ hxy
    split_ifs at hxy <;> omega
  · intro x hx hxp
    simp only [List.mem_map, List.mem_singleton] at hx hxp
    obtain ⟨o, -, ho⟩ := hx
    subst hxp
    split_ifs at ho <;> omega

theorem minWaitingOrder_eq_some {db : DB} {nfaID k : Int}
    (h : minWaitingOrder db nfaID = some k) :
    (∃ s ∈ chain db nfaID, s.Status = some "Waiting" ∧ s.Order = k) ∧
      ∀ t ∈ chain db nfaID, t.Status = some "Waiting" → k ≤ t.Order := by
  by_cases hw : ∃ w ∈ db.nfa_approval_list, w.NFAID = nfaID ∧ w.Status = some "Waiting"
  · obtain ⟨k', hk', ⟨s, hs, hsn, hss, hso⟩, h2⟩ := minWaitingOrder_spec hw
    rw [h] at hk'
    simp only [Option.some.injEq] at hk'
    subst hk'
    refine ⟨⟨s, (mem_chain_iff db nfaID s).mpr ⟨hs, hsn⟩, hss, hso⟩, ?_⟩
    intro t ht hts
    rw [mem_chain_iff] at ht
    exact h2 t ht.1 ht.2 hts
  · exfalso
    unfold minWaitingOrder at h
    have hnil : (db.nfa_approval_list.filter fun r =>
        decide (r.NFAID = nfaID ∧ r.Status = some "Waiting")) = [] := by
      rw [List.filter_eq_nil_iff]
      intro r hr
      simp only [decide_eq_true_eq]
      exact fun hc => hw ⟨r, hr, hc⟩
    rw [hnil] at h
    simp at h

theorem promoteNext_spec (db : DB) (nfaID : Int) :
    ∀ x ∈ chain (promoteNext db nfaID) nfaID, ∃ r ∈ chain db nfaID,
      x.Order = r.Order ∧ x.StartedDate = r.StartedDate ∧
      x.CompletedDate = r.CompletedDate ∧
      (x.Status = r.Status ∨
        (x.Status = some "Pending" ∧
          (∃ w ∈ chain db nfaID, w.Status = some "Waiting" ∧ w.Order = r.Order) ∧
          ∀ t ∈ chain db nfaID, t.Status = some "Waiting" → r.Order ≤ t.Order)) := by
  have hch : chain (promoteNext db nfaID) nfaID =
      (chain db nfaID).map fun r =>
        if r.NFAID = nfaID ∧ some r.Order = minWaitingOrder db nfaID then
          { r with Status := some "Pending" }
        else r := by
    unfold promoteNext
    exact chain_map_rows db _ nfaID (fun r => by split <;> rfl)
  rw [hch]
  intro x hx
  simp only [List.mem_map] at hx
  obtain ⟨r, hr, rfl⟩ := hx
  refine ⟨r, hr, ?_⟩
  by_cases hc : r.NFAID = nfaID ∧ some r.Order = minWaitingOrder db nfaID
  · rw [if_pos hc]
    obtain ⟨⟨s, hs, hss, hso⟩, hmin⟩ := minWaitingOrder_eq_some hc.2.symm
    exact ⟨rfl, rfl, rfl, Or.inr ⟨rfl, ⟨s, hs, hss, hso⟩, hmin⟩⟩
  · rw [if_neg hc]
    exact ⟨rfl, rfl, rfl, Or.inl rfl⟩

theorem removed_spec (db : DB) (nfaID approverID d : Int) :
    ∀ x ∈ chain (shiftDown (deleteApprover db nfaID approverID) nfaID d) nfaID,
      ∃ r ∈ chain db nfaID, x.Status = r.Status ∧ x.StartedDate = r.StartedDate ∧
        x.CompletedDate = r.CompletedDate ∧
        ((d < r.Order ∧ x.Order = r.Order - 1) ∨ (r.Order ≤ d ∧ x.Order = r.Order)) := by
  rw [chain_removed]
  intro x hx
  simp only [List.mem_map] at hx
  obtain ⟨r, hr, rfl⟩ := hx
  have hrc := (List.mem_filter.mp hr).1
  have hn := ((mem_chain_iff db nfaID r).mp hrc).2
  obtain ⟨h1, h2, h3, h4⟩ := shiftDown_spec nfaID d r hn
  exact ⟨r, hrc, h1, h2, h3, h4⟩

theorem ordered_removed {db : DB} {nfaID : Int} (approverID d : Int) (hd : 1 ≤ d)
    (ho : Ordered db nfaID) :
    Ordered (shiftDown (deleteApprover db nfaID approverID) nfaID d) nfaID := by
  obtain ⟨hk, hs, hi⟩ := ho
  have hspec := removed_spec db nfaID approverID d
  refine ⟨?_, ?_, ?_⟩
  · intro x hx
    obtain ⟨r, hr, h1, -, -, h4⟩ := hspec x hx
    have hkr := hk r hr
    refine ⟨by omega, ?_⟩
    rw [terminal_of_status_eq h1, h1]
    exact hkr.2
  · intro a ha b hb hab
    obtain ⟨r, hr, h1, -, -, h4⟩ := hspec a ha
    obtain ⟨r', hr', h1', -, -, h4'⟩ := hspec b hb
    rw [terminal_of_status_eq h1, h1']
    exact hs r hr r' hr' (by omega)
  · intro n hn hid hst x hx
    obtain ⟨r, hr, h1, h2, -, -⟩ := hspec x hx
    rw [terminal_of_status_eq h1, h2]
    exact hi n hn hid hst r hr

theorem ordered_promoteNext {db : DB} {nfaID : Int} (ho : Ordered db nfaID)
    (hnp : ∀ r ∈ chain db nfaID, r.Status ≠ some "Pending") :
    Ordered (promoteNext db nfaID) nfaID := by
  obtain ⟨hk, hs, hi⟩ := ho
  have hspec := promoteNext_spec db nfaID
  refine ⟨?_, ?_, ?_⟩
  · intro x hx
    obtain ⟨r, hr, h1, -, -, h4⟩ := hspec x hx
    have hkr := hk r hr
    refine ⟨by omega, ?_⟩
    rcases h4 with h4 | h4
    · rw [terminal_of_status_eq h4, h4]
      exact hkr.2
    · exact Or.inr (Or.inl h4.1)
  · intro a ha b hb hab
    obtain ⟨r, hr, h1, -, -, h4⟩ := hspec a ha
    obtain ⟨r', hr', h1', -, -, h4'⟩ := hspec b hb
    rcases h4 with h4 | ⟨-, ⟨w, hw, hws, hwo⟩, hmin⟩
    · rcases h4' with h4' | ⟨-, -, hmin'⟩
      · rw [terminal_of_status_eq h4, h4']
        exact hs r hr r' hr' (by omega)
      · left
        rw [terminal_of_status_eq h4]
        rcases (hk r hr).2 with ht | hp | hw
        · exact ht
        · exact absurd hp (hnp r hr)
        · have := hmin' r hr hw
          omega
    · rcases h4' with h4' | ⟨-, -, hmin'⟩
      · right
        rw [h4']
        rcases hs w hw r' hr' (by omega) with ht | hw'
        · exact absurd ht (not_terminal_of_waiting hws)
        · exact hw'
      · have := hmin' w hw hws
        omega
  · intro n hn hid hst x hx
    obtain ⟨r, hr, -, h2, -, h4⟩ := hspec x hx
    have hir := hi n hn hid hst r hr
    rw [h2]
    refine ⟨?_, hir.2⟩
    rcases h4 with h4 | h4
    · rw [terminal_of_status_eq h4]
      exact hir.1
    · exact not_terminal_of_pending h4.1

theorem deletedOrder_mem {db : DB} {nfaID approverID d : Int}
    (hd : deletedOrderOf db nfaID approverID = some d) :
    ∃ r0 ∈ chain db nfaID, r0.ApproverID = approverID ∧ r0.Order = d := by
  by_cases hex : ∃ r ∈ db.nfa_approval_list, r.NFAID = nfaID ∧ r.ApproverID = approverID
  · obtain ⟨r0, hr0, hn, ha, hd'⟩ := deletedOrderOf_spec hex
    rw [hd] at hd'
    simp only [Option.some.injEq] at hd'
    exact ⟨r0, (mem_chain_iff db nfaID r0).mpr ⟨hr0, hn⟩, ha, hd'.symm⟩
  · rw [deletedOrderOf_eq_none fun r hr hc => hex ⟨r, hr, hc⟩] at hd
    simp at hd

theorem pendingExists_eq_false_chain {db : DB} {nfaID : Int}
    (h : pendingExists db nfaID = false) :
    ∀ r ∈ chain db nfaID, r.Status ≠ some "Pending" := by
  intro r hr
  rw [mem_chain_iff] at hr
  exact (pendingExists_eq_false_iff db nfaID).mp h r hr.1 hr.2

theorem ordered_RemoveApprover {db : DB} {nfaID : Int} (approverID : Int)
    (ho : Ordered db nfaID) : Ordered (RemoveApprover db approverID nfaID).2 nfaID := by
  cases hd : deletedOrderOf db nfaID approverID with
  | none =>
    unfold RemoveApprover
    rw [hd]
    exact ho
  | some d =>
    obtain ⟨r0, hr0, -, hr0d⟩ := deletedOrder_mem hd
    have hd1 : 1 ≤ d := by
      have := (ho.1 r0 hr0).1
      omega
    have h2 := ordered_removed approverID d hd1 ho
    rw [RemoveApprover_of_deletedOrder hd]
    simp only
    cases hpe : pendingExists (shiftDown (deleteApprover db nfaID approverID) nfaID d) nfaID
    · simp only [Bool.false_eq_true, if_false]
      exact ordered_promoteNext h2 (pendingExists_eq_false_chain hpe)
    · simp only [if_true]
      exact h2

theorem uniquePositions_RemoveApprover {db : DB} {nfaID : Int} (approverID : Int)
    (hu : UniquePositions db nfaID) :
    UniquePositions (RemoveApprover db approverID nfaID).2 nfaID := by
  cases hd : deletedOrderOf db nfaID approverID with
  | none =>
    unfold RemoveApprover
    rw [hd]
    exact hu
  | some d =>
    obtain ⟨r0, hr0, hr0a, hr0d⟩ := deletedOrder_mem hd
    have h2 := uniquePositions_removed hu hr0 hr0a
    rw [hr0d] at h2
    rw [RemoveApprover_of_deletedOrder hd]
    simp only
    split
    · exact h2
    · exact uniquePositions_of_positions_eq (positions_promoteNext _ _) h2

theorem closeApproval_spec {db : DB} {nfaID userID k : Int} {m : NFAApprovalList}
    (now : Nat) (st comment : String) (hu : UniquePositions db nfaID)
    (hm : m ∈ chain db nfaID) (hma : m.ApproverID = userID) (hmo : m.Order = k) :
    ∀ x ∈ chain (closeApproval db now st comment nfaID userID k) nfaID,
      ∃ r ∈ chain db nfaID, x.Order = r.Order ∧ x.StartedDate = r.StartedDate ∧
        ((r.Order ≠ k ∧ x.Status = r.Status ∧ x.CompletedDate = r.CompletedDate) ∨
          (r = m ∧ x.Status = some st ∧ x.CompletedDate = some now)) := by
  have hch : chain (closeApproval db now st comment nfaID userID k) nfaID =
      (chain db nfaID).map fun r =>
        if r.NFAID = nfaID ∧ r.ApproverID = userID ∧ r.Order = k then
          { r with Status := some st, Comments := NULLIF comment "",
                   CompletedDate := some now }
        else r := by
    unfold closeApproval
    exact chain_map_rows db _ nfaID (fun r => by split <;> rfl)
  rw [hch]
  intro x hx
  simp only [List.mem_map] at hx
  obtain ⟨r, hr, rfl⟩ := hx
  refine ⟨r, hr, ?_⟩
  have hn := ((mem_chain_iff db nfaID r).mp hr).2
  by_cases hc : r.NFAID = nfaID ∧ r.ApproverID = userID ∧ r.Order = k
  · rw [if_pos hc]
    have hrm : r = m := List.inj_on_of_nodup_map hu hr hm (hc.2.2.trans hmo.symm)
    exact ⟨rfl, rfl, Or.inr ⟨hrm, rfl, rfl⟩⟩
  · rw [if_neg hc]
    refine ⟨rfl, rfl, Or.inl ⟨?_, rfl, rfl⟩⟩
    intro hk
    have hrm : r = m := List.inj_on_of_nodup_map hu hr hm (hk.trans hmo.symm)
    exact hc ⟨hn, hrm ▸ hma, hk⟩

theorem startApproval_spec (db : DB) (now : Nat) (nfaID j : Int) :
    ∀ x ∈ chain (startApproval db now nfaID j) nfaID,
      ∃ r ∈ chain db nfaID, x.Order = r.Order ∧ x.CompletedDate = r.CompletedDate ∧
        ((r.Order ≠ j ∧ x.Status = r.Status ∧ x.StartedDate = r.StartedDate) ∨
          (r.Order = j ∧ x.Status = some "Pending" ∧ x.StartedDate = some now)) := by
  have hch : chain (startApproval db now nfaID j) nfaID =
      (chain db nfaID).map fun r =>
        if r.NFAID = nfaID ∧ r.Order = j then
          { r with StartedDate := some now, Status := some "Pending" }
        else r := by
    unfold startApproval
    exact chain_map_rows db _ nfaID (fun r => by split <;> rfl)
  rw [hch]
  intro x hx
  simp only [List.mem_map] at hx
  obtain ⟨r, hr, rfl⟩ := hx
  refine ⟨r, hr, ?_⟩
  have hn := ((mem_chain_iff db nfaID r).mp hr).2
  by_cases hc : r.NFAID = nfaID ∧ r.Order = j
  · rw [if_pos hc]
    exact ⟨rfl, rfl, Or.inr ⟨hc.2, rfl, rfl⟩⟩
  · rw [if_neg hc]
    exact ⟨rfl, rfl, Or.inl ⟨fun h => hc ⟨hn, h⟩, rfl, rfl⟩⟩

theorem updateNFAStatus_status (db : DB) (nfaID : Int) (s : String) :
    ∀ n ∈ (updateNFAStatus db nfaID s).nfa, n.NFAID = nfaID → n.Status = s := by
  intro n hn hid
  simp only [updateNFAStatus, List.mem_map] at hn
  obtain ⟨k, -, hk⟩ := hn
  by_cases hc : k.NFAID = nfaID
  · rw [if_pos hc] at hk
    rw [← hk]
  · rw [if_neg hc] at hk
    rw [← hk] at hid
    exact absurd hid hc

theorem currentOrderOf_some_mem {db : DB} {nfaID userID k : Int}
    (hc : currentOrderOf db nfaID userID = some k) :
    ∃ m ∈ chain db nfaID, m.ApproverID = userID ∧ Active m ∧ m.Order = k := by
  unfold currentOrderOf at hc
  cases hf : db.nfa_approval_list.find? (isCurrentApproverRow nfaID userID) with
  | none => simp [hf] at hc
  | some m =>
    simp only [hf, Option.map_some', Option.some.injEq] at hc
    have hp := List.find?_some hf
    have hmem := List.mem_of_find?_eq_some hf
    rw [isCurrentApproverRow_iff] at hp
    exact ⟨m, (mem_chain_iff db nfaID m).mpr ⟨hmem, hp.1⟩, hp.2.1, hp.2.2, hc⟩

theorem ordered_of_no_pending_request {db : DB} {nfaID : Int}
    (hk : ∀ r ∈ chain db nfaID, 1 ≤ r.Order ∧
      (Terminal r ∨ r.Status = some "Pending" ∨ r.Status = some "Waiting"))
    (hs : ∀ a ∈ chain db nfaID, ∀ b ∈ chain db nfaID, a.Order < b.Order →
      Terminal a ∨ b.Status = some "Waiting")
    (hnp : ∀ n ∈ db.nfa, n.NFAID = nfaID → n.Status ≠ "Pending") : Ordered db nfaID :=
  ⟨hk, hs, fun n hn hid hst => absurd hst (hnp n hn hid)⟩

theorem ordered_updateNFAStatus {db : DB} {nfaID : Int} (s : String) (hs : s ≠ "Pending")
    (ho : Ordered db nfaID) : Ordered (updateNFAStatus db nfaID s) nfaID :=
  ordered_of_no_pending_request ho.1 ho.2.1
    fun n hn hid => by rw [updateNFAStatus_status db nfaID s n hn hid]; exact hs

theorem ordered_closeApproval {db : DB} {nfaID userID k : Int} {m : NFAApprovalList}
    (now : Nat) (st comment : String) (hst : st = "Approved" ∨ st = "Rejected")
    (hu : UniquePositions db nfaID) (hm : m ∈ chain db nfaID) (hma : m.ApproverID = userID)
    (hmo : m.Order = k) (hmp : m.Status = some "Pending") (ho : Ordered db nfaID)
    (hnp : ∀ n ∈ db.nfa, n.NFAID = nfaID → n.Status ≠ "Pending") :
    Ordered (closeApproval db now st comment nfaID userID k) nfaID ∧
      ∀ x ∈ chain (closeApproval db now st comment nfaID userID k) nfaID,
        (x.Order ≤ k → Terminal x) ∧ (k < x.Order → x.Status = some "Waiting") := by
  obtain ⟨hk, hs, -⟩ := ho
  have hspec := closeApproval_spec now st comment hu hm hma hmo
  have hterm : ∀ x : NFAApprovalList, x.Status = some st → Terminal x := by
    intro x hx
    unfold Terminal
    rw [hx]
    rcases hst with h | h
    · exact Or.inl (by rw [h])
    · exact Or.inr (Or.inl (by rw [h]))
  have hnt := not_terminal_of_pending hmp
  have hnw : m.Status ≠ some "Waiting" := by
    rw [hmp]
    decide
  refine ⟨ordered_of_no_pending_request ?_ ?_ hnp, ?_⟩
  · intro x hx
    obtain ⟨r, hr, h1, -, h4⟩ := hspec x hx
    refine ⟨by rw [h1]; exact (hk r hr).1, ?_⟩
    rcases h4 with ⟨-, h4, -⟩ | ⟨-, h4, -⟩
    · rw [terminal_of_status_eq h4, h4]
      exact (hk r hr).2
    · exact Or.inl (hterm x h4)
  · intro a ha b hb hab
    obtain ⟨r, hr, h1, -, h4⟩ := hspec a ha
    obtain ⟨r', hr', h1', -, h4'⟩ := hspec b hb
    rcases h4 with ⟨-, h4, -⟩ | ⟨-, h4, -⟩
    · rcases h4' with ⟨-, h4', -⟩ | ⟨hrm, -, -⟩
      · rw [terminal_of_status_eq h4, h4']
        exact hs r hr r' hr' (by omega)
      · left
        rw [terminal_of_status_eq h4]
        subst hrm
        rcases hs r hr r' hr' (by omega) with h | h
        · exact h
        · exact absurd h hnw
    · exact Or.inl (hterm a h4)
  · intro x hx
    obtain ⟨r, hr, h1, -, h4⟩ := hspec x hx
    rcases h4 with ⟨hne, h4, -⟩ | ⟨hrm, h4, -⟩
    · constructor
      · intro hle
        rw [terminal_of_status_eq h4]
        rcases hs r hr m hm (by omega) with h | h
        · exact h
        · exact absurd h hnw
      · intro hlt
        rw [h4]
        rcases hs m hm r hr (by omega) with h | h
        · exact absurd h hnt
        · exact h
    · refine ⟨fun _ => hterm x h4, fun hlt => ?_⟩
      rw [h1, hrm, hmo] at hlt
      omega

theorem ordered_startApproval_next {db : DB} {nfaID k : Int} (now : Nat)
    (ho : Ordered db nfaID)
    (hsplit : ∀ x ∈ chain db nfaID,
      (x.Order ≤ k → Terminal x) ∧ (k < x.Order → x.Status = some "Waiting"))
    (hnp : ∀ n ∈ db.nfa, n.NFAID = nfaID → n.Status ≠ "Pending") :
    Ordered (startApproval db now nfaID (k + 1)) nfaID := by
  obtain ⟨hk, -, -⟩ := ho
  have hspec := startApproval_spec db now nfaID (k + 1)
  refine ordered_of_no_pending_request ?_ ?_ hnp
  · intro x hx
    obtain ⟨r, hr, h1, -, h4⟩ := hspec x hx
    refine ⟨by rw [h1]; exact (hk r hr).1, ?_⟩
    rcases h4 with ⟨-, h4, -⟩ | ⟨-, h4, -⟩
    · rw [terminal_of_status_eq h4, h4]
      exact (hk r hr).2
    · exact Or.inr (Or.inl h4)
  · intro a ha b hb hab
    obtain ⟨r, hr, h1, -, h4⟩ := hspec a ha
    obtain ⟨r', hr', h1', -, h4'⟩ := hspec b hb
    by_cases hle : r.Order ≤ k
    · left
      rcases h4 with ⟨-, h4, -⟩ | ⟨h4, -, -⟩
      · rw [terminal_of_status_eq h4]
        exact (hsplit r hr).1 hle
      · omega
    · right
      rcases h4' with ⟨-, h4', -⟩ | ⟨h4', -, -⟩
      · rw [h4']
        exact (hsplit r' hr').2 (by omega)
      · omega

theorem ordered_startApproval_first {db : DB} {nfaID : Int} (now : Nat)
    (ho : Ordered db nfaID) (hrec : ∃ n ∈ db.nfa, n.NFAID = nfaID ∧ n.Status = "Pending") :
    Ordered (startApproval (updateNFAStatus db nfaID "Initiated") now nfaID 1) nfaID := by
  obtain ⟨hk, hs, hi⟩ := ho
  obtain ⟨n, hn, hid, hst⟩ := hrec
  have hnt := hi n hn hid hst
  have hspec := startApproval_spec (updateNFAStatus db nfaID "Initiated") now nfaID 1
  have hchain : chain (updateNFAStatus db nfaID "Initiated") nfaID = chain db nfaID := rfl
  rw [hchain] at hspec
  refine ordered_of_no_pending_request ?_ ?_ ?_
  · intro x hx
    obtain ⟨r, hr, h1, -, h4⟩ := hspec x hx
    refine ⟨by rw [h1]; exact (hk r hr).1, ?_⟩
    rcases h4 with ⟨-, h4, -⟩ | ⟨-, h4, -⟩
    · rw [terminal_of_status_eq h4, h4]
      exact (hk r hr).2
    · exact Or.inr (Or.inl h4)
  · intro a ha b hb hab
    obtain ⟨r, hr, h1, -, h4⟩ := hspec a ha
    obtain ⟨r', hr', h1', -, h4'⟩ := hspec b hb
    right
    have h1r := (hk r hr).1
    rcases h4' with ⟨-, h4', -⟩ | ⟨h4', -, -⟩
    · rw [h4']
      rcases hs r hr r' hr' (by omega) with h | h
      · exact absurd h (hnt r hr).1
      · exact h
    · omega
  · intro n' hn' hid'
    have := updateNFAStatus_status db nfaID "Initiated" n' hn' hid'
    rw [this]
    decide

theorem ordered_ApproveOrRejectNFA {db : DB} {nfaID : Int} (now : Nat) (userID : Int)
    (action comment : String) (hu : UniquePositions db nfaID) (ho : Ordered db nfaID)
    (hfit : ∀ m ∈ chain db nfaID, Active m → m.Order < 2 ^ 63) :
    Ordered (ApproveOrRejectNFA db now userID nfaID action comment).2 nfaID := by
  unfold ApproveOrRejectNFA
  split
  · exact ho
  split
  · exact ho
  split
  · exact ho
  split
  next hrec =>
    obtain ⟨n, hn, hid, -, hst⟩ := (isRecommender_iff _ _ _).mp hrec
    simp only
    unfold processRecommenderAction
    split
    · simp only
      split
      · exact ordered_updateNFAStatus "Completed" (by decide) ho
      · exact ordered_startApproval_first now ho ⟨n, hn, hid, hst⟩
    · split
      · refine ordered_of_no_pending_request ho.1 ho.2.1 ?_
        intro n' hn' hid'
        simp only [List.mem_map] at hn'
        obtain ⟨k, -, hk⟩ := hn'
        by_cases hc : k.NFAID = nfaID
        · rw [if_pos hc] at hk
          rw [← hk]
          simp
        · rw [if_neg hc] at hk
          rw [← hk] at hid'
          exact absurd hid' hc
      · exact ho
  next =>
    split
    · exact ho
    next k hcur =>
      obtain ⟨m, hm, hma, hact, hmo⟩ := currentOrderOf_some_mem hcur
      have hnp : ∀ n ∈ db.nfa, n.NFAID = nfaID → n.Status ≠ "Pending" := by
        intro n hn hid hst
        exact hact.2.1 (ho.2.2 n hn hid hst m hm).2
      simp only
      unfold processApproverAction
      split
      · obtain ⟨ho1, hsplit⟩ := ordered_closeApproval now "Approved" comment (Or.inl rfl)
          hu hm hma hmo hact.1 ho hnp
        have h1k : 1 ≤ k := hmo ▸ (ho.1 m hm).1
        have h2k : k < 2 ^ 63 := hmo ▸ hfit m hm hact
        simp only
        split
        next hyes =>
          have hq : goInt (k + 1) = k + 1 := by
            rcases goInt_succ_of_pos h1k h2k with hq | hq
            · exact hq
            · exfalso
              obtain ⟨r, hr, hrn, hro⟩ := (approverExistsAt_iff _ _ _).mp hyes
              have := (ho1.1 r ((mem_chain_iff _ _ _).mpr ⟨hr, hrn⟩)).1
              omega
          rw [hq]
          exact ordered_startApproval_next now ho1 hsplit hnp
        · exact ordered_updateNFAStatus "Completed" (by decide) ho1
      · split
        · obtain ⟨ho1, -⟩ := ordered_closeApproval now "Rejected" comment (Or.inr rfl)
            hu hm hma hmo hact.1 ho hnp
          exact ordered_updateNFAStatus "Rejected_By_Approver" (by decide) ho1
        · exact ho

theorem activeIsLowest_of_ordered {db : DB} {nfaID : Int} (ho : Ordered db nfaID) :
    ActiveIsLowest db nfaID := by
  intro n hn hnp m hm hlt
  rcases ho.2.1 m hm n hn hlt with h | h
  · exact h
  · rw [hnp] at h
    exact absurd h (by decide)

theorem ordered_of_chain_nil {db : DB} {nfaID : Int} (h : chain db nfaID = []) :
    UniquePositions db nfaID ∧ Ordered db nfaID ∧ StartedFit db nfaID := by
  unfold UniquePositions Ordered StartedFit
  rw [h]
  simp

theorem startedFit_of_rows (db db' : DB) {nfaID : Int}
    (hspec : ∀ x ∈ chain db' nfaID, x.StartedDate ≠ none →
      (x.Status ≠ some "Waiting" ∧ x.Order < 2 ^ 63) ∨
      ∃ r ∈ chain db nfaID, r.StartedDate ≠ none ∧
        (r.Status ≠ some "Waiting" → x.Status ≠ some "Waiting" ∧ x.Order ≤ r.Order))
    (h : StartedFit db nfaID) : StartedFit db' nfaID := by
  intro x hx hs
  rcases hspec x hx hs with hdone | ⟨r, hr, hrs, hrx⟩
  · exact hdone
  · obtain ⟨h1, h2⟩ := h r hr hrs
    obtain ⟨h3, h4⟩ := hrx h1
    exact ⟨h3, by omega⟩

theorem startedFit_AddApprover {db : DB} {nfaID : Int} (approverID p : Int)
    (comments : String) (h : StartedFit db nfaID)
    (hw : ∀ r ∈ chain db nfaID, r.Status ≠ some "Waiting" → r.Order < p) :
    StartedFit (AddApprover db nfaID approverID p comments).2 nfaID := by
  by_cases hv : nfaID = 0 ∨ approverID = 0 ∨ p = 0
  · unfold AddApprover
    rw [if_pos hv]
    exact h
  refine startedFit_of_rows db _ ?_ h
  rw [chain_AddApprover_same db nfaID approverID p comments hv]
  intro x hx hs
  simp only [List.mem_append, List.mem_map, List.mem_singleton] at hx
  rcases hx with ⟨r, hr, rfl⟩ | rfl
  · have hn := ((mem_chain_iff db nfaID r).mp hr).2
    obtain ⟨h1, h2, -, h4⟩ := shiftUp_spec nfaID p r hn
    rw [h2] at hs
    refine Or.inr ⟨r, hr, hs, fun hnw => ⟨?_, ?_⟩⟩
    · rw [h1]
      exact hnw
    · have := hw r hr hnw
      omega
  · exact absurd rfl hs

theorem startedFit_RemoveApprover {db : DB} {nfaID : Int} (approverID : Int)
    (h : StartedFit db nfaID) : StartedFit (RemoveApprover db approverID nfaID).2 nfaID := by
  cases hd : deletedOrderOf db nfaID approverID with
  | none =>
    unfold RemoveApprover
    rw [hd]
    exact h
  | some d =>
    have h2 : StartedFit (shiftDown (deleteApprover db nfaID approverID) nfaID d) nfaID := by
      refine startedFit_of_rows db _ ?_ h
      intro x hx hs
      obtain ⟨r, hr, e1, e2, -, e4⟩ := removed_spec db nfaID approverID d x hx
      exact Or.inr ⟨r, hr, e2 ▸ hs, fun hnw => ⟨e1 ▸ hnw, by omega⟩⟩
    rw [RemoveApprover_of_deletedOrder hd]
    simp only
    split
    · exact h2
    · refine startedFit_of_rows (shiftDown (deleteApprover db nfaID approverID) nfaID d) _ ?_ h2
      intro x hx hs
      obtain ⟨r, hr, e0, e2, -, e1⟩ := promoteNext_spec _ nfaID x hx
      refine Or.inr ⟨r, hr, e2 ▸ hs, fun hnw => ⟨?_, by omega⟩⟩
      rcases e1 with e1 | e1
      · exact e1 ▸ hnw
      · rw [e1.1]
        decide

theorem startedFit_startApproval {db : DB} {nfaID q : Int} (now : Nat) (hq : q < 2 ^ 63)
    (h : StartedFit db nfaID) : StartedFit (startApproval db now nfaID q) nfaID := by
  refine startedFit_of_rows db _ ?_ h
  intro x hx hs
  obtain ⟨r, hr, e0, -, e⟩ := startApproval_spec db now nfaID q x hx
  rcases e with ⟨-, e1, e2⟩ | ⟨e3, e1, -⟩
  · exact Or.inr ⟨r, hr, e2 ▸ hs, fun hnw => ⟨e1 ▸ hnw, by omega⟩⟩
  · refine Or.inl ⟨?_, by omega⟩
    rw [e1]
    decide

theorem startedFit_closeApproval {db : DB} {nfaID userID k : Int} (now : Nat)
    (st comment : String) (hst : st ≠ "Waiting") (h : StartedFit db nfaID) :
    StartedFit (closeApproval db now st comment nfaID userID k) nfaID := by
  refine startedFit_of_rows db _ ?_ h
  have hch : chain (closeApproval db now st comment nfaID userID k) nfaID =
      (chain db nfaID).map fun r =>
        if r.NFAID = nfaID ∧ r.ApproverID = userID ∧ r.Order = k then
          { r with Status := some st, Comments := NULLIF comment "",
                   CompletedDate := some now }
        else r := by
    unfold closeApproval
    exact chain_map_rows db _ nfaID (fun r => by split <;> rfl)
  rw [hch]
  intro x hx hs
  simp only [List.mem_map] at hx
  obtain ⟨r, hr, rfl⟩ := hx
  by_cases hc : r.NFAID = nfaID ∧ r.ApproverID = userID ∧ r.Order = k
  · rw [if_pos hc] at hs ⊢
    refine Or.inr ⟨r, hr, hs, fun _ => ⟨?_, le_refl _⟩⟩
    simp only [ne_eq, Option.some.injEq]
    exact hst
  · rw [if_neg hc] at hs ⊢
    exact Or.inr ⟨r, hr, hs, fun hnw => ⟨hnw, le_refl _⟩⟩

theorem startedFit_ApproveOrRejectNFA {db : DB} {nfaID : Int} (now : Nat) (userID : Int)
    (action comment : String) (h : StartedFit db nfaID) :
    StartedFit (ApproveOrRejectNFA db now userID nfaID action comment).2 nfaID := by
  unfold ApproveOrRejectNFA
  split
  · exact h
  split
  · exact h
  split
  · exact h
  split
  · simp only
    unfold processRecommenderAction
    split
    · simp only
      split
      · exact h
      · exact startedFit_startApproval now (by norm_num) h
    · split
      · exact h
      · exact h
  · split
    · exact h
    · simp only
      unfold processApproverAction
      split
      · simp only
        split
        · exact startedFit_startApproval now (isGoInt_goInt _).2
            (startedFit_closeApproval now "Approved" comment (by decide) h)
        · exact startedFit_closeApproval now "Approved" comment (by decide) h
      · split
        · exact startedFit_closeApproval now "Rejected" comment (by decide) h
        · exact h

theorem orderedStep_invariant {nfaID : Int} {db db' : DB} (hstep : OrderedStep nfaID db db')
    (h : UniquePositions db nfaID ∧ Ordered db nfaID ∧ StartedFit db nfaID) :
    UniquePositions db' nfaID ∧ Ordered db' nfaID ∧ StartedFit db' nfaID := by
  cases hstep with
  | add approverID p comments hp =>
    exact ⟨uniquePositions_AddApprover approverID p comments h.1,
      ordered_AddApprover approverID p comments h.2.1 hp.1 hp.2,
      startedFit_AddApprover approverID p comments h.2.2 hp.2⟩
  | remove approverID =>
    exact ⟨uniquePositions_RemoveApprover approverID h.1,
      ordered_RemoveApprover approverID h.2.1, startedFit_RemoveApprover approverID h.2.2⟩
  | act now userID action comment =>
    exact ⟨uniquePositions_of_positions_eq (positions_ApproveOrRejectNFA _ _ _ _ _ _ _) h.1,
      ordered_ApproveOrRejectNFA now userID action comment h.1 h.2.1
        (fun m hm hact => (h.2.2 m hm hact.2.1).2),
      startedFit_ApproveOrRejectNFA now userID action comment h.2.2⟩

/-- C25, counterexample: on the empty chain of request 1, `AddApprover` inserts user 10
at position 1, as a Pending member, and then user 11 at position 1 again: user 10 is
Pending at position 2 above user 11, who is Waiting at position 1.  And when user 10
is inserted at position -1 and then user 11 at position 1, user 11 is Pending at
position 1 above user 10, who is Waiting at position -1. -/
theorem active_member_is_lowest_counterexample :
    chain storeNoChain 1 = [] ∧
    (AddApprover storeNoChain 1 10 1 "").1 = Response.OK ∧
    (AddApprover (AddApprover storeNoChain 1 10 1 "").2 1 11 1 "").1 = Response.OK ∧
    ((chain (AddApprover (AddApprover storeNoChain 1 10 1 "").2 1 11 1 "").2 1).map
        fun r => (r.ApproverID, r.Order, r.Status)) =
      [(10, 2, some "Pending"), (11, 1, some "Waiting")] ∧
    ¬ ActiveIsLowest (AddApprover (AddApprover storeNoChain 1 10 1 "").2 1 11 1 "").2 1 ∧
    (AddApprover storeNoChain 1 10 (-1) "").1 = Response.OK ∧
    (AddApprover (AddApprover storeNoChain 1 10 (-1) "").2 1 11 1 "").1 = Response.OK ∧
    ((chain (AddApprover (AddApprover storeNoChain 1 10 (-1) "").2 1 11 1 "").2 1).map
        fun r => (r.ApproverID, r.Order, r.Status)) =
      [(10, -1, some "Waiting"), (11, 1, some "Pending")] ∧
    ¬ ActiveIsLowest (AddApprover (AddApprover storeNoChain 1 10 (-1) "").2 1 11 1 "").2 1 := by
  decide

/-- C25, amended: start from a store in which the chain of the request is empty and
make any finite sequence of calls on the request, each an `AddApprover` at a position
of at least 1 that is above the position of every member that is not Waiting, a
`RemoveApprover` or an `ApproveOrRejectNFA`.  In the state reached, if a member at
position n is Pending then every member at a position lower than n is in a terminal
state (Approved, Rejected or Complete). -/
theorem active_member_is_lowest (nfaID : Int) (db0 db : DB)
    (hempty : chain db0 nfaID = [])
    (hreach : Relation.ReflTransGen (OrderedStep nfaID) db0 db) :
    ∀ n ∈ chain db nfaID, n.Status = some "Pending" →
      ∀ m ∈ chain db nfaID, m.Order < n.Order → Terminal m := by
  have hinv : UniquePositions db nfaID ∧ Ordered db nfaID ∧ StartedFit db nfaID := by
    induction hreach with
    | refl => exact ordered_of_chain_nil hempty
    | tail _ hstep ih => exact orderedStep_invariant hstep ih
  exact activeIsLowest_of_ordered hinv.2.1

/-- C25, witness: from the empty chain of request 1, insert user 10 at position 1 and
user 11 at position 2, let the recommender (user 9) approve and then user 10 approve:
user 11 is Pending at position 2 and user 10, below, is Approved. -/
theorem active_member_is_lowest_witness :
    (∀ n ∈ chain
        (ApproveOrRejectNFA
          (ApproveOrRejectNFA (AddApprover (AddApprover storeNoChain 1 10 1 "").2 1 11 2 "").2
            5 9 1 "approve" "").2
          6 10 1 "approve" "").2 1,
      n.Status = some "Pending" →
      ∀ m ∈ chain
          (ApproveOrRejectNFA
            (ApproveOrRejectNFA (AddApprover (AddApprover storeNoChain 1 10 1 "").2 1 11 2 "").2
              5 9 1 "approve" "").2
            6 10 1 "approve" "").2 1,
        m.Order < n.Order → Terminal m) ∧
    ((chain
        (ApproveOrRejectNFA
          (ApproveOrRejectNFA (AddApprover (AddApprover storeNoChain 1 10 1 "").2 1 11 2 "").2
            5 9 1 "approve" "").2
          6 10 1 "approve" "").2 1).map
        fun r => (r.ApproverID, r.Order, r.Status)) =
      [(10, 1, some "Approved"), (11, 2, some "Pending")] :=
  ⟨active_member_is_lowest 1 storeNoChain
    (ApproveOrRejectNFA
      (ApproveOrRejectNFA (AddApprover (AddApprover storeNoChain 1 10 1 "").2 1 11 2 "").2
        5 9 1 "approve" "").2
      6 10 1 "approve" "").2
    (by decide)
    (Relation.ReflTransGen.tail
      (Relation.ReflTransGen.tail
        (Relation.ReflTransGen.tail
          (Relation.ReflTransGen.tail Relation.ReflTransGen.refl
            (OrderedStep.add storeNoChain 10 1 "" (by decide)))
          (OrderedStep.add (AddApprover storeNoChain 1 10 1 "").2 11 2 "" (by decide)))
        (OrderedStep.act (AddApprover (AddApprover storeNoChain 1 10 1 "").2 1 11 2 "").2
          5 9 "approve" ""))
      (OrderedStep.act
        (ApproveOrRejectNFA (AddApprover (AddApprover storeNoChain 1 10 1 "").2 1 11 2 "").2
          5 9 1 "approve" "").2
        6 10 "approve" "")),
    by decide⟩

/-! ## The meaning of `Completed` -/

end NfaApp
